import Mathlib

/-!
# buildkite-github-token-server: a shallow embedding of the token broker

The development follows the Go packages of the repository:

* `strings`, `filepath`   the few standard-library string functions the code calls,
                           over sequences of characters;
* `repoparser`            `RepositoryName`, `Equals`, `Matches`, `ExtractOrgRepoFromURL`;
* `api`                   `TokenRequest` and its `UnmarshalJSON`, `TokenResponse`, `HTTPError`;
* `github`                the Forge-App client: `ClientForOrg`, `GetContents`,
                           `CreateInstallationToken`, and the GitOps manifest;
* `buildkite`             `GetPipelineRepo`;
* `server`                `handleError`, `allowRepoAccess`, `handleToken`, the recoverer.

Everything outside the repository (the Forge REST API, the CI GraphQL API, the JWKS cache,
the JWT library, the JSON and YAML decoders, the glob and git-url libraries, the clock) is
an explicit parameter: pure library functions are gathered in `Lib`, remote services in a
`World σ` whose operations take and return a state of an arbitrary type `σ`, so that every
sequence of answers is some world. Every remote call appends an `Event` to a trace.

Go strings are modelled as sequences of Unicode characters, times as integer nanoseconds.
-/

/-! ## Standard-library string functions -/

namespace strings

/-- Scan of `strings.Split`: `skip` counts the characters of a separator occurrence still to
be dropped, `acc` holds the current part in reverse. Occurrences are taken leftmost first
and do not overlap. -/
def splitGo (sep : List Char) : Nat → List Char → List Char → List (List Char)
  | _, acc, [] => [acc.reverse]
  | skip + 1, acc, _ :: cs => splitGo sep skip acc cs
  | 0, acc, c :: cs =>
    if sep.isPrefixOf (c :: cs) then acc.reverse :: splitGo sep (sep.length - 1) [] cs
    else splitGo sep 0 (c :: acc) cs

/-- Go `strings.Split(s, sep)` for a non-empty separator (the code only splits on the
constants `Bearer` and `/`). -/
def Split (s sep : String) : List String :=
  (splitGo sep.data 0 [] s.data).map String.mk

/-- Go `strings.Count(s, sep)` for a non-empty separator: the number of non-overlapping
occurrences, one less than the number of parts of `Split`. -/
def Count (s sep : String) : Nat :=
  (Split s sep).length - 1

/-- Go `strings.HasSuffix`. -/
def HasSuffix (s suffix : String) : Bool :=
  suffix.data.isSuffixOf s.data

/-- Go `strings.TrimSuffix`: `s` without the trailing `suffix`, or `s` itself. -/
def TrimSuffix (s suffix : String) : String :=
  if HasSuffix s suffix then ⟨s.data.take (s.data.length - suffix.data.length)⟩ else s

/-- Go `strings.TrimPrefix`, under the name `TrimLeading`: `s` without the leading `pre`,
or `s` itself. -/
def TrimLeading (s pre : String) : String :=
  if pre.data.isPrefixOf s.data then ⟨s.data.drop pre.data.length⟩ else s

/-- Go `unicode.IsSpace`: the Latin-1 spaces and the other code points of the Unicode
`White_Space` property. -/
def IsSpace (c : Char) : Bool :=
  let n := c.toNat
  (9 ≤ n ∧ n ≤ 13) ∨ n = 32 ∨ n = 133 ∨ n = 160 ∨ n = 5760 ∨ (8192 ≤ n ∧ n ≤ 8202) ∨
    n = 8232 ∨ n = 8233 ∨ n = 8239 ∨ n = 8287 ∨ n = 12288

/-- Go `strings.TrimSpace`: leading and trailing white space removed. -/
def TrimSpace (s : String) : String :=
  ⟨((s.data.dropWhile IsSpace).reverse.dropWhile IsSpace).reverse⟩

end strings

namespace filepath

/-- Scan of `filepath.Ext` from the end of the path: stops with no extension at a path
separator, and at the first dot returns the dot and what follows it. -/
def extGo : List Char → List Char → List Char
  | [], _ => []
  | c :: rest, acc =>
    if c = '/' then [] else if c = '.' then '.' :: acc else extGo rest (c :: acc)

/-- Go `filepath.Ext` (Unix): the suffix beginning at the final dot in the final element of
`path`, empty if there is no dot. -/
def Ext (path : String) : String :=
  ⟨extGo path.data.reverse []⟩

end filepath

/-! ## Errors -/

namespace api

/-- Go `api.HTTPError`, the JSON body of every error response. -/
structure HTTPError where
  Field : String
  Message : String
  RequestID : String
deriving DecidableEq, Repr

/-- Method `HTTPError.Error`. -/
def HTTPError.Error (h : HTTPError) : String :=
  h.Field ++ ": " ++ h.Message

end api

/-- A Go `error` value: either an `*api.HTTPError` or any other error, kept by its
message. The distinction is the one `handleError` makes by type assertion. -/
inductive Error where
  | msg (text : String)
  | http (e : api.HTTPError)
deriving DecidableEq, Repr

/-- The string that the Go method `Error()` returns for an error value. -/
def Error.text : Error → String
  | .msg text => text
  | .http e => e.Error

/-! ## Library functions and remote services -/

namespace giturls

/-- The fields of Go `url.URL` that the repository reads from a parsed git URL. -/
structure URL where
  Scheme : String
  Host : String
  Path : String
deriving DecidableEq, Repr

end giturls

namespace repoparser

/-- Go `repoparser.RepositoryName`. -/
structure RepositoryName where
  Host : String
  Org : String
  Repo : String
deriving DecidableEq, Repr

end repoparser

namespace api

/-- Go `api.rawTokenRequest`: the request body as the JSON decoder fills it. -/
structure rawTokenRequest where
  Repositories : List String
  AccessLevel : String
deriving DecidableEq, Repr

/-- Go `api.TokenRequest`; `AccessLevel` is a Go string type. -/
structure TokenRequest where
  Repositories : List repoparser.RepositoryName
  AccessLevel : String
deriving DecidableEq, Repr

/-- Go `api.TokenResponse`. -/
structure TokenResponse where
  Token : String
  ExpiresAt : Int
  RequestID : String
deriving DecidableEq, Repr

end api

namespace github

/-- Go `github.InstallationPermissions`, restricted to the three permissions the
repository ever sets; an absent permission is `none`. -/
structure InstallationPermissions where
  Metadata : Option String
  Contents : Option String
  PullRequests : Option String
deriving DecidableEq, Repr

/-- Go `github.InstallationTokenOptions`: the repository names the token is limited to
and its permissions. -/
structure InstallationTokenOptions where
  Repositories : List String
  Permissions : InstallationPermissions
deriving DecidableEq, Repr

/-- Go `github.InstallationToken` as a successful mint returns it. -/
structure InstallationToken where
  Token : String
  ExpiresAt : Int
deriving DecidableEq, Repr

/-- An organisation-level `*github.Client`: the handle built over a static installation
token, identified by that token. -/
structure OrgHandle where
  AccessToken : String
deriving DecidableEq, Repr

/-- Go `github.rawGitOps`: a `gitops.yaml` as the YAML decoder fills it. -/
structure rawGitOps where
  ProtectedDestinations : List String
  Repositories : List String
deriving DecidableEq, Repr

/-- What `Repositories.GetContents` followed by `GetContent` yields: an error with an HTTP
response (its status code), an error without a response, or the file with the result of
decoding its content. -/
inductive ContentsResult where
  | httpError (status : Nat) (err : Error)
  | transportError (err : Error)
  | file (content : String) (err : Option Error)
deriving DecidableEq, Repr

/-- What a call of the method `Client.CreateInstallationToken` does: return a token,
return an error, or panic on a nil receiver. -/
inductive CallResult where
  | ok (token : InstallationToken)
  | err (e : Error)
  | panic
deriving DecidableEq, Repr

end github

/-- A value of a JWT claim: a string, or anything else. -/
inductive ClaimValue where
  | str (s : String)
  | other
deriving DecidableEq, Repr

/-- A verified JWT, as `jwt.Parse` returns it: its claims by name. -/
structure Token where
  Get : String → Option ClaimValue

/-- The calls that leave the process, and the calls of the method
`Client.CreateInstallationToken` with the host key of the client it is called on. -/
inductive Event where
  | jwkGet
  | jwtParse (token : String)
  | graphqlQuery (slug : String)
  | findOrganizationInstallation (host org : String)
  | createInstallationToken (host : String) (installationID : Int)
      (opts : github.InstallationTokenOptions)
  | getContents (client : github.OrgHandle) (owner repo path ref : String)
  | CreateInstallationToken (host : String) (repos : List repoparser.RepositoryName)
      (permissions : github.InstallationPermissions) (result : github.CallResult)
deriving DecidableEq, Repr

/-- Whether an event is a call of the method `Client.CreateInstallationToken`. -/
def Event.isMint : Event → Bool
  | .CreateInstallationToken _ _ _ _ => true
  | _ => false

/-- Whether an event is a call of the CI GraphQL API or of the Forge REST API. -/
def Event.isForgeOrCI : Event → Bool
  | .graphqlQuery _ => true
  | .findOrganizationInstallation _ _ => true
  | .createInstallationToken _ _ _ => true
  | .getContents _ _ _ _ _ => true
  | _ => false

/-- Whether an event is a call of `jwt.Parse`. -/
def Event.isJwtParse : Event → Bool
  | .jwtParse _ => true
  | _ => false

/-- The calls of the method `Client.CreateInstallationToken` in a trace. -/
def mintCalls (trace : List Event) : List Event :=
  trace.filter Event.isMint

/-- The pure library functions the repository calls: `encoding/json` on the request body
and on the response, `yaml.Unmarshal` into `rawGitOps`, `giturls.Parse`, and
`glob.Compile` (a compiled pattern is its `Match` function). -/
structure Lib where
  jsonUnmarshal : String → Except Error api.rawTokenRequest
  jsonMarshal : api.TokenResponse → Except Error String
  yamlUnmarshal : String → Except Error github.rawGitOps
  giturlsParse : String → Except Error giturls.URL
  globCompile : String → Option (String → Bool)

/-- The remote services and the clock, over a state `σ`: the JWKS cache, `jwt.Parse`
against a key set (audience and issuer are constants of the server), the CI GraphQL query
for a pipeline slug (`none` when the pipeline has no repository URL), `time.Now`, and the
Forge REST API reached through the App-level client of a host or through an
organisation-level handle. -/
structure World (σ : Type) where
  jwkGet : σ → Except Error Nat × σ
  jwtParse : String → Nat → σ → Except Error Token × σ
  graphqlQuery : String → σ → Except Error (Option String) × σ
  now : σ → Int × σ
  findOrganizationInstallation : String → String → σ → Except Error Int × σ
  createInstallationToken : String → Int → github.InstallationTokenOptions → σ →
    Except Error github.InstallationToken × σ
  getContents : github.OrgHandle → String → String → String → String → σ →
    github.ContentsResult × σ

/-- The state of the outside world together with the trace of calls made so far. -/
structure Env (σ : Type) where
  world : σ
  trace : List Event

/-- The environment after a remote call: the new world state and the event appended. -/
def Env.step {σ : Type} (env : Env σ) (s : σ) (e : Event) : Env σ :=
  { world := s, trace := env.trace ++ [e] }

/-! ## Package repoparser -/

namespace repoparser

/-- Method `RepositoryName.HTTPS`: the full https URI of the repository. -/
def RepositoryName.HTTPS (r : RepositoryName) : String :=
  "https://" ++ r.Host ++ "/" ++ r.Org ++ "/" ++ r.Repo ++ ".git"

/-- Method `RepositoryName.GIT`: the git+ssh style URI of the repository. -/
def RepositoryName.GIT (r : RepositoryName) : String :=
  "git@" ++ r.Host ++ ":" ++ r.Org ++ "/" ++ r.Repo ++ ".git"

/-- Method `RepositoryName.Equals`: same host, org and repo name. -/
def RepositoryName.Equals (r repo : RepositoryName) : Bool :=
  r.Host == repo.Host && r.Org == repo.Org && r.Repo == repo.Repo

/-- Method `RepositoryName.Matches`: the host must be equal, org and repo are compiled as
globs and matched; a pattern that does not compile matches nothing. -/
def RepositoryName.Matches (lib : Lib) (r repo : RepositoryName) : Bool :=
  if r.Host ≠ repo.Host then false
  else
    match lib.globCompile r.Org with
    | none => false
    | some g =>
      if !g repo.Org then false
      else
        match lib.globCompile r.Repo with
        | none => false
        | some g => if !g repo.Repo then false else true

/-- Function `ExtractOrgRepoFromURL`: an input with exactly two slashes gets `https://` in
front; the git URL is parsed, its path without one leading slash is split on `/`, the
first two parts are org and repo, the extension of repo is removed, and an empty host
becomes `github.com`. -/
def ExtractOrgRepoFromURL (lib : Lib) (githubURL : String) : Except Error RepositoryName :=
  let githubURL := if strings.Count githubURL "/" = 2 then "https://" ++ githubURL else githubURL
  match lib.giturlsParse githubURL with
  | .error err => .error err
  | .ok prURL =>
    match strings.Split (strings.TrimLeading prURL.Path "/") "/" with
    | org :: repo :: _ =>
      .ok { Host := if prURL.Host = "" then "github.com" else prURL.Host,
            Org := org,
            Repo := strings.TrimSuffix repo (filepath.Ext repo) }
    | _ => .error (.msg "invalid github URL")

/-- The loop shared by `TokenRequest.UnmarshalJSON` and `GitOps.UnmarshalYAML`: every
string is parsed in order, and the first that fails to parse fails the whole list. -/
def parseAll (lib : Lib) : List String → Except Error (List RepositoryName)
  | [] => .ok []
  | repoString :: rest =>
    match ExtractOrgRepoFromURL lib repoString with
    | .error err => .error (.msg ("cannot parse repo " ++ repoString ++ ": " ++ err.text))
    | .ok repo =>
      match parseAll lib rest with
      | .error err => .error err
      | .ok repos => .ok (repo :: repos)

end repoparser

/-! ## Package api -/

namespace api

/-- Method `TokenRequest.UnmarshalJSON`, given what `json.Unmarshal` made of the data: an
empty access level becomes `read`, and every repository string must parse. -/
def TokenRequest.UnmarshalJSON (lib : Lib) (data : String) : Except Error TokenRequest :=
  match lib.jsonUnmarshal data with
  | .error err => .error err
  | .ok raw =>
    let accessLevel := if raw.AccessLevel = "" then "read" else raw.AccessLevel
    match repoparser.parseAll lib raw.Repositories with
    | .error err => .error err
    | .ok repos => .ok { Repositories := repos, AccessLevel := accessLevel }

end api

/-! ## Package github -/

namespace github

/-- Go `github.OrgClient`: a cached organisation-level client. -/
structure OrgClient where
  ExpiresAt : Int
  Client : OrgHandle
  InstallationID : Int
deriving DecidableEq, Repr

/-- Go `github.Client`: the App-level API client of a host (the field `Client` of the
source, here `AppClient`, identified by the host it talks to) and the map from
organisation to cached client. -/
structure Client where
  AppClient : String
  OrgClients : String → Option OrgClient

/-- Go `time.Second`, in nanoseconds. -/
def Second : Int := 1000000000

/-- A Go map after `m[key] = value`. -/
def mapSet {α : Type} (m : String → Option α) (key : String) (value : α) : String → Option α :=
  fun k => if k = key then some value else m k

/-- A Go map after `delete(m, key)`. -/
def mapDelete {α : Type} (m : String → Option α) (key : String) : String → Option α :=
  fun k => if k = key then none else m k

/-- The second half of `Client.ClientForOrg` (after the cache check), entered with the
installation ID kept from an expired entry or 0: an ID of 0 is resolved with
`FindOrganizationInstallation`, a token with read access to contents and metadata and no
repository limit is minted, and the new client is stored with the token's expiry. -/
def Client.newOrgClient {σ : Type} (w : World σ) (c : Client) (org : String)
    (installationID : Int) (env : Env σ) : Except Error (OrgHandle × Int) × Client × Env σ :=
  let found : Except Error Int × Env σ :=
    if installationID = 0 then
      let r := w.findOrganizationInstallation c.AppClient org env.world
      let env1 := env.step r.2 (.findOrganizationInstallation c.AppClient org)
      match r.1 with
      | .error err =>
        (.error (.msg ("cannot find github app installation for organization " ++ org ++ ": "
          ++ err.text)), env1)
      | .ok id => (.ok id, env1)
    else (.ok installationID, env)
  match found with
  | (.error err, env1) => (.error err, c, env1)
  | (.ok installationID, env1) =>
    let opts : InstallationTokenOptions :=
      { Repositories := [],
        Permissions := { Contents := some "read", Metadata := some "read", PullRequests := none } }
    let r := w.createInstallationToken c.AppClient installationID opts env1.world
    let env2 := env1.step r.2 (.createInstallationToken c.AppClient installationID opts)
    match r.1 with
    | .error err => (.error err, c, env2)
    | .ok token =>
      let orgClient : OrgClient :=
        { Client := { AccessToken := token.Token }, ExpiresAt := token.ExpiresAt,
          InstallationID := 0 }
      (.ok (orgClient.Client, installationID),
        { c with OrgClients := mapSet c.OrgClients org orgClient }, env2)

/-- Method `Client.ClientForOrg`: a cached client is returned unless its expiry is before
`time.Now().Add(-time.Second * 30)`; otherwise the entry is deleted, its installation ID
kept, and a new client is made. -/
def Client.ClientForOrg {σ : Type} (w : World σ) (c : Client) (org : String) (env : Env σ) :
    Except Error (OrgHandle × Int) × Client × Env σ :=
  match c.OrgClients org with
  | some val =>
    let t := w.now env.world
    let env1 : Env σ := { env with world := t.2 }
    if ¬ (val.ExpiresAt < t.1 + (-Second * 30)) then
      (.ok (val.Client, val.InstallationID), c, env1)
    else
      Client.newOrgClient w { c with OrgClients := mapDelete c.OrgClients org } org
        val.InstallationID env1
  | none => Client.newOrgClient w c org 0 env

/-- The three results of `Client.GetContents`. -/
structure Contents where
  contents : String
  status : Nat
  err : Option Error
deriving DecidableEq, Repr

/-- Method `Client.GetContents`: the file at `HEAD` read with the organisation client of
the owner; the status is the HTTP status of a failed read when there was a response. -/
def Client.GetContents {σ : Type} (w : World σ) (c : Client) (owner repo path : String)
    (env : Env σ) : Contents × Client × Env σ :=
  match Client.ClientForOrg w c owner env with
  | (.error err, c1, env1) =>
    ({ contents := "", status := 0,
       err := some (.msg ("cannot get github client for org " ++ owner ++ ": " ++ err.text)) },
      c1, env1)
  | (.ok (orgClient, _), c1, env1) =>
    let r := w.getContents orgClient owner repo path "HEAD" env1.world
    let env2 := env1.step r.2 (.getContents orgClient owner repo path "HEAD")
    match r.1 with
    | .httpError status err => ({ contents := "", status := status, err := some err }, c1, env2)
    | .transportError err => ({ contents := "", status := 0, err := some err }, c1, env2)
    | .file content err => ({ contents := content, status := 0, err := err }, c1, env2)

/-- The validation loop of `Client.CreateInstallationToken`: every repository's
`host/org` string is compared with the one before it (`lastHostOrg`, empty at the start),
and the repository names are collected. -/
def checkHostOrg (lastHostOrg : String) :
    List repoparser.RepositoryName → Except Error (List String)
  | [] => .ok []
  | repo :: rest =>
    let currentHostOrg := repo.Host ++ "/" ++ repo.Org
    if lastHostOrg ≠ "" ∧ currentHostOrg ≠ lastHostOrg then
      .error (.msg ("unable to generate access tokens spanning multiple organizations. Got "
        ++ currentHostOrg ++ ", but already seen " ++ lastHostOrg))
    else
      match checkHostOrg currentHostOrg rest with
      | .error err => .error err
      | .ok repoNames => .ok (repo.Repo :: repoNames)

/-- Method `Client.CreateInstallationToken`, on a receiver that is nil (`none`) when the
caller found no client in its map: an empty list and a list spanning several `host/org`
are refused before the receiver is touched; then the installation of the first
repository's org is looked up and a token limited to the listed repositories is minted
with the given permissions. -/
def Client.CreateInstallationToken {σ : Type} (w : World σ) (c : Option Client)
    (repos : List repoparser.RepositoryName) (permissions : InstallationPermissions)
    (env : Env σ) : CallResult × Env σ :=
  match repos with
  | [] => (.err (.msg "must supply at least one repository"), env)
  | first :: _ =>
    match checkHostOrg "" repos with
    | .error err => (.err err, env)
    | .ok repoNames =>
      match c with
      | none => (.panic, env)
      | some c =>
        let r := w.findOrganizationInstallation c.AppClient first.Org env.world
        let env1 := env.step r.2 (.findOrganizationInstallation c.AppClient first.Org)
        match r.1 with
        | .error err =>
          (.err (.msg ("cannot access organization " ++ first.Org ++ ": " ++ err.text)), env1)
        | .ok installationID =>
          let opts : InstallationTokenOptions :=
            { Repositories := repoNames, Permissions := permissions }
          let m := w.createInstallationToken c.AppClient installationID opts env1.world
          let env2 := env1.step m.2 (.createInstallationToken c.AppClient installationID opts)
          match m.1 with
          | .error err => (.err err, env2)
          | .ok token => (.ok token, env2)

/-- Go `github.GitOps`: a parsed `gitops.yaml`. -/
structure GitOps where
  ProtectedDestinations : List String
  Repositories : List repoparser.RepositoryName
deriving DecidableEq, Repr

/-- Method `GitOps.UnmarshalYAML`, given what the decoder made of the document: every
entry of `repos` must parse as a repository. -/
def GitOps.UnmarshalYAML (lib : Lib) (unmarshal : Except Error rawGitOps) :
    Except Error GitOps :=
  match unmarshal with
  | .error err => .error err
  | .ok raw =>
    match repoparser.parseAll lib raw.Repositories with
    | .error err => .error err
    | .ok repos =>
      .ok { ProtectedDestinations := raw.ProtectedDestinations, Repositories := repos }

/-- Function `GitOpsFromString`: `yaml.Unmarshal` of the contents into a `GitOps`. -/
def GitOpsFromString (lib : Lib) (contents : String) : Except Error GitOps :=
  GitOps.UnmarshalYAML lib (lib.yamlUnmarshal contents)

/-- Method `GitOps.RepositoryPermitted`: some listed repository matches `repo`. -/
def GitOps.RepositoryPermitted (lib : Lib) (g : GitOps) (repo : repoparser.RepositoryName) :
    Bool :=
  g.Repositories.any (fun r => r.Matches lib repo)

end github

/-! ## Package buildkite -/

namespace buildkite

/-- Method `Client.GetPipelineRepo`: the GraphQL query for the pipeline `org/pipeline`; a
query error and a pipeline without repository URL are errors. -/
def GetPipelineRepo {σ : Type} (w : World σ) (organizationSlug pipelineSlug : String)
    (env : Env σ) : Except Error String × Env σ :=
  let slug := organizationSlug ++ "/" ++ pipelineSlug
  let r := w.graphqlQuery slug env.world
  let env1 := env.step r.2 (.graphqlQuery slug)
  match r.1 with
  | .error err =>
    (.error (.msg ("error fetching pipeline repo from Buildkite for " ++ slug ++ ": "
      ++ err.text)), env1)
  | .ok none => (.error (.msg ("pipeline " ++ slug ++ " does not exist")), env1)
  | .ok (some url) => (.ok url, env1)

end buildkite

/-! ## Package server -/

namespace server

/-- The part of Go `server.Server` that a request reads and changes: the Forge-App client
of every configured host. -/
structure Server where
  githubAppClients : String → Option github.Client

/-- What the token handler reads of an HTTP request: the body, the value of the header
`X-Buildkite-OIDC-Token` (empty when absent) and the request ID of its context. -/
structure Request where
  Body : String
  OIDCToken : String
  RequestID : String
deriving DecidableEq, Repr

/-- A response body: a JSON-encoded `HTTPError`, or other bytes. -/
inductive Body where
  | httpError (e : api.HTTPError)
  | raw (bytes : String)
deriving DecidableEq, Repr

/-- The status code and the body written to the response. -/
structure Response where
  status : Nat
  body : Body
deriving DecidableEq, Repr

/-- How a handler ends: it has written a response, or it panicked. -/
inductive Outcome where
  | response (r : Response)
  | panic
deriving DecidableEq, Repr

/-- Method `Server.handleError`: the status code is written, and the body is the error
itself when it is an `*api.HTTPError`, else a new `HTTPError` with the message and the
request ID. -/
def handleError (r : Request) (err : Option Error) (msg : String) (code : Nat) : Outcome :=
  .response
    { status := code,
      body := .httpError
        (match err with
         | some (.http httpErr) => httpErr
         | _ => { Field := "", Message := msg, RequestID := r.RequestID }) }

/-- Method `Server.middlewareRecoverer` around a handler: a panic becomes a 500 response
written with `http.Error`. -/
def middlewareRecoverer : Outcome → Response
  | .response r => r
  | .panic => { status := 500, body := .raw "\x7b\"error\": \"Internal Server Error\"\x7d\n" }

/-- Method `Server.allowRepoAccess`: plugin repositories are allowed at once; the
repository of the pipeline is resolved and allowed when it equals the requested one; else
`gitops.yaml` of the requested repository is fetched with the client of its host, a 404
denies, and a manifest allows when it permits the pipeline's repository. -/
def Server.allowRepoAccess {σ : Type} (lib : Lib) (w : World σ) (srv : Server)
    (organizationSlug pipelineSlug : String) (requestedRepo : repoparser.RepositoryName)
    (env : Env σ) : Except Error Bool × Server × Env σ :=
  if strings.HasSuffix requestedRepo.Repo "-buildkite-plugin" then (.ok true, srv, env)
  else
    match buildkite.GetPipelineRepo w organizationSlug pipelineSlug env with
    | (.error err, env1) => (.error err, srv, env1)
    | (.ok repo, env1) =>
      match repoparser.ExtractOrgRepoFromURL lib repo with
      | .error err =>
        (.error (.msg ("cannot parse repo " ++ repo ++ ": " ++ err.text)), srv, env1)
      | .ok buildkitePipelineRepo =>
        if buildkitePipelineRepo.Equals requestedRepo then (.ok true, srv, env1)
        else
          match srv.githubAppClients requestedRepo.Host with
          | none => (.error (.msg ("no github client for " ++ requestedRepo.Host)), srv, env1)
          | some client =>
            match client.GetContents w requestedRepo.Org requestedRepo.Repo "gitops.yaml"
              env1 with
            | (fetched, client1, env2) =>
              let srv1 : Server :=
                { githubAppClients :=
                    github.mapSet srv.githubAppClients requestedRepo.Host client1 }
              match fetched.err with
              | some err =>
                if fetched.status = 404 then (.ok false, srv1, env2)
                else (.error err, srv1, env2)
              | none =>
                match github.GitOpsFromString lib fetched.contents with
                | .error err =>
                  (.error (.msg ("cannot parse gitops.yaml in " ++ requestedRepo.HTTPS ++ ": "
                    ++ err.text)), srv1, env2)
                | .ok gitops =>
                  (.ok (gitops.RepositoryPermitted lib buildkitePipelineRepo), srv1, env2)

/-- A decoded request whose OIDC token was verified and carries the three custom claims
as strings. -/
structure Verified where
  input : api.TokenRequest
  jobID : String
  organizationSlug : String
  pipelineSlug : String
deriving DecidableEq, Repr

/-- Lines 21 to 84 of `Server.handleToken`: the body is decoded, the key set fetched, the
header split on `Bearer` into exactly two parts, the trimmed second part verified, and
the custom claims read; asserting a claim that is not a string to be one panics. -/
def Server.verifyRequest {σ : Type} (lib : Lib) (w : World σ) (r : Request) (env : Env σ) :
    Except Outcome Verified × Env σ :=
  match api.TokenRequest.UnmarshalJSON lib r.Body with
  | .error err => (.error (handleError r (some err) "cannot read input" 400), env)
  | .ok input =>
    let k := w.jwkGet env.world
    let env1 := env.step k.2 .jwkGet
    match k.1 with
    | .error err => (.error (handleError r (some err) "" 500), env1)
    | .ok keyset =>
      match strings.Split r.OIDCToken "Bearer" with
      | [_, second] =>
        let p := w.jwtParse (strings.TrimSpace second) keyset env1.world
        let env2 := env1.step p.2 (.jwtParse (strings.TrimSpace second))
        match p.1 with
        | .error err => (.error (handleError r (some err) "cannot verify token" 403), env2)
        | .ok verifiedToken =>
          match verifiedToken.Get "job_id" with
          | none => (.error (handleError r none "missing job_id" 400), env2)
          | some jobID =>
            match verifiedToken.Get "organization_slug" with
            | none => (.error (handleError r none "missing organization_id" 400), env2)
            | some organizationSlug =>
              match verifiedToken.Get "pipeline_slug" with
              | none => (.error (handleError r none "missing pipeline_slug" 400), env2)
              | some pipelineSlug =>
                match jobID, organizationSlug, pipelineSlug with
                | .str j, .str o, .str p =>
                  (.ok { input := input, jobID := j, organizationSlug := o,
                         pipelineSlug := p }, env2)
                | _, _, _ => (.error .panic, env2)
      | _ => (.error (handleError r none "invalid token" 403), env1)

/-- Lines 86 to 96 of `Server.handleToken`, the loop over the requested repositories: the
first repository whose check fails ends the request with 500, the first that is denied
ends it with 403 and a message naming its HTTPS URL; `none` when all are allowed. -/
def Server.authorizeRepos {σ : Type} (lib : Lib) (w : World σ) (r : Request)
    (organizationSlug pipelineSlug : String) :
    List repoparser.RepositoryName → Server → Env σ → Option Outcome × Server × Env σ
  | [], srv, env => (none, srv, env)
  | repo :: rest, srv, env =>
    match Server.allowRepoAccess lib w srv organizationSlug pipelineSlug repo env with
    | (.error err, srv1, env1) =>
      (some (handleError r (some err) "error checking repository access" 500), srv1, env1)
    | (.ok allow, srv1, env1) =>
      if !allow then
        (some (handleError r none ("not allowed to acccess repo " ++ repo.HTTPS) 403),
          srv1, env1)
      else Server.authorizeRepos lib w r organizationSlug pipelineSlug rest srv1 env1

/-- Lines 98 to 120 of `Server.handleToken`: `CreateInstallationToken` is called on the
map entry for the host of `Repositories[0]` (the index panics on an empty list) with the
whole list and the permissions metadata read, contents and pull requests at the access
level of the request; the token is returned as JSON with status 200. -/
def Server.mintToken {σ : Type} (lib : Lib) (w : World σ) (srv : Server) (r : Request)
    (input : api.TokenRequest) (env : Env σ) : Outcome × Env σ :=
  match input.Repositories with
  | [] => (.panic, env)
  | first :: _ =>
    let permissions : github.InstallationPermissions :=
      { Metadata := some "read", Contents := some input.AccessLevel,
        PullRequests := some input.AccessLevel }
    let m := github.Client.CreateInstallationToken w (srv.githubAppClients first.Host)
      input.Repositories permissions env
    let env1 : Env σ :=
      { m.2 with
        trace := m.2.trace ++
          [.CreateInstallationToken first.Host input.Repositories permissions m.1] }
    match m.1 with
    | .panic => (.panic, env1)
    | .err err => (handleError r (some err) "cannot issue access token" 500, env1)
    | .ok token =>
      match lib.jsonMarshal
        { Token := token.Token, ExpiresAt := token.ExpiresAt, RequestID := r.RequestID } with
      | .error err => (handleError r (some err) "cannot parse response" 500, env1)
      | .ok jsonResp => (.response { status := 200, body := .raw jsonResp }, env1)

/-- Method `Server.handleToken`, the handler of `POST /token`: verify, authorize every
requested repository, mint. -/
def Server.handleToken {σ : Type} (lib : Lib) (w : World σ) (srv : Server) (r : Request)
    (env : Env σ) : Outcome × Server × Env σ :=
  match Server.verifyRequest lib w r env with
  | (.error out, env1) => (out, srv, env1)
  | (.ok v, env1) =>
    match Server.authorizeRepos lib w r v.organizationSlug v.pipelineSlug
      v.input.Repositories srv env1 with
    | (some out, srv1, env2) => (out, srv1, env2)
    | (none, srv1, env2) =>
      let m := Server.mintToken lib w srv1 r v.input env2
      (m.1, srv1, m.2)

end server

/-! ## A model of the libraries behind `giturls.Parse`

`giturls.Parse` (github.com/whilp/git-urls) and Go's `net/url.Parse` are not part of the
repository. The definitions below follow their published sources, keeping the fields
`Scheme`, `Host` and `Path`; they give the examples a concrete parser. A percent-escape
stands for the character with the escaped number. -/

namespace url

/-- Go `ishex`. -/
def ishex (c : Char) : Bool :=
  ('0' ≤ c ∧ c ≤ '9') ∨ ('a' ≤ c ∧ c ≤ 'f') ∨ ('A' ≤ c ∧ c ≤ 'F')

/-- Go `unhex`. -/
def unhex (c : Char) : Nat :=
  if '0' ≤ c ∧ c ≤ '9' then c.toNat - 48
  else if 'a' ≤ c ∧ c ≤ 'f' then c.toNat - 97 + 10
  else if 'A' ≤ c ∧ c ≤ 'F' then c.toNat - 65 + 10
  else 0

/-- The modes of Go `unescape` that parsing a URL uses. -/
inductive encoding where
  | encodePath
  | encodeHost
  | encodeZone
  | encodeUserPassword
  | encodeFragment
deriving DecidableEq, Repr

/-- Go `shouldEscape(c, encodeHost)`: false for letters, digits, the sub-delimiters a host
may hold, and the unreserved marks. -/
def shouldEscapeHost (c : Char) : Bool :=
  !(c.isAlphanum || "!$&()*+,;=:[]<>\"-_.~".data.contains c || c = Char.ofNat 39)

/-- Go `unescape`: every `%` must be followed by two hex digits; in a host an escape below
`%80` other than `%25` and an ASCII character that would need escaping are errors, in a
zone an escape of a character that would need escaping (other than `%25` and a space);
the escapes are then decoded, each to the character of that number. Go writes a byte
instead, so the two agree for the escapes below `%80` only; every statement about parsed
URLs below is for texts without `%`. -/
def unescape (mode : encoding) : List Char → Option (List Char)
  | [] => some []
  | c :: rest =>
    if c = '%' then
      match rest with
      | a :: b :: rest2 =>
        let v := Char.ofNat (16 * unhex a + unhex b)
        if !(ishex a && ishex b) then none
        else if mode = .encodeHost ∧ unhex a < 8 ∧ ¬ (a = '2' ∧ b = '5') then none
        else if mode = .encodeZone ∧ ¬ (a = '2' ∧ b = '5') ∧ v ≠ ' ' ∧ shouldEscapeHost v then
          none
        else (unescape mode rest2).map (fun tail => v :: tail)
      | _ => none
    else if (mode = .encodeHost ∨ mode = .encodeZone) ∧ c.toNat < 128 ∧ shouldEscapeHost c then
      none
    else (unescape mode rest).map (fun tail => c :: tail)

/-- Go `strings.Cut(s, sep)` for a one-character separator: the text before the first
occurrence and the text after it, if there is one. -/
def cut (sep : Char) : List Char → List Char × Option (List Char)
  | [] => ([], none)
  | c :: rest =>
    if c = sep then ([], some rest)
    else ((cut sep rest).1.cons c, (cut sep rest).2)

/-- Go `getScheme`: the letters, digits, `+`, `-` and `.` before the first colon, when
they start with a letter; a leading colon is an error. -/
def getScheme (rawURL : List Char) : Option (List Char × List Char) :=
  let rec go : List Char → List Char → Bool → Option (List Char × List Char)
    | [], _, _ => some ([], rawURL)
    | c :: rest, acc, first =>
      if c.isAlpha then go rest (c :: acc) false
      else if c.isDigit ∨ c = '+' ∨ c = '-' ∨ c = '.' then
        if first then some ([], rawURL) else go rest (c :: acc) false
      else if c = ':' then
        if first then none else some (acc.reverse, rest)
      else some ([], rawURL)
  go rawURL [] true

/-- Go `validOptionalPort`: empty, or a colon followed by digits only. -/
def validOptionalPort : List Char → Bool
  | [] => true
  | c :: rest => c = ':' ∧ rest.all Char.isDigit

/-- The text from the last occurrence of `sep` on (that occurrence included), if any. -/
def fromLast (sep : Char) : List Char → Option (List Char)
  | [] => none
  | c :: rest =>
    match fromLast sep rest with
    | some tail => some tail
    | none => if c = sep then some (c :: rest) else none

/-- Whether `pat` occurs in the text, and where: the text before the first occurrence and
the text from it on. -/
def breakAt (pat : List Char) : List Char → Option (List Char × List Char)
  | [] => if pat = [] then some ([], []) else none
  | c :: rest =>
    if pat.isPrefixOf (c :: rest) then some ([], c :: rest)
    else (breakAt pat rest).map (fun r => (c :: r.1, r.2))

/-- Go `parseHost`: a bracketed IP literal must close and be followed by a valid optional
port, any other host with a colon must end in a valid optional port; the host is then
unescaped (a zone after `%25` in its own mode). -/
def parseHost (host : List Char) : Option (List Char) :=
  match host with
  | '[' :: _ =>
    match fromLast ']' host with
    | none => none
    | some closing =>
      if !validOptionalPort (closing.drop 1) then none
      else
        let inner := host.take (host.length - closing.length)
        match breakAt "%25".data inner with
        | some (host1, host2) =>
          match unescape .encodeHost host1, unescape .encodeZone host2,
            unescape .encodeHost closing with
          | some h1, some h2, some h3 => some (h1 ++ h2 ++ h3)
          | _, _, _ => none
        | none => unescape .encodeHost host
  | _ =>
    match fromLast ':' host with
    | some colonPort => if validOptionalPort colonPort then unescape .encodeHost host else none
    | none => unescape .encodeHost host

/-- Go `validUserinfo`. -/
def validUserinfo (s : List Char) : Bool :=
  s.all (fun c => c.isAlphanum || "-._:~!$&()*+,;=%@".data.contains c || c = Char.ofNat 39)

/-- Go `parseAuthority`, returning the host: the host is what follows the last `@`; the
user information before it must be valid and unescape. -/
def parseAuthority (authority : List Char) : Option (List Char) :=
  match fromLast '@' authority with
  | none => parseHost authority
  | some atHost =>
    let userinfo := authority.take (authority.length - atHost.length)
    match parseHost (atHost.drop 1) with
    | none => none
    | some host =>
      if !validUserinfo userinfo then none
      else
        match unescape .encodeUserPassword (cut ':' userinfo).1,
          unescape .encodeUserPassword ((cut ':' userinfo).2.getD []) with
        | some _, some _ => some host
        | _, _ => none

/-- Go `url.parse` (not via a request) on the text before the fragment: control characters
are refused, the scheme and the query are split off, a rootless text after a scheme is
opaque (no host, no path), a relative first segment may hold no colon, an authority
follows `//` (unless the text starts with `///` and has no scheme), and the rest is the
unescaped path. -/
def parseNoFragment (rawURL : List Char) : Option giturls.URL :=
  if rawURL.any (fun c => c.toNat < 32 ∨ c.toNat = 127) then none
  else if rawURL = ['*'] then some { Scheme := "", Host := "", Path := "*" }
  else
    match getScheme rawURL with
    | none => none
    | some (scheme, rest) =>
      let scheme := scheme.map Char.toLower
      let rest := (cut '?' rest).1
      if !("/".data.isPrefixOf rest) ∧ scheme ≠ [] then
        some { Scheme := ⟨scheme⟩, Host := "", Path := "" }
      else if !("/".data.isPrefixOf rest) ∧ (cut '/' rest).1.contains ':' then none
      else
        let authority : Option (List Char × List Char) :=
          if (scheme ≠ [] ∨ !("///".data.isPrefixOf rest)) ∧ "//".data.isPrefixOf rest then
            some ((cut '/' (rest.drop 2)).1,
              match (cut '/' (rest.drop 2)).2 with
              | some tail => '/' :: tail
              | none => [])
          else none
        match authority with
        | some (auth, rest) =>
          match parseAuthority auth, unescape .encodePath rest with
          | some host, some path => some { Scheme := ⟨scheme⟩, Host := ⟨host⟩, Path := ⟨path⟩ }
          | _, _ => none
        | none =>
          match unescape .encodePath rest with
          | some path => some { Scheme := ⟨scheme⟩, Host := "", Path := ⟨path⟩ }
          | none => none

/-- Go `url.Parse`: the fragment after the first `#` is cut off and must unescape. -/
def Parse (rawURL : String) : Option giturls.URL :=
  match parseNoFragment (cut '#' rawURL.data).1 with
  | none => none
  | some u =>
    match (cut '#' rawURL.data).2 with
    | none => some u
    | some frag => if (unescape .encodeFragment frag).isSome then some u else none

end url

namespace giturls

/-- The known git transports of `giturls.Transports`. -/
def Transports : List String :=
  ["ssh", "git", "git+ssh", "http", "https", "ftp", "ftps", "rsync", "file"]

/-- Function `giturls.ParseTransport`: a URL that `url.Parse` accepts and whose scheme is a
known transport. -/
def ParseTransport (rawurl : String) : Option URL :=
  match url.Parse rawurl with
  | some u => if Transports.contains u.Scheme then some u else none
  | none => none

/-- Function `giturls.ParseScp`, the match of the pattern
`^([a-zA-Z0-9_]+@)?([a-zA-Z0-9._-]+):([a-zA-Z0-9./._-]+)(?:\?||$)(.*)$`: an optional user
before `@`, a host, a colon, a path, and a rest without line break. -/
def ParseScp (rawurl : String) : Option URL :=
  let isUser := fun (c : Char) => c.isAlphanum || c = '_'
  let isHost := fun (c : Char) => c.isAlphanum || c = '.' || c = '_' || c = '-'
  let isPath := fun (c : Char) => c.isAlphanum || c = '.' || c = '/' || c = '_' || c = '-'
  let s := rawurl.data
  let afterUser :=
    match s.dropWhile isUser with
    | '@' :: rest => if (s.takeWhile isUser).isEmpty then s else rest
    | _ => s
  match afterUser.dropWhile isHost with
  | ':' :: rest =>
    if (afterUser.takeWhile isHost).isEmpty ∨ (rest.takeWhile isPath).isEmpty ∨
        (rest.dropWhile isPath).contains '\n' then none
    else some { Scheme := "ssh", Host := ⟨afterUser.takeWhile isHost⟩,
                Path := ⟨rest.takeWhile isPath⟩ }
  | _ => none

/-- Function `giturls.ParseLocal`: a local path, never an error. -/
def ParseLocal (rawurl : String) : URL :=
  { Scheme := "file", Host := "", Path := rawurl }

/-- Function `giturls.Parse`: the first of `ParseTransport`, `ParseScp` and `ParseLocal`
that succeeds. -/
def Parse (rawurl : String) : Except Error URL :=
  match ParseTransport rawurl with
  | some u => .ok u
  | none =>
    match ParseScp rawurl with
    | some u => .ok u
    | none => .ok (ParseLocal rawurl)

end giturls

/-! ## An example deployment

One library instance, one world and one server on which the handler can be run: the
scenarios of the specification (pipeline `acme/web` building `github.com/acme/web`). -/

namespace server

/-- The claims of the example OIDC token: job `job-1` of pipeline `acme/web`. -/
def exampleToken : Token :=
  { Get := fun name =>
      if name = "job_id" then some (.str "job-1")
      else if name = "organization_slug" then some (.str "acme")
      else if name = "pipeline_slug" then some (.str "web")
      else none }

/-- The request body for read access to `github.com/acme/web`. -/
def bodyWeb : String :=
  "\x7b\"repositories\":[\"github.com/acme/web\"],\"access_level\":\"read\"\x7d"

/-- The request body for write access to `github.com/acme/infra`. -/
def bodyInfra : String :=
  "\x7b\"repositories\":[\"github.com/acme/infra\"],\"access_level\":\"write\"\x7d"

/-- The request body for a repository on the host `git.example.com`. -/
def bodyEnterprise : String :=
  "\x7b\"repositories\":[\"git.example.com/acme/infra\"]\x7d"

/-- The request body with an empty list of repositories. -/
def bodyEmpty : String :=
  "\x7b\"repositories\":[]\x7d"

/-- An example library instance. The JSON decoder knows the four request bodies above,
the YAML decoder knows the manifest that lists `github.com/acme/web`, git URLs are parsed
by the model of `giturls.Parse` above, and a glob pattern matches the text equal to it (as
`glob.Compile` does for a pattern without metacharacters; the examples use no other). -/
def exampleLib : Lib :=
  { jsonUnmarshal := fun data =>
      if data = bodyWeb then
        .ok { Repositories := ["github.com/acme/web"], AccessLevel := "read" }
      else if data = bodyInfra then
        .ok { Repositories := ["github.com/acme/infra"], AccessLevel := "write" }
      else if data = bodyEnterprise then
        .ok { Repositories := ["git.example.com/acme/infra"], AccessLevel := "" }
      else if data = bodyEmpty then
        .ok { Repositories := [], AccessLevel := "" }
      else .error (.msg "unexpected end of JSON input"),
    jsonMarshal := fun resp =>
      .ok ("\x7b\"token\":\"" ++ resp.Token ++ "\",\"req_id\":\"" ++ resp.RequestID ++ "\"\x7d"),
    yamlUnmarshal := fun contents =>
      if contents = "repos:\n  - github.com/acme/web\n" then
        .ok { ProtectedDestinations := [], Repositories := ["github.com/acme/web"] }
      else .error (.msg "yaml: unmarshal errors"),
    giturlsParse := giturls.Parse,
    globCompile := fun pattern => some (fun text => text == pattern) }

/-- An example world whose state counts the remote calls made. The key set is available,
one token verifies, the pipeline `acme/web` builds `https://github.com/acme/web.git`, the
App is installed in `acme` with installation 42, every mint succeeds, and every read of a
file has the result `fetch`. -/
def exampleWorld (fetch : github.ContentsResult) : World Nat :=
  { jwkGet := fun s => (.ok 1, s + 1),
    jwtParse := fun token _ s =>
      (if token = "eyJhbGciOiJSUzI1NiJ9.e30.c2ln" then .ok exampleToken
       else .error (.msg "could not verify message"), s + 1),
    graphqlQuery := fun slug s =>
      (if slug = "acme/web" then .ok (some "https://github.com/acme/web.git") else .ok none,
        s + 1),
    now := fun s => (1700000000 * github.Second, s),
    findOrganizationInstallation := fun _ org s =>
      (if org = "acme" then .ok 42 else .error (.msg "404 Not Found"), s + 1),
    createInstallationToken := fun _ _ _ s =>
      (.ok { Token := "ghs_example", ExpiresAt := 1700003600 * github.Second }, s + 1),
    getContents := fun _ _ _ _ _ s => (fetch, s + 1) }

/-- The read of a file that the Forge answers with 404. -/
def notFound : github.ContentsResult :=
  .httpError 404 (.msg "404 Not Found")

/-- An example server with a Forge-App client for `github.com` only, its cache empty. -/
def exampleServer : Server :=
  { githubAppClients := fun host =>
      if host = "github.com" then some { AppClient := "github.com", OrgClients := fun _ => none }
      else none }

/-- An example request with the given body, as the client sends it. -/
def exampleRequest (body : String) : Request :=
  { Body := body, OIDCToken := "Bearer eyJhbGciOiJSUzI1NiJ9.e30.c2ln", RequestID := "req-1" }

/-- The environment before any call. -/
def exampleEnv : Env Nat :=
  { world := 0, trace := [] }

end server

namespace github

/-- A cache of the example client for `github.com` whose entry for `acme` expired ten
seconds before the time of the example world (1700000000 s). -/
def expiredClient : Client :=
  { AppClient := "github.com",
    OrgClients := fun org =>
      if org = "acme" then
        some { ExpiresAt := 1699999990 * Second, Client := { AccessToken := "ghs_old" },
               InstallationID := 42 }
      else none }

end github

namespace server

/-- A request body whose repositories are in two organisations. -/
def bodyCrossOrg : String :=
  "\x7b\"repositories\":[\"github.com/acme/a\",\"github.com/other/b\"]\x7d"

/-- A request body for `github.com/acme/web` whose access level is `admin`. -/
def bodyAdmin : String :=
  "\x7b\"repositories\":[\"github.com/acme/web\"],\"access_level\":\"admin\"\x7d"

/-- The example library instance with a JSON decoder that knows the two bodies above as
well. -/
def exampleLibMore : Lib :=
  { exampleLib with
    jsonUnmarshal := fun data =>
      if data = bodyCrossOrg then
        .ok { Repositories := ["github.com/acme/a", "github.com/other/b"], AccessLevel := "" }
      else if data = bodyAdmin then
        .ok { Repositories := ["github.com/acme/web"], AccessLevel := "admin" }
      else exampleLib.jsonUnmarshal data }

end server

/-- Whether an error value is an `*api.HTTPError`. -/
def Error.isHTTP : Error → Bool
  | .http _ => true
  | .msg _ => false

namespace server

/-- The libraries and remote clients know nothing of this repository's types: no error
that the JSON encoder or decoder, the JWKS cache, `jwt.Parse`, a read of a file or a mint
returns is an `*api.HTTPError`. (The other calls have their errors wrapped with
`fmt.Errorf` before they reach the handler.) -/
def PlainErrors {σ : Type} (lib : Lib) (w : World σ) : Prop :=
  (∀ data e, lib.jsonUnmarshal data = .error e → e.isHTTP = false) ∧
  (∀ resp e, lib.jsonMarshal resp = .error e → e.isHTTP = false) ∧
  (∀ s e, (w.jwkGet s).1 = .error e → e.isHTTP = false) ∧
  (∀ token keyset s e, (w.jwtParse token keyset s).1 = .error e → e.isHTTP = false) ∧
  (∀ host id opts s e, (w.createInstallationToken host id opts s).1 = .error e →
    e.isHTTP = false) ∧
  (∀ client owner repo path ref s e,
    ((∃ status, (w.getContents client owner repo path ref s).1 = .httpError status e) ∨
      (w.getContents client owner repo path ref s).1 = .transportError e ∨
      (∃ content, (w.getContents client owner repo path ref s).1 = .file content (some e))) →
    e.isHTTP = false)

end server

namespace server

/-- What C13 asks of an outcome that is a response with a status outside 200..299: its
body is a JSON `HTTPError`, and (the libraries and remote clients returning no
`*api.HTTPError`) the `req_id` of that body is the request ID. -/
def ErrorBody {σ : Type} (lib : Lib) (w : World σ) (r : Request) (out : Outcome) : Prop :=
  ∀ resp, out = .response resp → ¬ (200 ≤ resp.status ∧ resp.status < 300) →
    ∃ e, resp.body = .httpError e ∧ (PlainErrors lib w → e.RequestID = r.RequestID)

end server

/-! ## A model of `glob.Compile`

`glob.Compile` (github.com/gobwas/glob) is not part of the repository; the repository
calls it without separators. The definitions below follow its lexer for the patterns made
of text, escapes, `*`, `**` and `?`, and give such a pattern its documented meaning. What
the library makes of a pattern with a range `[...]` or with alternatives `{...}` is left
to a parameter. -/

namespace glob

/-- Go `syntax/lexer.Special`: the characters `*`, `?`, `\`, `[`, `]`, `{` and `}`. -/
def Special (c : Char) : Bool :=
  c = '*' || c = '?' || c = '\\' || c = '[' || c = ']' || c = '{' || c = '}'

/-- A part of a pattern without ranges and alternatives. -/
inductive Node where
  | text (chars : List Char)
  | any
  | super
  | single
deriving DecidableEq, Repr

/-- The text read so far (held in reverse) becomes a text node, unless it is empty. -/
def flush (acc : List Char) (nodes : List Node) : List Node :=
  if acc.isEmpty then nodes else .text acc.reverse :: nodes

/-- The lexer outside of braces: a backslash takes the next character as text (a final
backslash is dropped), `?` is one character, `**` and `*` are any text, every other
character is text; `none` at an unescaped `[` or opening brace. -/
def lex : List Char → List Char → Option (List Node)
  | [], acc => some (flush acc [])
  | c :: rest, acc =>
    if c = '\\' then
      match rest with
      | [] => some (flush acc [])
      | d :: rest2 => lex rest2 (d :: acc)
    else if c = '[' ∨ c = '\x7b' then none
    else if c = '?' then (lex rest []).map (fun nodes => flush acc (.single :: nodes))
    else if c = '*' then
      let one := (lex rest []).map (fun nodes => flush acc (.any :: nodes))
      match rest with
      | [] => one
      | d :: rest2 =>
        if d = '*' then (lex rest2 []).map (fun nodes => flush acc (.super :: nodes))
        else one
    else lex rest (c :: acc)

/-- Whether a text matches a sequence of nodes: text matches itself, `?` one character,
`*` and `**` any text (there are no separators). -/
def matchNodes : List Node → List Char → Bool
  | [], s => s.isEmpty
  | .text t :: rest, s => t.isPrefixOf s && matchNodes rest (s.drop t.length)
  | .any :: rest, s => s.tails.any (fun tail => matchNodes rest tail)
  | .super :: rest, s => s.tails.any (fun tail => matchNodes rest tail)
  | .single :: rest, s =>
    match s with
    | [] => false
    | _ :: tail => matchNodes rest tail

/-- Function `glob.Compile` without separators: the `Match` function of the pattern, with
`other` for the patterns that have a range or alternatives. -/
def Compile (other : String → Option (String → Bool)) (pattern : String) :
    Option (String → Bool) :=
  match lex pattern.data [] with
  | some nodes => some (fun text => matchNodes nodes text.data)
  | none => other pattern

end glob

namespace server

/-- The example library instance with the model of `glob.Compile`, in which a pattern with
a range or alternatives does not compile. -/
def exampleLibGlob : Lib :=
  { exampleLib with globCompile := glob.Compile (fun _ => none) }

end server

namespace repoparser

/-- A character of a host name: a letter, a digit, a dot or a hyphen. -/
def hostChar (c : Char) : Bool :=
  c.isAlphanum || c = '.' || c = '-'

/-- A character of an org or repo name: a letter, a digit or a hyphen. -/
def nameChar (c : Char) : Bool :=
  c.isAlphanum || c = '-'

/-- A character that a URL path keeps as it is: not `/`, `?`, `#` or `%`, and no control
character. -/
def pathChar (c : Char) : Bool :=
  c ≠ '/' && c ≠ '?' && c ≠ '#' && c ≠ '%' && decide (32 ≤ c.toNat) && c.toNat ≠ 127

end repoparser

namespace url

/-- A character that `url.Parse` keeps as it is inside a path: not `?`, `#` or `%`, and
no control character. -/
def plainChar (c : Char) : Bool :=
  c ≠ '?' && c ≠ '#' && c ≠ '%' && decide (32 ≤ c.toNat) && c.toNat ≠ 127

end url

namespace repoparser

/-- A character of a reference after `#`: no `/` and no `%`. -/
def refChar (c : Char) : Bool :=
  c ≠ '/' && c ≠ '%'

end repoparser

namespace server

/-- The manifest that lists the one entry `myorg/*`. -/
def manifestWildcard : String :=
  "repos:\n  - myorg/*\n"

/-- The example library instance with the model of `glob.Compile` and a YAML decoder that
knows the manifest above as well. -/
def exampleLibWildcard : Lib :=
  { exampleLibGlob with
    yamlUnmarshal := fun contents =>
      if contents = manifestWildcard then
        .ok { ProtectedDestinations := [], Repositories := ["myorg/*"] }
      else exampleLib.yamlUnmarshal contents }

end server

namespace github

/-- The Forge-App client of the example deployment for `github.com`, its cache empty. -/
def freshClient : Client :=
  { AppClient := "github.com", OrgClients := fun _ => none }

end github

namespace server

/-- The example world two hours later: the time is 1700007200 s, after the expiry
(1700003600 s) of every token the example world mints. -/
def laterWorld : World Nat :=
  { exampleWorld notFound with now := fun s => (1700007200 * github.Second, s) }

end server

namespace github

/-- An operation on the map `OrgClients`, or on a lock that would guard it. -/
inductive CacheOp where
  | lock
  | unlock
  | rlock
  | runlock
  | read (org : String)
  | insert (org : String)
  | delete (org : String)
deriving DecidableEq, Repr

/-- The operations of `Client.ClientForOrg` on the map `OrgClients`, in program order: the
lookup of the cache check, the `delete` of an expired entry, and, once the new token is
minted, the assignment of the new entry and the lookup for the return value. The method
and the type `Client` have no lock. -/
def Client.cacheOps {σ : Type} (w : World σ) (c : Client) (org : String) (env : Env σ) :
    List CacheOp :=
  match c.OrgClients org with
  | some val =>
    let t := w.now env.world
    let env1 : Env σ := { env with world := t.2 }
    if ¬ (val.ExpiresAt < t.1 + (-Second * 30)) then [.read org]
    else
      match (Client.newOrgClient w { c with OrgClients := mapDelete c.OrgClients org } org
        val.InstallationID env1).1 with
      | .ok _ => [.read org, .delete org, .insert org, .read org]
      | .error _ => [.read org, .delete org]
  | none =>
    match (Client.newOrgClient w c org 0 env).1 with
    | .ok _ => [.read org, .insert org, .read org]
    | .error _ => [.read org]

/-- What a goroutine holds of a readers-writer lock. -/
inductive LockState where
  | free
  | shared
  | exclusive
deriving DecidableEq, Repr

/-- Whether a sequence of operations keeps the discipline of a readers-writer lock: the
map is read only while the lock is held (shared or exclusive), and changed only while it
is held exclusively. -/
def guarded : LockState → List CacheOp → Bool
  | _, [] => true
  | _, .lock :: rest => guarded .exclusive rest
  | _, .unlock :: rest => guarded .free rest
  | _, .rlock :: rest => guarded .shared rest
  | _, .runlock :: rest => guarded .free rest
  | held, .read _ :: rest => held ≠ .free && guarded held rest
  | held, .insert _ :: rest => held = .exclusive && guarded held rest
  | held, .delete _ :: rest => held = .exclusive && guarded held rest

/-- Whether an operation takes or releases a lock. -/
def CacheOp.isLock : CacheOp → Bool
  | .lock => true
  | .unlock => true
  | .rlock => true
  | .runlock => true
  | _ => false

/-- Whether an operation changes the map. -/
def CacheOp.isWrite : CacheOp → Bool
  | .insert _ => true
  | .delete _ => true
  | _ => false

end github

/-! ## Package gitcredentials

The input stream is a text; `bufio.Scanner` with its default split function and buffer
delivers its lines. -/

namespace bufio

/-- Go `bufio.MaxScanTokenSize`: the size of the largest buffer of a `Scanner`. -/
def MaxScanTokenSize : Nat := 64 * 1024

/-- The length of a text in bytes (UTF-8). -/
def byteLen (l : List Char) : Nat :=
  (l.map Char.utf8Size).sum

/-- Go `bufio.dropCR`: a final carriage return is dropped. -/
def dropCR (l : List Char) : List Char :=
  if l.getLast? = some '\r' then l.dropLast else l

/-- The lines that `bufio.ScanLines` finds, before `dropCR`: the text before every newline,
and the text after the last newline unless it is empty; `acc` holds the current line in
reverse. -/
def rawLines : List Char → List Char → List (List Char)
  | [], acc => if acc.isEmpty then [] else [acc.reverse]
  | c :: rest, acc =>
    if c = '\n' then acc.reverse :: rawLines rest [] else rawLines rest (c :: acc)

end bufio

namespace gitcredentials

/-- Go `gitcredentials.GitCredentialOptions`. -/
structure GitCredentialOptions where
  Protocol : String
  Host : String
  Path : String
  Username : String
  Password : String
deriving DecidableEq, Repr

/-- The `switch` of `ReadInput`: the value is stored in the field that the key names, and
dropped for any other key. -/
def setField (opts : GitCredentialOptions) (key value : String) : GitCredentialOptions :=
  if key = "protocol" then { opts with Protocol := value }
  else if key = "host" then { opts with Host := value }
  else if key = "path" then { opts with Path := value }
  else if key = "username" then { opts with Username := value }
  else if key = "password" then { opts with Password := value }
  else opts

/-- The loop of `ReadInput` over the lines the scanner has yet to deliver. A line that does
not fit the buffer of the scanner (65536 bytes and more) ends the scan with the error
`bufio.ErrTooLong`, which `scanner.Err()` returns after the loop; any other line is split
by `strings.SplitN(line, "=", 2)` and must have two parts. -/
def readLoop (opts : GitCredentialOptions) : List (List Char) → Except Error GitCredentialOptions
  | [] => .ok opts
  | raw :: rest =>
    if bufio.MaxScanTokenSize ≤ bufio.byteLen raw then
      .error (.msg "failed to read gitcredential format: bufio.Scanner: token too long")
    else
      let line := bufio.dropCR raw
      match url.cut '=' line with
      | (_, none) =>
        .error (.msg ("unable to parse git credential input line: \x27" ++ String.mk line ++
          "\x27 - not enough parameters"))
      | (key, some value) => readLoop (setField opts ⟨key⟩ ⟨value⟩) rest

/-- Function `ReadInput` on the text of the stream. -/
def ReadInput (input : String) : Except Error GitCredentialOptions :=
  readLoop { Protocol := "", Host := "", Path := "", Username := "", Password := "" }
    (bufio.rawLines input.data [])

/-- Go `gitcredentials.GitCredentialResponse`. -/
structure GitCredentialResponse where
  Username : String
  Password : String
  Quit : Bool
deriving DecidableEq, Repr

/-- Function `SendOutput`: the text written to the stream, the content of the
`strings.Builder` after its two or three `WriteString` calls. -/
def SendOutput (resp : GitCredentialResponse) : String :=
  let output := ""
  let output := output ++ ("username=" ++ resp.Username ++ "\n")
  let output := output ++ ("password=" ++ resp.Password ++ "\n")
  let output := if resp.Quit then output ++ "quit=true\n" else output
  output

/-- The lines of a stream as the scanner delivers them. -/
def lines (input : String) : List (List Char) :=
  (bufio.rawLines input.data []).map bufio.dropCR

/-- The text after the first `=` of the last of the given lines that carries the key
(a line carries the key when the key is its text before its first `=`), empty if no line
carries it. -/
def lastValue (key : String) (ls : List (List Char)) : String :=
  match (ls.filter (fun l => decide ((url.cut '=' l).1 = key.data) &&
      (url.cut '=' l).2.isSome)).getLast? with
  | some l => ⟨(url.cut '=' l).2.getD []⟩
  | none => ""

end gitcredentials

/-! ## Package client and the credential helper -/

namespace strings

/-- Go `strings.HasPrefix`, under the name `HasLeading`. -/
def HasLeading (s pre : String) : Bool :=
  pre.data.isPrefixOf s.data

end strings

namespace client

/-- Go `client.Client`: the URL of the token server. -/
structure Client where
  ServerURL : String
deriving DecidableEq, Repr

/-- An `*http.Response` as `GetToken` uses it: the status code, the status text, and what
`ioutil.ReadAll` makes of the body. -/
structure Response where
  StatusCode : Int
  Status : String
  Body : Except Error String

/-- What `GetToken` calls outside of the repository: `json.Marshal` of the request,
`http.NewRequest` (method and URL), `BuildkiteTokenGetter` (an error comes with the
standard error text when it is an `*exec.ExitError`), `http.Client.Do` (URL, value of the
header `X-Buildkite-OIDC-Token`, body), `json.Unmarshal` into an `api.HTTPError` (the
value it leaves and its error) and into an `api.TokenResponse`. -/
structure Deps where
  jsonMarshal : api.TokenRequest → Except Error String
  newRequest : String → String → Except Error Unit
  tokenGetter : Except (Error × Option String) String
  httpDo : String → String → String → Except Error Response
  unmarshalHTTPError : String → api.HTTPError × Option Error
  unmarshalTokenResponse : String → Except Error api.TokenResponse

/-- The three results of `GetToken`, each nil (`none`) or not. -/
structure Result where
  resp : Option api.TokenResponse
  httpErr : Option api.HTTPError
  err : Option Error
deriving DecidableEq, Repr

/-- Method `Client.GetToken`: the request is sent with the OIDC token of the agent; a
response with a status outside 200..299 is decoded as an `api.HTTPError`, and when the
decoding fails (`err != nil`) the value is returned with a fixed error, otherwise only an
error with the raw body; a response in 200..299 is decoded as the token response. -/
def Client.GetToken (d : Deps) (c : Client) (req : api.TokenRequest) : Result :=
  match d.jsonMarshal req with
  | .error err =>
    { resp := none, httpErr := none,
      err := some (.msg ("cannot prepare request: " ++ err.text)) }
  | .ok jsonBody =>
    match d.newRequest "POST" (c.ServerURL ++ "/token") with
    | .error err =>
      { resp := none, httpErr := none,
        err := some (.msg ("cannot create http request: " ++ err.text)) }
    | .ok _ =>
      match d.tokenGetter with
      | .error (err, some stderr) =>
        { resp := none, httpErr := none,
          err := some (.msg ("cannot get buildkite OIDC token: " ++ stderr ++ " / " ++
            err.text)) }
      | .error (err, none) =>
        { resp := none, httpErr := none,
          err := some (.msg ("cannot get buildkite OIDC token: " ++ err.text)) }
      | .ok buildkiteToken =>
        match d.httpDo (c.ServerURL ++ "/token") ("Bearer " ++ buildkiteToken) jsonBody with
        | .error err =>
          { resp := none, httpErr := none,
            err := some (.msg ("cannot get github access token: " ++ err.text)) }
        | .ok response =>
          match response.Body with
          | .error err =>
            { resp := none, httpErr := none,
              err := some (.msg ("cannot read response body: " ++ err.text)) }
          | .ok body =>
            if response.StatusCode < 200 ∨ response.StatusCode ≥ 300 then
              let errResp := (d.unmarshalHTTPError body).1
              match (d.unmarshalHTTPError body).2 with
              | some _ =>
                { resp := none, httpErr := some errResp,
                  err := some (.msg "token service responded with error") }
              | none =>
                { resp := none, httpErr := none,
                  err := some (.msg ("token server responded with: " ++ response.Status ++
                    " / " ++ body)) }
            else
              match d.unmarshalTokenResponse body with
              | .error err =>
                { resp := none, httpErr := none,
                  err := some (.msg ("cannot process server response: " ++ err.text)) }
              | .ok resp => { resp := some resp, httpErr := none, err := none }

/-- The body of the test `forbidden`: a JSON `HTTPError`. -/
def forbiddenBody : String :=
  "\x7b\"message\":\"not allowed to acccess repo foobarbaz\",\"req_id\":\"foo\"\x7d"

/-- A body of a token response. -/
def tokenBody : String :=
  "\x7b\"token\":\"ghs_example\",\"expires_at\":\"2023-11-14T23:13:20Z\",\"req_id\":\"foo\"\x7d"

/-- Example surroundings of `GetToken`: the agent returns the token `validtoken`, the
server answers every request with `response`, and the JSON decoder knows the two bodies
above (a token response also decodes as an `HTTPError` without message). -/
def exampleDeps (response : Response) : Deps :=
  { jsonMarshal := fun _ => .ok "\x7b\x7d",
    newRequest := fun _ _ => .ok (),
    tokenGetter := .ok "validtoken",
    httpDo := fun _ _ _ => .ok response,
    unmarshalHTTPError := fun body =>
      if body = forbiddenBody then
        ({ Field := "", Message := "not allowed to acccess repo foobarbaz", RequestID := "foo" },
          none)
      else if body = tokenBody then ({ Field := "", Message := "", RequestID := "foo" }, none)
      else ({ Field := "", Message := "", RequestID := "" },
        some (.msg "invalid character \x27<\x27 looking for beginning of value")),
    unmarshalTokenResponse := fun body =>
      if body = tokenBody then
        .ok { Token := "ghs_example", ExpiresAt := 1700003600 * github.Second,
              RequestID := "foo" }
      else .error (.msg "unexpected end of JSON input") }

/-- The response of the test `forbidden`. -/
def forbidden : Response :=
  { StatusCode := 403, Status := "403 Forbidden", Body := .ok forbiddenBody }

/-- A response 502 of a proxy, whose body is no JSON. -/
def badGateway : Response :=
  { StatusCode := 502, Status := "502 Bad Gateway", Body := .ok "<html>Bad Gateway</html>" }

/-- A response 200 with a token. -/
def granted : Response :=
  { StatusCode := 200, Status := "200 OK", Body := .ok tokenBody }

end client

namespace gitcredentials

/-- What a run of the credential helper leaves: the text on standard output and the exit
status. -/
structure Run where
  stdout : String
  exit : Nat
deriving DecidableEq, Repr

/-- Function `issueGitHubToken` of the command `git-credential-buildkite-oidc`, on the text
of standard input: the options are read, the protocol must start with `http`, host and
path must not be empty, the URL `protocol://host/path` must parse as a repository, and a
token with write access is asked of the token server at `http://localhost:8080`; on
success the credential is written with `SendOutput`. Every failure ends the process with
status 1 and nothing on standard output (`log` writes to standard error); `none` is the
dereference of a nil token response. -/
def issueGitHubToken (lib : Lib) (d : client.Deps) (stdin : String) : Option Run :=
  match ReadInput stdin with
  | .error _ => some { stdout := "", exit := 1 }
  | .ok options =>
    if !strings.HasLeading options.Protocol "http" then some { stdout := "", exit := 1 }
    else if options.Host = "" then some { stdout := "", exit := 1 }
    else if options.Path = "" then some { stdout := "", exit := 1 }
    else
      let repoURI := options.Protocol ++ "://" ++ options.Host ++ "/" ++ options.Path
      match repoparser.ExtractOrgRepoFromURL lib repoURI with
      | .error _ => some { stdout := "", exit := 1 }
      | .ok repo =>
        let r := client.Client.GetToken d { ServerURL := "http://localhost:8080" }
          { Repositories := [repo], AccessLevel := "write" }
        match r.err with
        | some _ => some { stdout := "", exit := 1 }
        | none =>
          match r.resp with
          | none => none
          | some resp =>
            some { stdout := SendOutput
                     { Username := "x-access-token", Password := resp.Token, Quit := true },
                   exit := 0 }

end gitcredentials

/-! ## Theorems -/

/-- The suffix test of `strings.HasSuffix` holds exactly for the strings that are some
text followed by the suffix. -/
theorem strings.HasSuffix_iff (s suffix : String) :
    strings.HasSuffix s suffix = true ↔ ∃ name : String, s = name ++ suffix := by
  unfold strings.HasSuffix
  rw [List.isSuffixOf_iff_suffix]
  constructor
  · rintro ⟨t, ht⟩
    exact ⟨⟨t⟩, String.ext (by simp [ht])⟩
  · rintro ⟨name, rfl⟩
    exact ⟨name.data, by simp⟩

/-- The environment after `GetPipelineRepo` is the old one after one GraphQL query. -/
theorem buildkite.GetPipelineRepo_env {σ : Type} (w : World σ) (o p : String) (env : Env σ) :
    (buildkite.GetPipelineRepo w o p env).2 =
      env.step (w.graphqlQuery (o ++ "/" ++ p) env.world).2 (.graphqlQuery (o ++ "/" ++ p)) := by
  unfold buildkite.GetPipelineRepo
  dsimp only
  split <;> rfl

/-- C4. A requested repository whose name is any text followed by `-buildkite-plugin` is
allowed without error, whatever the organization and pipeline slugs, and nothing is
called: the server, the world and the trace are returned unchanged (no GraphQL query, no
fetch of `gitops.yaml`). -/
theorem server.allowRepoAccess_plugin {σ : Type} (lib : Lib) (w : World σ)
    (srv : server.Server) (organizationSlug pipelineSlug : String)
    (requestedRepo : repoparser.RepositoryName) (env : Env σ) (name : String)
    (h : requestedRepo.Repo = name ++ "-buildkite-plugin") :
    server.Server.allowRepoAccess lib w srv organizationSlug pipelineSlug requestedRepo env =
      (.ok true, srv, env) := by
  have hs : strings.HasSuffix requestedRepo.Repo "-buildkite-plugin" = true :=
    (strings.HasSuffix_iff _ _).2 ⟨name, h⟩
  simp [server.Server.allowRepoAccess, hs]

/-- C4, at the plugin repository of the specification's scenario. -/
theorem server.allowRepoAccess_plugin_witness :
    server.Server.allowRepoAccess server.exampleLib (server.exampleWorld server.notFound)
        server.exampleServer "acme" "web"
        { Host := "github.com", Org := "acme", Repo := "foo-buildkite-plugin" }
        server.exampleEnv =
      (.ok true, server.exampleServer, server.exampleEnv) :=
  server.allowRepoAccess_plugin _ _ _ _ _ _ _ "foo" (by decide)

/-- C5. For a requested repository that is not a plugin repository, when
`GetPipelineRepo` succeeds with a URL that `ExtractOrgRepoFromURL` parses to a triple
`Equal` to the requested one, `allowRepoAccess` allows without error; the only call made
is the GraphQL query, so `gitops.yaml` is not fetched and the server is unchanged. -/
theorem server.allowRepoAccess_self_reference {σ : Type} (lib : Lib) (w : World σ)
    (srv : server.Server) (organizationSlug pipelineSlug : String)
    (requestedRepo : repoparser.RepositoryName) (env env1 : Env σ) (u : String)
    (pipelineRepo : repoparser.RepositoryName)
    (hplugin : strings.HasSuffix requestedRepo.Repo "-buildkite-plugin" = false)
    (hrepo : buildkite.GetPipelineRepo w organizationSlug pipelineSlug env = (.ok u, env1))
    (hparse : repoparser.ExtractOrgRepoFromURL lib u = .ok pipelineRepo)
    (heq : pipelineRepo.Equals requestedRepo = true) :
    server.Server.allowRepoAccess lib w srv organizationSlug pipelineSlug requestedRepo env =
        (.ok true, srv, env1) ∧
      env1.trace = env.trace ++ [.graphqlQuery (organizationSlug ++ "/" ++ pipelineSlug)] := by
  constructor
  · simp [server.Server.allowRepoAccess, hplugin, hrepo, hparse, heq]
  · have h := buildkite.GetPipelineRepo_env w organizationSlug pipelineSlug env
    rw [hrepo] at h
    have h1 : env1 = env.step (w.graphqlQuery (organizationSlug ++ "/" ++ pipelineSlug)
        env.world).2 (.graphqlQuery (organizationSlug ++ "/" ++ pipelineSlug)) := h
    rw [h1]
    rfl

/-- C5, at the specification's scenario: the request `github.com/acme/web` parses to the
triple `(github.com, acme, web)`, the pipeline's URL is `https://github.com/acme/web.git`,
and access is allowed after the one GraphQL query. -/
theorem server.allowRepoAccess_self_reference_witness :
    repoparser.ExtractOrgRepoFromURL server.exampleLib "github.com/acme/web" =
        .ok { Host := "github.com", Org := "acme", Repo := "web" } ∧
      server.Server.allowRepoAccess server.exampleLib (server.exampleWorld server.notFound)
          server.exampleServer "acme" "web"
          { Host := "github.com", Org := "acme", Repo := "web" } server.exampleEnv =
        (.ok true, server.exampleServer,
          { world := 1, trace := [] ++ [.graphqlQuery ("acme" ++ "/" ++ "web")] }) :=
  ⟨by rfl,
    ((server.allowRepoAccess_self_reference server.exampleLib
      (server.exampleWorld server.notFound) server.exampleServer "acme" "web"
      { Host := "github.com", Org := "acme", Repo := "web" } server.exampleEnv
      { world := 1, trace := [] ++ [.graphqlQuery ("acme" ++ "/" ++ "web")] }
      "https://github.com/acme/web.git" { Host := "github.com", Org := "acme", Repo := "web" }
      (by decide) (by rfl) (by rfl) (by decide)).1)⟩

/-- C3. For a requested repository `R` that is not a plugin repository, whose pipeline
repository `P` was resolved and is not `Equal` to `R`, and for whose host a client is
configured, `allowRepoAccess` decides from the fetch of `gitops.yaml` at `R` (org and repo
of `R`, through that client): a failure with status 404 denies without error; a failure
with any other status (0 for a transport error) is returned as the error; a fetched
content that parses as a manifest allows exactly when the manifest permits `P`. The
environment is the one after that fetch. -/
theorem server.allowRepoAccess_gitops {σ : Type} (lib : Lib) (w : World σ)
    (srv : server.Server) (organizationSlug pipelineSlug : String)
    (R P : repoparser.RepositoryName) (env env1 env2 : Env σ) (u : String)
    (client client1 : github.Client) (fetched : github.Contents)
    (hplugin : strings.HasSuffix R.Repo "-buildkite-plugin" = false)
    (hrepo : buildkite.GetPipelineRepo w organizationSlug pipelineSlug env = (.ok u, env1))
    (hparse : repoparser.ExtractOrgRepoFromURL lib u = .ok P)
    (hne : P.Equals R = false)
    (hclient : srv.githubAppClients R.Host = some client)
    (hfetch : client.GetContents w R.Org R.Repo "gitops.yaml" env1 = (fetched, client1, env2)) :
    (∀ err, fetched.err = some err → fetched.status = 404 →
        (server.Server.allowRepoAccess lib w srv organizationSlug pipelineSlug R env).1 =
          .ok false) ∧
      (∀ err, fetched.err = some err → fetched.status ≠ 404 →
        (server.Server.allowRepoAccess lib w srv organizationSlug pipelineSlug R env).1 =
          .error err) ∧
      (∀ gitops, fetched.err = none →
        github.GitOpsFromString lib fetched.contents = .ok gitops →
        (server.Server.allowRepoAccess lib w srv organizationSlug pipelineSlug R env).1 =
          .ok (gitops.RepositoryPermitted lib P)) ∧
      (server.Server.allowRepoAccess lib w srv organizationSlug pipelineSlug R env).2.2 =
        env2 := by
  refine ⟨?_, ?_, ?_, ?_⟩
  · intro err herr hstatus
    simp [server.Server.allowRepoAccess, hplugin, hrepo, hparse, hne, hclient, hfetch, herr,
      hstatus]
  · intro err herr hstatus
    simp [server.Server.allowRepoAccess, hplugin, hrepo, hparse, hne, hclient, hfetch, herr,
      hstatus]
  · intro gitops herr hg
    simp [server.Server.allowRepoAccess, hplugin, hrepo, hparse, hne, hclient, hfetch, herr,
      hg]
  · simp only [server.Server.allowRepoAccess, hplugin, hrepo, hparse, hne, hclient, hfetch]
    simp only [Bool.false_eq_true, if_false]
    split
    · split <;> rfl
    · split <;> rfl

/-- C3, at the specification's scenario of a missing manifest: the pipeline builds
`github.com/acme/web`, the request is for `github.com/acme/infra`, the fetch of
`gitops.yaml` is answered 404, and access is denied without error. -/
theorem server.allowRepoAccess_gitops_witness :
    (server.Server.allowRepoAccess server.exampleLib (server.exampleWorld server.notFound)
        server.exampleServer "acme" "web"
        { Host := "github.com", Org := "acme", Repo := "infra" } server.exampleEnv).1 =
      .ok false :=
  (server.allowRepoAccess_gitops server.exampleLib (server.exampleWorld server.notFound)
    server.exampleServer "acme" "web" { Host := "github.com", Org := "acme", Repo := "infra" }
    { Host := "github.com", Org := "acme", Repo := "web" } server.exampleEnv _ _
    "https://github.com/acme/web.git" { AppClient := "github.com", OrgClients := fun _ => none }
    _ _ (by decide) (by rfl) (by rfl) (by decide) (by rfl) (by rfl)).1
    (.msg "404 Not Found") (by rfl) (by rfl)

/-! ### Which calls a step adds to the trace

The lemmas are stated for any class `p` of events that holds no call of the CI or Forge
APIs; the calls of the method `CreateInstallationToken` and the calls of `jwt.Parse` are
two such classes. -/

/-- A remote call outside the class `p` leaves the calls of `p` as they were. -/
theorem filter_step {σ : Type} (p : Event → Bool) (env : Env σ) (s : σ) (e : Event)
    (h : p e = false) : (env.step s e).trace.filter p = env.trace.filter p := by
  simp [Env.step, List.filter_append, h]

/-- Making a new organisation client calls the Forge API only. -/
theorem github.newOrgClient_filter {σ : Type} (p : Event → Bool)
    (hp : ∀ e, e.isForgeOrCI = true → p e = false) (w : World σ) (c : github.Client)
    (org : String) (id : Int) (env : Env σ) :
    (github.Client.newOrgClient w c org id env).2.2.trace.filter p = env.trace.filter p := by
  unfold github.Client.newOrgClient
  dsimp only
  by_cases hid : id = 0
  · simp only [hid, if_true]
    cases h1 : (w.findOrganizationInstallation c.AppClient org env.world).1 with
    | error err => simp [filter_step, hp, Event.isForgeOrCI]
    | ok found =>
      simp only []
      split <;> simp [filter_step, hp, Event.isForgeOrCI]
  · simp only [hid, if_false]
    split <;> simp [filter_step, hp, Event.isForgeOrCI]

/-- Getting the client of an organisation calls the Forge API only. -/
theorem github.ClientForOrg_filter {σ : Type} (p : Event → Bool)
    (hp : ∀ e, e.isForgeOrCI = true → p e = false) (w : World σ) (c : github.Client)
    (org : String) (env : Env σ) :
    (github.Client.ClientForOrg w c org env).2.2.trace.filter p = env.trace.filter p := by
  unfold github.Client.ClientForOrg
  split
  · dsimp only
    split
    · rfl
    · rw [github.newOrgClient_filter p hp]
  · rw [github.newOrgClient_filter p hp]

/-- Reading a file calls the Forge API only. -/
theorem github.GetContents_filter {σ : Type} (p : Event → Bool)
    (hp : ∀ e, e.isForgeOrCI = true → p e = false) (w : World σ) (c : github.Client)
    (owner repo path : String) (env : Env σ) :
    (github.Client.GetContents w c owner repo path env).2.2.trace.filter p =
      env.trace.filter p := by
  have h := github.ClientForOrg_filter p hp w c owner env
  unfold github.Client.GetContents
  split
  · next err c1 env1 heq =>
    rw [heq] at h
    exact h
  · next orgClient id c1 env1 heq =>
    rw [heq] at h
    dsimp only
    split <;> simp [filter_step, hp, Event.isForgeOrCI] <;> exact h

/-- The access check of one repository calls the CI and Forge APIs only. -/
theorem server.allowRepoAccess_filter {σ : Type} (p : Event → Bool)
    (hp : ∀ e, e.isForgeOrCI = true → p e = false) (lib : Lib) (w : World σ)
    (srv : server.Server) (o q : String) (R : repoparser.RepositoryName) (env : Env σ) :
    (server.Server.allowRepoAccess lib w srv o q R env).2.2.trace.filter p =
      env.trace.filter p := by
  have hq := buildkite.GetPipelineRepo_env w o q env
  unfold server.Server.allowRepoAccess
  split
  · rfl
  · split
    · next err env1 heq =>
      rw [heq] at hq
      have h1 : env1 = _ := hq
      rw [h1]
      simp [filter_step, hp, Event.isForgeOrCI]
    · next repo env1 heq =>
      rw [heq] at hq
      have h1 : env1 = _ := hq
      have h2 : env1.trace.filter p = env.trace.filter p := by
        rw [h1]
        simp [filter_step, hp, Event.isForgeOrCI]
      split
      · exact h2
      · split
        · exact h2
        · split
          · exact h2
          · next client hclient =>
            have hg := github.GetContents_filter p hp w client R.Org R.Repo "gitops.yaml" env1
            split
            next fetched client1 env2 hfetch =>
            rw [hfetch] at hg
            have h3 : env2.trace.filter p = env.trace.filter p := by
              rw [← h2]
              exact hg
            dsimp only
            split
            · split <;> exact h3
            · split <;> exact h3

/-- The loop over the requested repositories calls the CI and Forge APIs only. -/
theorem server.authorizeRepos_filter {σ : Type} (p : Event → Bool)
    (hp : ∀ e, e.isForgeOrCI = true → p e = false) (lib : Lib) (w : World σ)
    (r : server.Request) (o q : String) (repos : List repoparser.RepositoryName) :
    ∀ (srv : server.Server) (env : Env σ),
      (server.Server.authorizeRepos lib w r o q repos srv env).2.2.trace.filter p =
        env.trace.filter p := by
  induction repos with
  | nil => intro srv env; rfl
  | cons repo rest ih =>
    intro srv env
    have ha := server.allowRepoAccess_filter p hp lib w srv o q repo env
    unfold server.Server.authorizeRepos
    split
    · next err srv1 env1 heq =>
      rw [heq] at ha
      exact ha
    · next allow srv1 env1 heq =>
      rw [heq] at ha
      split
      · exact ha
      · rw [ih]
        exact ha

/-- The method `CreateInstallationToken` calls the Forge API only. -/
theorem github.CreateInstallationToken_filter {σ : Type} (p : Event → Bool)
    (hp : ∀ e, e.isForgeOrCI = true → p e = false) (w : World σ)
    (c : Option github.Client) (repos : List repoparser.RepositoryName)
    (permissions : github.InstallationPermissions) (env : Env σ) :
    (github.Client.CreateInstallationToken w c repos permissions env).2.trace.filter p =
      env.trace.filter p := by
  unfold github.Client.CreateInstallationToken
  split
  · rfl
  · split
    · rfl
    · split
      · rfl
      · dsimp only
        split
        · simp [filter_step, hp, Event.isForgeOrCI]
        · split <;> simp [filter_step, hp, Event.isForgeOrCI]

/-- No call of the CI or Forge APIs is a call of the method `CreateInstallationToken`. -/
theorem Event.isMint_of_isForgeOrCI (e : Event) (h : e.isForgeOrCI = true) :
    e.isMint = false := by
  cases e <;> simp [Event.isForgeOrCI] at h <;> rfl

/-- No call of the CI or Forge APIs is a call of `jwt.Parse`. -/
theorem Event.isJwtParse_of_isForgeOrCI (e : Event) (h : e.isForgeOrCI = true) :
    e.isJwtParse = false := by
  cases e <;> simp [Event.isForgeOrCI] at h <;> rfl

/-- The loop over the requested repositories never calls `CreateInstallationToken`. -/
theorem server.authorizeRepos_mintCalls {σ : Type} (lib : Lib) (w : World σ)
    (r : server.Request) (o p : String) (repos : List repoparser.RepositoryName)
    (srv : server.Server) (env : Env σ) :
    mintCalls (server.Server.authorizeRepos lib w r o p repos srv env).2.2.trace =
      mintCalls env.trace :=
  server.authorizeRepos_filter Event.isMint Event.isMint_of_isForgeOrCI lib w r o p repos srv env

/-- The Forge API calls inside the method `CreateInstallationToken` are not calls of the
method. -/
theorem github.CreateInstallationToken_mintCalls {σ : Type} (w : World σ)
    (c : Option github.Client) (repos : List repoparser.RepositoryName)
    (permissions : github.InstallationPermissions) (env : Env σ) :
    mintCalls (github.Client.CreateInstallationToken w c repos permissions env).2.trace =
      mintCalls env.trace :=
  github.CreateInstallationToken_filter Event.isMint Event.isMint_of_isForgeOrCI w c repos
    permissions env

/-- Decoding and verifying a request never calls `CreateInstallationToken`. -/
theorem server.verifyRequest_mintCalls {σ : Type} (lib : Lib) (w : World σ)
    (r : server.Request) (env : Env σ) :
    mintCalls (server.Server.verifyRequest lib w r env).2.trace = mintCalls env.trace := by
  unfold server.Server.verifyRequest mintCalls
  split
  · rfl
  · dsimp only
    split
    · simp [filter_step, Event.isMint]
    · split
      · split
        · simp [filter_step, Event.isMint]
        · split
          · simp [filter_step, Event.isMint]
          · split
            · simp [filter_step, Event.isMint]
            · split
              · simp [filter_step, Event.isMint]
              · split <;> simp [filter_step, Event.isMint]
      · simp [filter_step, Event.isMint]

/-! ### Status codes -/

/-- A request that fails verification is answered 400, 403 or 500 (a panic becomes 500
in the recoverer). -/
theorem server.verifyRequest_error_status {σ : Type} (lib : Lib) (w : World σ)
    (r : server.Request) (env : Env σ) (out : server.Outcome)
    (h : (server.Server.verifyRequest lib w r env).1 = .error out) :
    400 ≤ (server.middlewareRecoverer out).status := by
  unfold server.Server.verifyRequest at h
  split at h
  · simp only [Except.error.injEq] at h
    subst h
    simp [server.handleError, server.middlewareRecoverer]
  · dsimp only at h
    split at h
    · simp only [Except.error.injEq] at h
      subst h
      simp [server.handleError, server.middlewareRecoverer]
    · split at h
      · split at h
        · simp only [Except.error.injEq] at h
          subst h
          simp [server.handleError, server.middlewareRecoverer]
        · split at h
          · simp only [Except.error.injEq] at h
            subst h
            simp [server.handleError, server.middlewareRecoverer]
          · split at h
            · simp only [Except.error.injEq] at h
              subst h
              simp [server.handleError, server.middlewareRecoverer]
            · split at h
              · simp only [Except.error.injEq] at h
                subst h
                simp [server.handleError, server.middlewareRecoverer]
              · split at h
                · simp at h
                · simp only [Except.error.injEq] at h
                  subst h
                  simp [server.middlewareRecoverer]
      · simp only [Except.error.injEq] at h
        subst h
        simp [server.handleError, server.middlewareRecoverer]

/-- A request that the authorization loop ends is answered 403 or 500. -/
theorem server.authorizeRepos_status {σ : Type} (lib : Lib) (w : World σ)
    (r : server.Request) (o p : String) (repos : List repoparser.RepositoryName) :
    ∀ (srv : server.Server) (env : Env σ) (out : server.Outcome),
      (server.Server.authorizeRepos lib w r o p repos srv env).1 = some out →
        400 ≤ (server.middlewareRecoverer out).status := by
  induction repos with
  | nil => intro srv env out h; simp [server.Server.authorizeRepos] at h
  | cons repo rest ih =>
    intro srv env out h
    unfold server.Server.authorizeRepos at h
    split at h
    · simp only [Option.some.injEq] at h
      subst h
      simp [server.handleError, server.middlewareRecoverer]
    · split at h
      · simp only [Option.some.injEq] at h
        subst h
        simp [server.handleError, server.middlewareRecoverer]
      · exact ih _ _ _ h

/-- The mint step answers 2xx only when the one call of `CreateInstallationToken` it makes
returns a token. -/
theorem server.mintToken_success {σ : Type} (lib : Lib) (w : World σ) (srv : server.Server)
    (r : server.Request) (input : api.TokenRequest) (env : Env σ)
    (h : (server.middlewareRecoverer (server.Server.mintToken lib w srv r input env).1).status
      < 300) :
    ∃ host repos permissions token,
      mintCalls (server.Server.mintToken lib w srv r input env).2.trace =
        mintCalls env.trace ++ [.CreateInstallationToken host repos permissions (.ok token)] := by
  unfold server.Server.mintToken at h ⊢
  cases hrepos : input.Repositories with
  | nil =>
    simp only [hrepos] at h
    simp [server.middlewareRecoverer] at h
  | cons first rest =>
    simp only [hrepos] at h ⊢
    have hm := github.CreateInstallationToken_mintCalls w (srv.githubAppClients first.Host)
      (first :: rest) ⟨some "read", some input.AccessLevel, some input.AccessLevel⟩ env
    generalize github.Client.CreateInstallationToken w (srv.githubAppClients first.Host)
      (first :: rest) ⟨some "read", some input.AccessLevel, some input.AccessLevel⟩ env = m
      at h hm ⊢
    obtain ⟨res, env1⟩ := m
    cases res with
    | panic => simp [server.middlewareRecoverer] at h
    | err e => simp [server.middlewareRecoverer, server.handleError] at h
    | ok token =>
      refine ⟨first.Host, first :: rest,
        ⟨some "read", some input.AccessLevel, some input.AccessLevel⟩, token, ?_⟩
      simp only at hm h ⊢
      cases hj : lib.jsonMarshal
          { Token := token.Token, ExpiresAt := token.ExpiresAt, RequestID := r.RequestID } with
      | error e =>
        rw [hj] at h
        simp [server.middlewareRecoverer, server.handleError] at h
      | ok json =>
        simp only [mintCalls, List.filter_append] at hm ⊢
        rw [hm]
        simp [Event.isMint]

/-- C1. Whatever the request, the libraries, the world and the server, if the response
of the token handler (behind the recoverer) has a 2xx status, then during the request the
method `CreateInstallationToken` was called exactly once, and that call returned a
token. -/
theorem server.handleToken_success_mints_once {σ : Type} (lib : Lib) (w : World σ)
    (srv : server.Server) (r : server.Request) (env : Env σ)
    (h : 200 ≤ (server.middlewareRecoverer (server.Server.handleToken lib w srv r env).1).status
      ∧ (server.middlewareRecoverer (server.Server.handleToken lib w srv r env).1).status
        < 300) :
    ∃ host repos permissions token,
      mintCalls (server.Server.handleToken lib w srv r env).2.2.trace =
        mintCalls env.trace ++ [.CreateInstallationToken host repos permissions (.ok token)] := by
  have h300 := h.2
  have hv := server.verifyRequest_mintCalls lib w r env
  unfold server.Server.handleToken at h300 ⊢
  split at h300
  · next out env1 heq =>
    have := server.verifyRequest_error_status lib w r env out (by rw [heq])
    simp only at h300
    omega
  · next v env1 heq =>
    rw [heq] at hv
    simp only [heq]
    have ha := server.authorizeRepos_mintCalls lib w r v.organizationSlug v.pipelineSlug
      v.input.Repositories srv env1
    split at h300
    · next out srv1 env2 heq2 =>
      have := server.authorizeRepos_status lib w r v.organizationSlug v.pipelineSlug
        v.input.Repositories srv env1 out (by rw [heq2])
      simp only at h300
      omega
    · next srv1 env2 heq2 =>
      rw [heq2] at ha
      simp only [heq2]
      obtain ⟨host, repos, permissions, token, hm⟩ :=
        server.mintToken_success lib w srv1 r v.input env2 h300
      exact ⟨host, repos, permissions, token, by rw [hm, ha, hv]⟩

/-- C1, at the specification's first scenario: the request for `github.com/acme/web` by
the pipeline that builds it is answered 200, and the trace holds one call of
`CreateInstallationToken`, which returned a token. -/
theorem server.handleToken_success_mints_once_witness :
    (server.middlewareRecoverer (server.Server.handleToken server.exampleLib
        (server.exampleWorld server.notFound) server.exampleServer
        (server.exampleRequest server.bodyWeb) server.exampleEnv).1).status = 200 ∧
      ∃ host repos permissions token,
        mintCalls (server.Server.handleToken server.exampleLib
          (server.exampleWorld server.notFound) server.exampleServer
          (server.exampleRequest server.bodyWeb) server.exampleEnv).2.2.trace =
        mintCalls server.exampleEnv.trace ++
          [.CreateInstallationToken host repos permissions (.ok token)] :=
  ⟨by decide,
    server.handleToken_success_mints_once server.exampleLib
      (server.exampleWorld server.notFound) server.exampleServer
      (server.exampleRequest server.bodyWeb) server.exampleEnv (by decide)⟩

/-! ### The authorization loop -/

/-- One turn of the loop: the check of the first repository, then the rest. -/
theorem server.authorizeRepos_cons {σ : Type} (lib : Lib) (w : World σ) (r : server.Request)
    (o p : String) (repo : repoparser.RepositoryName) (rest : List repoparser.RepositoryName)
    (srv : server.Server) (env : Env σ) :
    server.Server.authorizeRepos lib w r o p (repo :: rest) srv env =
      match server.Server.allowRepoAccess lib w srv o p repo env with
      | (.error err, srv1, env1) =>
        (some (server.handleError r (some err) "error checking repository access" 500),
          srv1, env1)
      | (.ok allow, srv1, env1) =>
        if !allow then
          (some (server.handleError r none ("not allowed to acccess repo " ++ repo.HTTPS) 403),
            srv1, env1)
        else server.Server.authorizeRepos lib w r o p rest srv1 env1 := by
  rw [server.Server.authorizeRepos]

/-- When the loop allows every repository of a list, running it on that list followed by
more repositories is running it on the rest from where it got to. -/
theorem server.authorizeRepos_append {σ : Type} (lib : Lib) (w : World σ)
    (r : server.Request) (o p : String) (pre rest : List repoparser.RepositoryName) :
    ∀ (srv srv1 : server.Server) (env env1 : Env σ),
      server.Server.authorizeRepos lib w r o p pre srv env = (none, srv1, env1) →
        server.Server.authorizeRepos lib w r o p (pre ++ rest) srv env =
          server.Server.authorizeRepos lib w r o p rest srv1 env1 := by
  induction pre with
  | nil =>
    intro srv srv1 env env1 h
    simp only [server.Server.authorizeRepos, Prod.mk.injEq, true_and] at h
    obtain ⟨h1, h2⟩ := h
    subst h1
    subst h2
    rfl
  | cons repo pre ih =>
    intro srv srv1 env env1 h
    rw [List.cons_append, server.authorizeRepos_cons]
    rw [server.authorizeRepos_cons] at h
    split at h
    · simp at h
    · next allow srv2 env2 heq =>
      split at h
      · simp at h
      · next hallow =>
        rw [if_neg hallow]
        exact ih _ _ _ _ h

/-- C2. For a verified request whose repositories before `R` are all allowed by the
authorization loop and whose repository `R` the authorizer then denies (false, no
error), the handler responds 403 with the message `not allowed to acccess repo ` followed
by `https://{host}/{org}/{repo}.git` of `R`, and `CreateInstallationToken` is not called
during the request. -/
theorem server.handleToken_denied {σ : Type} (lib : Lib) (w : World σ) (srv : server.Server)
    (r : server.Request) (env env0 env1 env2 : Env σ) (v : server.Verified)
    (srv1 srv2 : server.Server) (pre post : List repoparser.RepositoryName)
    (R : repoparser.RepositoryName)
    (hver : server.Server.verifyRequest lib w r env = (.ok v, env0))
    (hrepos : v.input.Repositories = pre ++ R :: post)
    (hpre : server.Server.authorizeRepos lib w r v.organizationSlug v.pipelineSlug pre srv
      env0 = (none, srv1, env1))
    (hdeny : server.Server.allowRepoAccess lib w srv1 v.organizationSlug v.pipelineSlug R
      env1 = (.ok false, srv2, env2)) :
    (server.Server.handleToken lib w srv r env).1 =
        .response
          { status := 403,
            body := .httpError
              { Field := "",
                Message := "not allowed to acccess repo " ++
                  ("https://" ++ R.Host ++ "/" ++ R.Org ++ "/" ++ R.Repo ++ ".git"),
                RequestID := r.RequestID } } ∧
      mintCalls (server.Server.handleToken lib w srv r env).2.2.trace = mintCalls env.trace := by
  have hloop : server.Server.authorizeRepos lib w r v.organizationSlug v.pipelineSlug
      v.input.Repositories srv env0 =
      (some (server.handleError r none ("not allowed to acccess repo " ++ R.HTTPS) 403),
        srv2, env2) := by
    rw [hrepos, server.authorizeRepos_append lib w r _ _ pre (R :: post) srv srv1 env0 env1 hpre]
    simp [server.Server.authorizeRepos, hdeny]
  have hv := server.verifyRequest_mintCalls lib w r env
  have ha := server.authorizeRepos_mintCalls lib w r v.organizationSlug v.pipelineSlug
    v.input.Repositories srv env0
  rw [hver] at hv
  rw [hloop] at ha
  simp only [server.Server.handleToken, hver, hloop]
  exact ⟨rfl, by rw [ha, hv]⟩

/-- C6. For a verified request whose repositories before `R` are all allowed, where `R` is
not a plugin repository, the pipeline's repository resolves to a triple not `Equal` to
`R`, and no client is configured for the host of `R`: `allowRepoAccess` returns an error
(neither allow nor deny) having made only the GraphQL query, so no fetch of `gitops.yaml`,
and the handler answers 500. -/
theorem server.allowRepoAccess_no_client {σ : Type} (lib : Lib) (w : World σ)
    (srv : server.Server) (r : server.Request) (env env0 env1 env2 : Env σ)
    (v : server.Verified) (srv1 : server.Server)
    (pre post : List repoparser.RepositoryName) (R P : repoparser.RepositoryName) (u : String)
    (hver : server.Server.verifyRequest lib w r env = (.ok v, env0))
    (hrepos : v.input.Repositories = pre ++ R :: post)
    (hpre : server.Server.authorizeRepos lib w r v.organizationSlug v.pipelineSlug pre srv
      env0 = (none, srv1, env1))
    (hplugin : strings.HasSuffix R.Repo "-buildkite-plugin" = false)
    (hrepo : buildkite.GetPipelineRepo w v.organizationSlug v.pipelineSlug env1 = (.ok u, env2))
    (hparse : repoparser.ExtractOrgRepoFromURL lib u = .ok P)
    (hne : P.Equals R = false)
    (hclient : srv1.githubAppClients R.Host = none) :
    (∃ err, server.Server.allowRepoAccess lib w srv1 v.organizationSlug v.pipelineSlug R env1 =
        (.error err, srv1, env2)) ∧
      env2.trace = env1.trace ++ [.graphqlQuery (v.organizationSlug ++ "/" ++ v.pipelineSlug)] ∧
      ∃ resp, server.Server.handleToken lib w srv r env = (.response resp, srv1, env2) ∧
        resp.status = 500 := by
  have hallow : server.Server.allowRepoAccess lib w srv1 v.organizationSlug v.pipelineSlug R
      env1 = (.error (.msg ("no github client for " ++ R.Host)), srv1, env2) := by
    simp [server.Server.allowRepoAccess, hplugin, hrepo, hparse, hne, hclient]
  refine ⟨⟨_, hallow⟩, ?_, ?_⟩
  · have h := buildkite.GetPipelineRepo_env w v.organizationSlug v.pipelineSlug env1
    rw [hrepo] at h
    have h1 : env2 = _ := h
    rw [h1]
    rfl
  · have hloop : server.Server.authorizeRepos lib w r v.organizationSlug v.pipelineSlug
        v.input.Repositories srv env0 =
        (some (server.handleError r (some (.msg ("no github client for " ++ R.Host)))
          "error checking repository access" 500), srv1, env2) := by
      rw [hrepos,
        server.authorizeRepos_append lib w r _ _ pre (R :: post) srv srv1 env0 env1 hpre]
      simp [server.Server.authorizeRepos, hallow]
    simp only [server.Server.handleToken, hver, hloop]
    exact ⟨_, rfl, rfl⟩

/-- The mint call of the handler for a list that is not empty: for a verified request whose
repositories are all allowed and whose list is not empty, the handler calls
`CreateInstallationToken` once, on the entry of the client map for the host of the first
repository, from the state the authorization left, with the whole list in request order
and the permissions metadata `read`, contents and pull requests at the access level of the
request. -/
theorem server.handleToken_mint_call {σ : Type} (lib : Lib) (w : World σ)
    (srv : server.Server) (r : server.Request) (env env0 env1 : Env σ) (v : server.Verified)
    (srv1 : server.Server) (first : repoparser.RepositoryName)
    (rest : List repoparser.RepositoryName)
    (hver : server.Server.verifyRequest lib w r env = (.ok v, env0))
    (hauth : server.Server.authorizeRepos lib w r v.organizationSlug v.pipelineSlug
      v.input.Repositories srv env0 = (none, srv1, env1))
    (hrepos : v.input.Repositories = first :: rest) :
    (server.Server.handleToken lib w srv r env).2.2.trace =
        (github.Client.CreateInstallationToken w (srv1.githubAppClients first.Host)
          v.input.Repositories
          { Metadata := some "read", Contents := some v.input.AccessLevel,
            PullRequests := some v.input.AccessLevel } env1).2.trace ++
        [.CreateInstallationToken first.Host v.input.Repositories
          { Metadata := some "read", Contents := some v.input.AccessLevel,
            PullRequests := some v.input.AccessLevel }
          (github.Client.CreateInstallationToken w (srv1.githubAppClients first.Host)
            v.input.Repositories
            { Metadata := some "read", Contents := some v.input.AccessLevel,
              PullRequests := some v.input.AccessLevel } env1).1] ∧
      mintCalls (server.Server.handleToken lib w srv r env).2.2.trace =
        mintCalls env.trace ++
          [.CreateInstallationToken first.Host v.input.Repositories
            { Metadata := some "read", Contents := some v.input.AccessLevel,
              PullRequests := some v.input.AccessLevel }
            (github.Client.CreateInstallationToken w (srv1.githubAppClients first.Host)
              v.input.Repositories
              { Metadata := some "read", Contents := some v.input.AccessLevel,
                PullRequests := some v.input.AccessLevel } env1).1] := by
  have hv := server.verifyRequest_mintCalls lib w r env
  have ha := server.authorizeRepos_mintCalls lib w r v.organizationSlug v.pipelineSlug
    v.input.Repositories srv env0
  have hm := github.CreateInstallationToken_mintCalls w (srv1.githubAppClients first.Host)
    v.input.Repositories ⟨some "read", some v.input.AccessLevel, some v.input.AccessLevel⟩ env1
  rw [hver] at hv
  rw [hauth] at ha
  have htrace : (server.Server.handleToken lib w srv r env).2.2.trace =
      (github.Client.CreateInstallationToken w (srv1.githubAppClients first.Host)
        v.input.Repositories
        ⟨some "read", some v.input.AccessLevel, some v.input.AccessLevel⟩ env1).2.trace ++
      [.CreateInstallationToken first.Host v.input.Repositories
        ⟨some "read", some v.input.AccessLevel, some v.input.AccessLevel⟩
        (github.Client.CreateInstallationToken w (srv1.githubAppClients first.Host)
          v.input.Repositories
          ⟨some "read", some v.input.AccessLevel, some v.input.AccessLevel⟩ env1).1] := by
    simp only [server.Server.handleToken, hver, hauth, server.Server.mintToken]
    rw [hrepos]
    simp only
    split
    · rfl
    · rfl
    · split <;> rfl
  refine ⟨htrace, ?_⟩
  rw [htrace]
  simp only [mintCalls, List.filter_append] at hm ha hv ⊢
  rw [hm, ha, hv]
  simp [Event.isMint]

/-- C2, at the specification's scenario of a missing manifest: the request for
`github.com/acme/infra` is answered 403 with the message naming its HTTPS URL, and the
trace holds no call of `CreateInstallationToken`. -/
theorem server.handleToken_denied_witness :
    (server.Server.handleToken server.exampleLib (server.exampleWorld server.notFound)
        server.exampleServer (server.exampleRequest server.bodyInfra) server.exampleEnv).1 =
        .response
          { status := 403,
            body := .httpError
              { Field := "",
                Message := "not allowed to acccess repo https://github.com/acme/infra.git",
                RequestID := "req-1" } } ∧
      mintCalls (server.Server.handleToken server.exampleLib
        (server.exampleWorld server.notFound) server.exampleServer
        (server.exampleRequest server.bodyInfra) server.exampleEnv).2.2.trace = mintCalls [] :=
  server.handleToken_denied server.exampleLib (server.exampleWorld server.notFound)
    server.exampleServer (server.exampleRequest server.bodyInfra) server.exampleEnv _ _ _
    { input :=
        { Repositories := [{ Host := "github.com", Org := "acme", Repo := "infra" }],
          AccessLevel := "write" },
      jobID := "job-1", organizationSlug := "acme", pipelineSlug := "web" }
    server.exampleServer _ [] [] { Host := "github.com", Org := "acme", Repo := "infra" }
    (by rfl) (by rfl) (by rfl) (by rfl)

/-- C6, on a request for a repository on `git.example.com`, a host for which the example
server has no client: the check fails after the GraphQL query and the answer is 500. -/
theorem server.allowRepoAccess_no_client_witness :
    ∃ resp, server.Server.handleToken server.exampleLib (server.exampleWorld server.notFound)
        server.exampleServer (server.exampleRequest server.bodyEnterprise)
        server.exampleEnv =
        (.response resp, server.exampleServer,
          { world := 3,
            trace := [.jwkGet, .jwtParse "eyJhbGciOiJSUzI1NiJ9.e30.c2ln",
              .graphqlQuery "acme/web"] }) ∧
      resp.status = 500 :=
  (server.allowRepoAccess_no_client server.exampleLib
    (server.exampleWorld server.notFound) server.exampleServer
    (server.exampleRequest server.bodyEnterprise) server.exampleEnv
    { world := 2, trace := [.jwkGet, .jwtParse "eyJhbGciOiJSUzI1NiJ9.e30.c2ln"] }
    { world := 2, trace := [.jwkGet, .jwtParse "eyJhbGciOiJSUzI1NiJ9.e30.c2ln"] }
    { world := 3,
      trace := [.jwkGet, .jwtParse "eyJhbGciOiJSUzI1NiJ9.e30.c2ln", .graphqlQuery "acme/web"] }
    { input :=
        { Repositories := [{ Host := "git.example.com", Org := "acme", Repo := "infra" }],
          AccessLevel := "read" },
      jobID := "job-1", organizationSlug := "acme", pipelineSlug := "web" }
    server.exampleServer [] [] { Host := "git.example.com", Org := "acme", Repo := "infra" }
    { Host := "github.com", Org := "acme", Repo := "web" } "https://github.com/acme/web.git"
    (by rfl) (by rfl) (by rfl) (by decide) (by rfl) (by rfl) (by decide) (by rfl)).2.2

/-- C9, at the failing input: a request with an empty list of repositories is decoded and
verified, the authorization loop has nothing to refuse, and the handler panics on
`Repositories[0]` without any call of `CreateInstallationToken`, whose own check of the
empty list is never reached. -/
theorem server.handleToken_empty_request_panics :
    (server.Server.verifyRequest server.exampleLib (server.exampleWorld server.notFound)
        (server.exampleRequest server.bodyEmpty) server.exampleEnv).1 =
        .ok { input := { Repositories := [], AccessLevel := "read" },
              jobID := "job-1", organizationSlug := "acme", pipelineSlug := "web" } ∧
      (server.Server.authorizeRepos server.exampleLib (server.exampleWorld server.notFound)
        (server.exampleRequest server.bodyEmpty) "acme" "web" [] server.exampleServer
        { world := 2, trace := [.jwkGet, .jwtParse "eyJhbGciOiJSUzI1NiJ9.e30.c2ln"] }).1 = none ∧
      (server.Server.handleToken server.exampleLib (server.exampleWorld server.notFound)
        server.exampleServer (server.exampleRequest server.bodyEmpty) server.exampleEnv).1 =
        .panic ∧
      mintCalls (server.Server.handleToken server.exampleLib
        (server.exampleWorld server.notFound) server.exampleServer
        (server.exampleRequest server.bodyEmpty) server.exampleEnv).2.2.trace = [] := by
  refine ⟨by rfl, by rfl, by rfl, by rfl⟩

/-- The mint call at the specification's first scenario: the request for read access to
`github.com/acme/web` leads to one call of `CreateInstallationToken`, on the client of
`github.com`, with that repository and all three permissions `read`. -/
theorem server.handleToken_mint_call_witness :
    mintCalls (server.Server.handleToken server.exampleLib
        (server.exampleWorld server.notFound) server.exampleServer
        (server.exampleRequest server.bodyWeb) server.exampleEnv).2.2.trace =
      mintCalls [] ++
        [.CreateInstallationToken "github.com"
          [{ Host := "github.com", Org := "acme", Repo := "web" }]
          { Metadata := some "read", Contents := some "read", PullRequests := some "read" }
          (github.Client.CreateInstallationToken (server.exampleWorld server.notFound)
            (server.exampleServer.githubAppClients "github.com")
            [{ Host := "github.com", Org := "acme", Repo := "web" }]
            { Metadata := some "read", Contents := some "read", PullRequests := some "read" }
            { world := 3,
              trace := [.jwkGet, .jwtParse "eyJhbGciOiJSUzI1NiJ9.e30.c2ln",
                .graphqlQuery "acme/web"] }).1] :=
  (server.handleToken_mint_call server.exampleLib (server.exampleWorld server.notFound)
    server.exampleServer (server.exampleRequest server.bodyWeb) server.exampleEnv _ _
    { input :=
        { Repositories := [{ Host := "github.com", Org := "acme", Repo := "web" }],
          AccessLevel := "read" },
      jobID := "job-1", organizationSlug := "acme", pipelineSlug := "web" }
    server.exampleServer { Host := "github.com", Org := "acme", Repo := "web" } []
    (by rfl) (by rfl) (by rfl)).2

/-! ### The bearer header -/

/-- A text in which the separator does not occur is not split. -/
theorem strings.splitGo_no_occurrence (sep : List Char) (l : List Char) :
    ∀ acc : List Char, ¬ sep <:+: l → strings.splitGo sep 0 acc l = [acc.reverse ++ l] := by
  induction l with
  | nil => intro acc _; simp [strings.splitGo]
  | cons c cs ih =>
    intro acc h
    have hpre : sep.isPrefixOf (c :: cs) = false := by
      cases hp : sep.isPrefixOf (c :: cs) with
      | false => rfl
      | true => exact absurd (List.isPrefixOf_iff_prefix.1 hp).isInfix h
    have hcs : ¬ sep <:+: cs := fun hin => h (hin.trans (List.suffix_cons c cs).isInfix)
    rw [strings.splitGo, hpre]
    simp [ih (c :: acc) hcs]

/-- Skipping the rest of an occurrence of the separator drops that many characters. -/
theorem strings.splitGo_skip (sep : List Char) (skipped : List Char) :
    ∀ (acc l : List Char),
      strings.splitGo sep skipped.length acc (skipped ++ l) = strings.splitGo sep 0 acc l := by
  induction skipped with
  | nil => intro acc l; rfl
  | cons c cs ih =>
    intro acc l
    simp only [List.length_cons, List.cons_append, strings.splitGo]
    exact ih acc l

/-- The header `Bearer ` followed by a token that does not contain `Bearer` splits into
the empty text and the token after a space. -/
theorem strings.Split_bearer (t : String) (h : ¬ "Bearer".data <:+: t.data) :
    strings.Split ("Bearer " ++ t) "Bearer" = ["", " " ++ t] := by
  have hsp : ¬ "Bearer".data <:+: (' ' :: t.data) := by
    intro hin
    rcases List.infix_cons_iff.1 hin with hp | hi
    · obtain ⟨s, hs⟩ := hp
      have h0 := congrArg List.head? hs
      simp at h0
    · exact h hi
  have hdata : ("Bearer " ++ t).data = 'B' :: (['e', 'a', 'r', 'e', 'r'] ++ (' ' :: t.data)) := by
    rw [String.data_append]
    rfl
  have hpre : "Bearer".data.isPrefixOf ('B' :: (['e', 'a', 'r', 'e', 'r'] ++ (' ' :: t.data)))
      = true := by
    rw [List.isPrefixOf_iff_prefix]
    exact ⟨' ' :: t.data, rfl⟩
  unfold strings.Split
  rw [hdata, strings.splitGo, hpre]
  have hlen : "Bearer".data.length - 1 = ['e', 'a', 'r', 'e', 'r'].length := rfl
  rw [if_pos rfl, hlen, strings.splitGo_skip, strings.splitGo_no_occurrence _ _ _ hsp]
  simp only [List.reverse_nil, List.nil_append, List.map_cons, List.map_nil]
  refine congrArg₂ _ rfl (congrArg₂ _ (String.ext ?_) rfl)
  rw [String.data_append]
  rfl

/-- A space in front of a text does not change what `TrimSpace` makes of it. -/
theorem strings.TrimSpace_space (t : String) :
    strings.TrimSpace (" " ++ t) = strings.TrimSpace t := by
  unfold strings.TrimSpace
  rw [String.data_append]
  have h : " ".data = [' '] := rfl
  have hs : strings.IsSpace ' ' = true := by decide
  rw [h, List.singleton_append, List.dropWhile_cons, if_pos hs]

/-- The mint step adds no call of `jwt.Parse` to the trace. -/
theorem server.mintToken_jwtParse {σ : Type} (lib : Lib) (w : World σ) (srv : server.Server)
    (r : server.Request) (input : api.TokenRequest) (env : Env σ) :
    (server.Server.mintToken lib w srv r input env).2.trace.filter Event.isJwtParse =
      env.trace.filter Event.isJwtParse := by
  unfold server.Server.mintToken
  cases hrepos : input.Repositories with
  | nil => rfl
  | cons first rest =>
    simp only
    have hm := github.CreateInstallationToken_filter Event.isJwtParse
      Event.isJwtParse_of_isForgeOrCI w (srv.githubAppClients first.Host) (first :: rest)
      ⟨some "read", some input.AccessLevel, some input.AccessLevel⟩ env
    generalize github.Client.CreateInstallationToken w (srv.githubAppClients first.Host)
      (first :: rest) ⟨some "read", some input.AccessLevel, some input.AccessLevel⟩ env = m
      at hm ⊢
    obtain ⟨res, env1⟩ := m
    simp only at hm
    cases res with
    | panic => simp [List.filter_append, Event.isJwtParse, hm]
    | err e => simp [List.filter_append, Event.isJwtParse, hm]
    | ok token =>
      simp only
      split <;> simp [List.filter_append, Event.isJwtParse, hm]

/-- After the verification of a request the handler adds no call of `jwt.Parse`. -/
theorem server.handleToken_jwtParse {σ : Type} (lib : Lib) (w : World σ)
    (srv : server.Server) (r : server.Request) (env : Env σ) :
    (server.Server.handleToken lib w srv r env).2.2.trace.filter Event.isJwtParse =
      (server.Server.verifyRequest lib w r env).2.trace.filter Event.isJwtParse := by
  unfold server.Server.handleToken
  split
  · next out env1 heq => rw [heq]
  · next v env1 heq =>
    rw [heq]
    have ha := server.authorizeRepos_filter Event.isJwtParse Event.isJwtParse_of_isForgeOrCI
      lib w r v.organizationSlug v.pipelineSlug v.input.Repositories srv env1
    split
    · next out srv1 env2 heq2 =>
      rw [heq2] at ha
      exact ha
    · next srv1 env2 heq2 =>
      rw [heq2] at ha
      simp only
      rw [server.mintToken_jwtParse]
      exact ha

/-- With a decodable body, an available key set and a header that splits into exactly two
parts, verification makes two calls: the key set is fetched and the trimmed second part
is given to `jwt.Parse`. -/
theorem server.verifyRequest_two_parts {σ : Type} (lib : Lib) (w : World σ)
    (r : server.Request) (env : Env σ) (input : api.TokenRequest) (keyset : Nat)
    (first second : String)
    (hbody : api.TokenRequest.UnmarshalJSON lib r.Body = .ok input)
    (hkeys : (w.jwkGet env.world).1 = .ok keyset)
    (hsplit : strings.Split r.OIDCToken "Bearer" = [first, second]) :
    (server.Server.verifyRequest lib w r env).2.trace =
      env.trace ++ [.jwkGet, .jwtParse (strings.TrimSpace second)] := by
  unfold server.Server.verifyRequest
  simp only [hbody, hkeys, hsplit]
  have hstep : ∀ (s1 s2 : σ) (e1 e2 : Event),
      ((env.step s1 e1).step s2 e2).trace = env.trace ++ [e1, e2] := by
    intro s1 s2 e1 e2
    simp [Env.step]
  split
  · exact hstep _ _ _ _
  · split
    · exact hstep _ _ _ _
    · split
      · exact hstep _ _ _ _
      · split
        · exact hstep _ _ _ _
        · split <;> exact hstep _ _ _ _

/-- C10. With a decodable body and an available key set: if the header does not split on
`Bearer` into exactly two parts, the handler responds 403 with the message `invalid token`
having only fetched the key set (no call of `jwt.Parse`); if it splits into exactly two
parts, the one call of `jwt.Parse` during the request is on the second part with
surrounding white space trimmed; in particular the header `Bearer ` followed by a token
`t` that does not contain `Bearer` submits `t` trimmed. -/
theorem server.handleToken_bearer {σ : Type} (lib : Lib) (w : World σ) (srv : server.Server)
    (r : server.Request) (env : Env σ) (input : api.TokenRequest) (keyset : Nat)
    (hbody : api.TokenRequest.UnmarshalJSON lib r.Body = .ok input)
    (hkeys : (w.jwkGet env.world).1 = .ok keyset) :
    ((strings.Split r.OIDCToken "Bearer").length ≠ 2 →
        (server.Server.handleToken lib w srv r env).1 =
          .response
            { status := 403,
              body := .httpError
                { Field := "", Message := "invalid token", RequestID := r.RequestID } } ∧
        (server.Server.handleToken lib w srv r env).2.2.trace = env.trace ++ [.jwkGet]) ∧
      (∀ first second, strings.Split r.OIDCToken "Bearer" = [first, second] →
        (server.Server.handleToken lib w srv r env).2.2.trace.filter Event.isJwtParse =
          env.trace.filter Event.isJwtParse ++ [.jwtParse (strings.TrimSpace second)]) ∧
      (∀ t : String, ¬ "Bearer".data <:+: t.data → r.OIDCToken = "Bearer " ++ t →
        (server.Server.handleToken lib w srv r env).2.2.trace.filter Event.isJwtParse =
          env.trace.filter Event.isJwtParse ++ [.jwtParse (strings.TrimSpace t)]) := by
  have two : ∀ first second, strings.Split r.OIDCToken "Bearer" = [first, second] →
      (server.Server.handleToken lib w srv r env).2.2.trace.filter Event.isJwtParse =
        env.trace.filter Event.isJwtParse ++ [.jwtParse (strings.TrimSpace second)] := by
    intro first second hsplit
    rw [server.handleToken_jwtParse,
      server.verifyRequest_two_parts lib w r env input keyset first second hbody hkeys hsplit]
    simp [List.filter_append, Event.isJwtParse]
  refine ⟨?_, two, ?_⟩
  · intro hlen
    have hver : server.Server.verifyRequest lib w r env =
        (.error (server.handleError r none "invalid token" 403),
          env.step (w.jwkGet env.world).2 .jwkGet) := by
      unfold server.Server.verifyRequest
      simp only [hbody, hkeys]
      split
      · next hsplit =>
        rw [hsplit] at hlen
        simp at hlen
      · rfl
    simp only [server.Server.handleToken, hver]
    exact ⟨rfl, rfl⟩
  · intro t ht hheader
    have h2 := two "" (" " ++ t) (by rw [hheader]; exact strings.Split_bearer t ht)
    rw [strings.TrimSpace_space] at h2
    exact h2

/-- C10, on the example request, whose header is `Bearer ` followed by a token without
`Bearer`: the one call of `jwt.Parse` is on that token. -/
theorem server.handleToken_bearer_witness :
    (server.Server.handleToken server.exampleLib (server.exampleWorld server.notFound)
        server.exampleServer (server.exampleRequest server.bodyWeb)
        server.exampleEnv).2.2.trace.filter Event.isJwtParse =
      [].filter Event.isJwtParse ++
        [.jwtParse (strings.TrimSpace "eyJhbGciOiJSUzI1NiJ9.e30.c2ln")] :=
  (server.handleToken_bearer server.exampleLib (server.exampleWorld server.notFound)
    server.exampleServer (server.exampleRequest server.bodyWeb) server.exampleEnv
    { Repositories := [{ Host := "github.com", Org := "acme", Repo := "web" }],
      AccessLevel := "read" } 1 (by rfl) (by rfl)).2.2
    "eyJhbGciOiJSUzI1NiJ9.e30.c2ln" (by decide) (by rfl)

/-! ### The Forge-App client -/

/-- A `host/org` string is never empty. -/
theorem github.hostOrg_ne_empty (host org : String) : host ++ "/" ++ org ≠ "" := by
  intro h
  have h1 := congrArg String.length h
  simp only [String.length_append] at h1
  have h2 : "/".length = 1 := rfl
  have h3 : "".length = 0 := rfl
  omega

/-- When the validation loop accepts a list, every entry has the `host/org` string of the
entry before the list (when there is one), and so all entries have the same. -/
theorem github.checkHostOrg_ok (repos : List repoparser.RepositoryName) :
    ∀ (lastHostOrg : String) (repoNames : List String),
      github.checkHostOrg lastHostOrg repos = .ok repoNames →
        (lastHostOrg ≠ "" → ∀ a ∈ repos, a.Host ++ "/" ++ a.Org = lastHostOrg) ∧
        ∀ a ∈ repos, ∀ b ∈ repos, a.Host ++ "/" ++ a.Org = b.Host ++ "/" ++ b.Org := by
  induction repos with
  | nil => intro lastHostOrg repoNames _; simp
  | cons repo rest ih =>
    intro lastHostOrg repoNames h
    unfold github.checkHostOrg at h
    dsimp only at h
    split at h
    · simp at h
    · next hcond =>
      cases hrest : github.checkHostOrg (repo.Host ++ "/" ++ repo.Org) rest with
      | error err => simp [hrest] at h
      | ok names =>
        obtain ⟨hlast, _⟩ := ih _ _ hrest
        have hall := hlast (github.hostOrg_ne_empty repo.Host repo.Org)
        have hhead : lastHostOrg ≠ "" → repo.Host ++ "/" ++ repo.Org = lastHostOrg := by
          intro hne
          by_contra hc
          exact hcond ⟨hne, hc⟩
        constructor
        · intro hne a ha
          rcases List.mem_cons.1 ha with rfl | ha
          · exact hhead hne
          · rw [hall a ha]
            exact hhead hne
        · have hrepo : ∀ a ∈ repo :: rest,
              a.Host ++ "/" ++ a.Org = repo.Host ++ "/" ++ repo.Org := by
            intro a ha
            rcases List.mem_cons.1 ha with rfl | ha
            · rfl
            · exact hall a ha
          intro a ha b hb
          rw [hrepo a ha, hrepo b hb]

/-- The validation of `CreateInstallationToken` in terms of the strings it compares: on an
empty list, or on a list with two entries whose `host/org` strings (host, a slash, org)
differ, it returns an error and makes no Forge API call: the world and the trace are
returned unchanged, whatever the receiver. -/
theorem github.CreateInstallationToken_rejects {σ : Type} (w : World σ)
    (c : Option github.Client) (repos : List repoparser.RepositoryName)
    (permissions : github.InstallationPermissions) (env : Env σ)
    (h : repos = [] ∨
      ∃ a ∈ repos, ∃ b ∈ repos, a.Host ++ "/" ++ a.Org ≠ b.Host ++ "/" ++ b.Org) :
    ∃ err, github.Client.CreateInstallationToken w c repos permissions env = (.err err, env) := by
  unfold github.Client.CreateInstallationToken
  cases repos with
  | nil => exact ⟨_, rfl⟩
  | cons first rest =>
    rcases h with h | ⟨a, ha, b, hb, hab⟩
    · simp at h
    · simp only
      cases hcheck : github.checkHostOrg "" (first :: rest) with
      | error err => exact ⟨err, rfl⟩
      | ok names => exact absurd ((github.checkHostOrg_ok _ _ _ hcheck).2 a ha b hb) hab

/-- The validation on the request of the specification's cross-org scenario: the `host/org`
strings of `github.com/acme/a` and `github.com/other/b` differ, and the list is refused
without a call. -/
theorem github.CreateInstallationToken_rejects_witness :
    ∃ err, github.Client.CreateInstallationToken (server.exampleWorld server.notFound)
        (server.exampleServer.githubAppClients "github.com")
        [{ Host := "github.com", Org := "acme", Repo := "a" },
         { Host := "github.com", Org := "other", Repo := "b" }]
        { Metadata := some "read", Contents := some "read", PullRequests := some "read" }
        server.exampleEnv = (.err err, server.exampleEnv) :=
  github.CreateInstallationToken_rejects _ _ _ _ _
    (Or.inr ⟨{ Host := "github.com", Org := "acme", Repo := "a" }, by decide,
      { Host := "github.com", Org := "other", Repo := "b" }, by decide, by decide⟩)

/-- C7, at a failing input: at time 1700000000 s, `ClientForOrg` finds for `acme` a cached
client that expired at 1699999990 s, ten seconds earlier, and returns it as a cache hit,
without any call to the Forge; yet its expiry is not later than now plus 30 seconds. -/
theorem github.ClientForOrg_returns_expired :
    github.Client.ClientForOrg (server.exampleWorld server.notFound) github.expiredClient
        "acme" server.exampleEnv =
      (.ok ({ AccessToken := "ghs_old" }, 42), github.expiredClient, server.exampleEnv) ∧
      ((server.exampleWorld server.notFound).now server.exampleEnv.world).1 =
        1700000000 * github.Second ∧
      ∃ val, github.expiredClient.OrgClients "acme" = some val ∧
        val.ExpiresAt = 1699999990 * github.Second ∧
        ¬ (val.ExpiresAt > 1700000000 * github.Second + 30 * github.Second) := by
  refine ⟨by rfl, by rfl, _, by rfl, by rfl, by decide⟩

/-! ### The decoded request -/

/-- When the loop over the repository strings succeeds, its result has one repository for
every string, in order, each the parse of its string. -/
theorem repoparser.parseAll_ok (lib : Lib) (strs : List String) :
    ∀ repos : List repoparser.RepositoryName, repoparser.parseAll lib strs = .ok repos →
      List.Forall₂ (fun s repo => repoparser.ExtractOrgRepoFromURL lib s = .ok repo)
        strs repos := by
  induction strs with
  | nil =>
    intro repos h
    simp only [repoparser.parseAll, Except.ok.injEq] at h
    subst h
    exact List.Forall₂.nil
  | cons s rest ih =>
    intro repos h
    unfold repoparser.parseAll at h
    cases hs : repoparser.ExtractOrgRepoFromURL lib s with
    | error err => simp [hs] at h
    | ok repo =>
      cases hrest : repoparser.parseAll lib rest with
      | error err => simp [hs, hrest] at h
      | ok tail =>
        simp only [hs, hrest, Except.ok.injEq] at h
        subst h
        exact List.Forall₂.cons hs (ih tail hrest)

/-- C11 (amended). Every `TokenRequest` that `UnmarshalJSON` produces without error has one
repository for every string of the decoded `repositories` list, in the same order, each
the result of `ExtractOrgRepoFromURL` on its string; nothing else is checked, so the list
is empty when the body's list is, and its entries need not share a host or an org. -/
theorem api.UnmarshalJSON_repositories (lib : Lib) (data : String) (tr : api.TokenRequest)
    (h : api.TokenRequest.UnmarshalJSON lib data = .ok tr) :
    ∃ raw, lib.jsonUnmarshal data = .ok raw ∧
      List.Forall₂ (fun s repo => repoparser.ExtractOrgRepoFromURL lib s = .ok repo)
        raw.Repositories tr.Repositories := by
  unfold api.TokenRequest.UnmarshalJSON at h
  cases hraw : lib.jsonUnmarshal data with
  | error err => simp [hraw] at h
  | ok raw =>
    cases hrepos : repoparser.parseAll lib raw.Repositories with
    | error err => simp [hraw, hrepos] at h
    | ok repos =>
      simp only [hraw, hrepos, Except.ok.injEq] at h
      subst h
      exact ⟨raw, rfl, repoparser.parseAll_ok lib _ _ hrepos⟩

/-- C11 (amended), on the body for `github.com/acme/web`: the decoded request holds the
parse of that one string. -/
theorem api.UnmarshalJSON_repositories_witness :
    ∃ raw, server.exampleLib.jsonUnmarshal server.bodyWeb = .ok raw ∧
      List.Forall₂
        (fun s repo => repoparser.ExtractOrgRepoFromURL server.exampleLib s = .ok repo)
        raw.Repositories [{ Host := "github.com", Org := "acme", Repo := "web" }] :=
  api.UnmarshalJSON_repositories server.exampleLib server.bodyWeb
    { Repositories := [{ Host := "github.com", Org := "acme", Repo := "web" }],
      AccessLevel := "read" } (by rfl)

/-- C11, as stated, fails on two bodies that `UnmarshalJSON` decodes without error: one
with an empty list of repositories, and one whose two repositories are on the same host
in the organisations `acme` and `other`. -/
theorem api.UnmarshalJSON_invariant_counterexample :
    api.TokenRequest.UnmarshalJSON server.exampleLibMore server.bodyEmpty =
        .ok { Repositories := [], AccessLevel := "read" } ∧
      api.TokenRequest.UnmarshalJSON server.exampleLibMore server.bodyCrossOrg =
        .ok { Repositories :=
                [{ Host := "github.com", Org := "acme", Repo := "a" },
                 { Host := "github.com", Org := "other", Repo := "b" }],
              AccessLevel := "read" } ∧
      (("github.com", "acme") : String × String) ≠ ("github.com", "other") := by
  refine ⟨by rfl, by rfl, by decide⟩

/-- What the mint step adds to the calls of `CreateInstallationToken` is at most one call,
with the permissions metadata `read`, contents and pull requests at the access level of
the request. -/
theorem server.mintToken_permissions {σ : Type} (lib : Lib) (w : World σ)
    (srv : server.Server) (r : server.Request) (input : api.TokenRequest) (env : Env σ) :
    mintCalls (server.Server.mintToken lib w srv r input env).2.trace = mintCalls env.trace ∨
      ∃ host repos result,
        mintCalls (server.Server.mintToken lib w srv r input env).2.trace =
          mintCalls env.trace ++
            [.CreateInstallationToken host repos
              { Metadata := some "read", Contents := some input.AccessLevel,
                PullRequests := some input.AccessLevel } result] := by
  unfold server.Server.mintToken
  cases hrepos : input.Repositories with
  | nil => exact Or.inl rfl
  | cons first rest =>
    right
    simp only
    have hm := github.CreateInstallationToken_mintCalls w (srv.githubAppClients first.Host)
      (first :: rest) ⟨some "read", some input.AccessLevel, some input.AccessLevel⟩ env
    refine ⟨first.Host, first :: rest,
      (github.Client.CreateInstallationToken w (srv.githubAppClients first.Host)
        (first :: rest) ⟨some "read", some input.AccessLevel, some input.AccessLevel⟩ env).1,
      ?_⟩
    generalize github.Client.CreateInstallationToken w (srv.githubAppClients first.Host)
      (first :: rest) ⟨some "read", some input.AccessLevel, some input.AccessLevel⟩ env = m
      at hm ⊢
    obtain ⟨res, env1⟩ := m
    simp only [mintCalls] at hm ⊢
    cases res with
    | panic => simp [List.filter_append, Event.isMint, hm]
    | err e => simp [List.filter_append, Event.isMint, hm]
    | ok token =>
      simp only
      split <;> simp [List.filter_append, Event.isMint, hm]

/-- C12 (amended). For every body that `UnmarshalJSON` decodes without error, the access
level of the request is `read` when the decoded `access_level` is absent or empty, and
otherwise the decoded string as it is, whatever it is; and the mint step asks for the
permissions contents and pull requests at exactly that access level. -/
theorem api.UnmarshalJSON_access_level {σ : Type} (lib : Lib) (data : String)
    (tr : api.TokenRequest) (h : api.TokenRequest.UnmarshalJSON lib data = .ok tr)
    (w : World σ) (srv : server.Server) (r : server.Request) (env : Env σ) :
    (∃ raw, lib.jsonUnmarshal data = .ok raw ∧
        (raw.AccessLevel = "" → tr.AccessLevel = "read") ∧
        (raw.AccessLevel ≠ "" → tr.AccessLevel = raw.AccessLevel)) ∧
      (mintCalls (server.Server.mintToken lib w srv r tr env).2.trace = mintCalls env.trace ∨
        ∃ host repos result,
          mintCalls (server.Server.mintToken lib w srv r tr env).2.trace =
            mintCalls env.trace ++
              [.CreateInstallationToken host repos
                { Metadata := some "read", Contents := some tr.AccessLevel,
                  PullRequests := some tr.AccessLevel } result]) := by
  refine ⟨?_, server.mintToken_permissions lib w srv r tr env⟩
  unfold api.TokenRequest.UnmarshalJSON at h
  cases hraw : lib.jsonUnmarshal data with
  | error err => simp [hraw] at h
  | ok raw =>
    cases hrepos : repoparser.parseAll lib raw.Repositories with
    | error err => simp [hraw, hrepos] at h
    | ok repos =>
      simp only [hraw, hrepos, Except.ok.injEq] at h
      subst h
      refine ⟨raw, rfl, ?_, ?_⟩
      · intro he
        simp [he]
      · intro hne
        simp [hne]

/-- C12 (amended), on the body for `github.com/acme/infra` with access level `write`. -/
theorem api.UnmarshalJSON_access_level_witness :
    ∃ raw, server.exampleLib.jsonUnmarshal server.bodyInfra = .ok raw ∧
      (raw.AccessLevel = "" → "write" = "read") ∧
      (raw.AccessLevel ≠ "" → "write" = raw.AccessLevel) :=
  (api.UnmarshalJSON_access_level server.exampleLib server.bodyInfra
    { Repositories := [{ Host := "github.com", Org := "acme", Repo := "infra" }],
      AccessLevel := "write" } (by rfl) (server.exampleWorld server.notFound)
    server.exampleServer (server.exampleRequest server.bodyInfra) server.exampleEnv).1

/-- C12, as stated, fails on a body whose access level is `admin`: it is decoded without
error with that access level, the request is answered 200, and the one call of
`CreateInstallationToken` asks for contents and pull requests `admin`. -/
theorem api.UnmarshalJSON_admin_counterexample :
    api.TokenRequest.UnmarshalJSON server.exampleLibMore server.bodyAdmin =
        .ok { Repositories := [{ Host := "github.com", Org := "acme", Repo := "web" }],
              AccessLevel := "admin" } ∧
      (server.Server.handleToken server.exampleLibMore (server.exampleWorld server.notFound)
        server.exampleServer (server.exampleRequest server.bodyAdmin) server.exampleEnv).1 =
        .response
          { status := 200,
            body := .raw "\x7b\"token\":\"ghs_example\",\"req_id\":\"req-1\"\x7d" } ∧
      mintCalls (server.Server.handleToken server.exampleLibMore
        (server.exampleWorld server.notFound) server.exampleServer
        (server.exampleRequest server.bodyAdmin) server.exampleEnv).2.2.trace =
        [.CreateInstallationToken "github.com"
          [{ Host := "github.com", Org := "acme", Repo := "web" }]
          { Metadata := some "read", Contents := some "admin", PullRequests := some "admin" }
          (.ok { Token := "ghs_example", ExpiresAt := 1700003600 * github.Second })] := by
  refine ⟨by rfl, by rfl, by rfl⟩

/-! ### Error bodies -/

/-- A response written by `handleError` has a JSON `HTTPError` as body, with the request
ID unless the error is itself an `*api.HTTPError`. -/
theorem server.handleError_errorBody {σ : Type} (lib : Lib) (w : World σ)
    (r : server.Request) (err : Option Error) (msg : String) (code : Nat)
    (h : server.PlainErrors lib w → ∀ e, err = some e → e.isHTTP = false) :
    server.ErrorBody lib w r (server.handleError r err msg code) := by
  intro resp hresp _
  simp only [server.handleError, server.Outcome.response.injEq] at hresp
  subst hresp
  refine ⟨_, rfl, ?_⟩
  intro hplain
  cases err with
  | none => rfl
  | some e =>
    cases e with
    | msg text => rfl
    | http he => simpa [Error.isHTTP] using h hplain (.http he) rfl

/-- A panic is not a response of the handler. -/
theorem server.panic_errorBody {σ : Type} (lib : Lib) (w : World σ) (r : server.Request) :
    server.ErrorBody lib w r .panic := by
  intro resp hresp
  simp at hresp

/-- An error of `GetPipelineRepo` is made with `fmt.Errorf`. -/
theorem buildkite.GetPipelineRepo_error {σ : Type} (w : World σ) (o p : String)
    (env : Env σ) (e : Error) (h : (buildkite.GetPipelineRepo w o p env).1 = .error e) :
    e.isHTTP = false := by
  unfold buildkite.GetPipelineRepo at h
  dsimp only at h
  split at h
  · simp only [Except.error.injEq] at h
    subst h
    rfl
  · simp only [Except.error.injEq] at h
    subst h
    rfl
  · simp at h

/-- An error of `GetContents` is an error of the read, or is made with `fmt.Errorf`. -/
theorem github.GetContents_error {σ : Type} (lib : Lib) (w : World σ) (c : github.Client)
    (owner repo path : String) (env : Env σ) (e : Error) (hplain : server.PlainErrors lib w)
    (h : (github.Client.GetContents w c owner repo path env).1.err = some e) :
    e.isHTTP = false := by
  obtain ⟨_, _, _, _, _, hget⟩ := hplain
  unfold github.Client.GetContents at h
  split at h
  · simp only [Option.some.injEq] at h
    subst h
    rfl
  · next orgClient id c1 env1 _ =>
    dsimp only at h
    split at h
    · next status err hres =>
      simp only [Option.some.injEq] at h
      subst h
      exact hget _ _ _ _ _ _ _ (Or.inl ⟨status, hres⟩)
    · next err hres =>
      simp only [Option.some.injEq] at h
      subst h
      exact hget _ _ _ _ _ _ _ (Or.inr (Or.inl hres))
    · next content err hres =>
      simp only at h
      subst h
      exact hget _ _ _ _ _ _ _ (Or.inr (Or.inr ⟨content, hres⟩))

/-- An error of the access check is an error of the read of `gitops.yaml`, or is made with
`fmt.Errorf`. -/
theorem server.allowRepoAccess_error {σ : Type} (lib : Lib) (w : World σ)
    (srv : server.Server) (o p : String) (R : repoparser.RepositoryName) (env : Env σ)
    (e : Error) (hplain : server.PlainErrors lib w)
    (h : (server.Server.allowRepoAccess lib w srv o p R env).1 = .error e) :
    e.isHTTP = false := by
  unfold server.Server.allowRepoAccess at h
  split at h
  · simp at h
  · split at h
    · next err env1 heq =>
      simp only [Except.error.injEq] at h
      subst h
      exact buildkite.GetPipelineRepo_error w o p env _ (by rw [heq])
    · split at h
      · simp only [Except.error.injEq] at h
        subst h
        rfl
      · split at h
        · simp at h
        · split at h
          · simp only [Except.error.injEq] at h
            subst h
            rfl
          · next client _ =>
            split at h
            next fetched client1 env2 hfetch =>
            dsimp only at h
            split at h
            · next err herr =>
              split at h
              · simp at h
              · simp only [Except.error.injEq] at h
                subst h
                exact github.GetContents_error lib w client R.Org R.Repo "gitops.yaml" _ _
                  hplain (by rw [hfetch]; exact herr)
            · split at h
              · simp only [Except.error.injEq] at h
                subst h
                rfl
              · simp at h

/-- Every response with which the authorization loop ends a request has an `HTTPError`
body with the request ID. -/
theorem server.authorizeRepos_errorBody {σ : Type} (lib : Lib) (w : World σ)
    (r : server.Request) (o p : String) (repos : List repoparser.RepositoryName) :
    ∀ (srv : server.Server) (env : Env σ) (out : server.Outcome),
      (server.Server.authorizeRepos lib w r o p repos srv env).1 = some out →
        server.ErrorBody lib w r out := by
  induction repos with
  | nil => intro srv env out h; simp [server.Server.authorizeRepos] at h
  | cons repo rest ih =>
    intro srv env out h
    rw [server.authorizeRepos_cons] at h
    split at h
    · next err srv1 env1 heq =>
      simp only [Option.some.injEq] at h
      subst h
      apply server.handleError_errorBody
      intro hplain e he
      simp only [Option.some.injEq] at he
      subst he
      exact server.allowRepoAccess_error lib w srv o p repo env _ hplain (by rw [heq])
    · split at h
      · simp only [Option.some.injEq] at h
        subst h
        apply server.handleError_errorBody
        intro _ e he
        simp at he
      · exact ih _ _ _ h

/-- An error of the loop over the repository strings is made with `fmt.Errorf`. -/
theorem repoparser.parseAll_error (lib : Lib) (strs : List String) :
    ∀ e : Error, repoparser.parseAll lib strs = .error e → e.isHTTP = false := by
  induction strs with
  | nil => intro e h; simp [repoparser.parseAll] at h
  | cons s rest ih =>
    intro e h
    unfold repoparser.parseAll at h
    split at h
    · simp only [Except.error.injEq] at h
      subst h
      rfl
    · split at h
      · next err herr =>
        simp only [Except.error.injEq] at h
        subst h
        exact ih _ herr
      · simp at h

/-- An error of `UnmarshalJSON` is an error of the JSON decoder, or is made with
`fmt.Errorf`. -/
theorem api.UnmarshalJSON_error {σ : Type} (lib : Lib) (w : World σ) (data : String)
    (e : Error) (hplain : server.PlainErrors lib w)
    (h : api.TokenRequest.UnmarshalJSON lib data = .error e) : e.isHTTP = false := by
  unfold api.TokenRequest.UnmarshalJSON at h
  split at h
  · next err herr =>
    simp only [Except.error.injEq] at h
    subst h
    exact hplain.1 _ _ herr
  · dsimp only at h
    split at h
    · next err herr =>
      simp only [Except.error.injEq] at h
      subst h
      exact repoparser.parseAll_error lib _ _ herr
    · simp at h

/-- Every response with which verification ends a request has an `HTTPError` body with
the request ID. -/
theorem server.verifyRequest_errorBody {σ : Type} (lib : Lib) (w : World σ)
    (r : server.Request) (env : Env σ) (out : server.Outcome)
    (h : (server.Server.verifyRequest lib w r env).1 = .error out) :
    server.ErrorBody lib w r out := by
  have hnone : ∀ (msg : String) (code : Nat),
      server.ErrorBody lib w r (server.handleError r none msg code) := by
    intro msg code
    apply server.handleError_errorBody
    intro _ e he
    simp at he
  unfold server.Server.verifyRequest at h
  split at h
  · next err herr =>
    simp only [Except.error.injEq] at h
    subst h
    apply server.handleError_errorBody
    intro hplain e he
    simp only [Option.some.injEq] at he
    subst he
    exact api.UnmarshalJSON_error lib w _ _ hplain herr
  · dsimp only at h
    split at h
    · next err herr =>
      simp only [Except.error.injEq] at h
      subst h
      apply server.handleError_errorBody
      intro hplain e he
      simp only [Option.some.injEq] at he
      subst he
      exact hplain.2.2.1 _ _ herr
    · split at h
      · split at h
        · next err herr =>
          simp only [Except.error.injEq] at h
          subst h
          apply server.handleError_errorBody
          intro hplain e he
          simp only [Option.some.injEq] at he
          subst he
          exact hplain.2.2.2.1 _ _ _ _ herr
        · split at h
          · simp only [Except.error.injEq] at h
            subst h
            exact hnone _ _
          · split at h
            · simp only [Except.error.injEq] at h
              subst h
              exact hnone _ _
            · split at h
              · simp only [Except.error.injEq] at h
                subst h
                exact hnone _ _
              · split at h
                · simp at h
                · simp only [Except.error.injEq] at h
                  subst h
                  exact server.panic_errorBody lib w r
      · simp only [Except.error.injEq] at h
        subst h
        exact hnone _ _

/-- An error of the method `CreateInstallationToken` is an error of the mint, or is made
with `fmt.Errorf`. -/
theorem github.CreateInstallationToken_error {σ : Type} (lib : Lib) (w : World σ)
    (c : Option github.Client) (repos : List repoparser.RepositoryName)
    (permissions : github.InstallationPermissions) (env : Env σ) (e : Error)
    (hplain : server.PlainErrors lib w)
    (h : (github.Client.CreateInstallationToken w c repos permissions env).1 = .err e) :
    e.isHTTP = false := by
  have hcheck : ∀ (rs : List repoparser.RepositoryName) (last : String) (err : Error),
      github.checkHostOrg last rs = .error err → err.isHTTP = false := by
    intro rs
    induction rs with
    | nil => intro last err hc; simp [github.checkHostOrg] at hc
    | cons a rest ih =>
      intro last err hc
      unfold github.checkHostOrg at hc
      dsimp only at hc
      split at hc
      · simp only [Except.error.injEq] at hc
        subst hc
        rfl
      · split at hc
        · next err2 herr2 =>
          simp only [Except.error.injEq] at hc
          subst hc
          exact ih _ _ herr2
        · simp at hc
  unfold github.Client.CreateInstallationToken at h
  split at h
  · simp only [github.CallResult.err.injEq] at h
    subst h
    rfl
  · split at h
    · next err herr =>
      simp only [github.CallResult.err.injEq] at h
      subst h
      exact hcheck _ _ _ herr
    · split at h
      · simp at h
      · dsimp only at h
        split at h
        · simp only [github.CallResult.err.injEq] at h
          subst h
          rfl
        · split at h
          · next err herr =>
            simp only [github.CallResult.err.injEq] at h
            subst h
            exact hplain.2.2.2.2.1 _ _ _ _ _ herr
          · simp at h

/-- Every response of the mint step with a status outside 200..299 has an `HTTPError` body
with the request ID. -/
theorem server.mintToken_errorBody {σ : Type} (lib : Lib) (w : World σ)
    (srv : server.Server) (r : server.Request) (input : api.TokenRequest) (env : Env σ) :
    server.ErrorBody lib w r (server.Server.mintToken lib w srv r input env).1 := by
  unfold server.Server.mintToken
  cases hrepos : input.Repositories with
  | nil => exact server.panic_errorBody lib w r
  | cons first rest =>
    simp only
    have hm := github.CreateInstallationToken_error lib w (srv.githubAppClients first.Host)
      (first :: rest) ⟨some "read", some input.AccessLevel, some input.AccessLevel⟩ env
    generalize github.Client.CreateInstallationToken w (srv.githubAppClients first.Host)
      (first :: rest) ⟨some "read", some input.AccessLevel, some input.AccessLevel⟩ env = m
      at hm ⊢
    obtain ⟨res, env1⟩ := m
    cases res with
    | panic => exact server.panic_errorBody lib w r
    | err e =>
      apply server.handleError_errorBody
      intro hplain e2 he
      simp only [Option.some.injEq] at he
      subst he
      exact hm _ hplain rfl
    | ok token =>
      simp only
      split
      · next err herr =>
        apply server.handleError_errorBody
        intro hplain e2 he
        simp only [Option.some.injEq] at he
        subst he
        exact hplain.2.1 _ _ herr
      · intro resp hresp hstatus
        simp only [server.Outcome.response.injEq] at hresp
        subst hresp
        simp at hstatus

/-- C13 (amended). Every response with a status outside 200..299 that the token handler
itself writes, whichever step fails with an error, has a body that is a JSON `HTTPError`;
its `req_id` is the request ID of the request whenever the libraries and remote clients
return no `*api.HTTPError` (which they cannot construct). Panics are left out: they are
answered by the recoverer. -/
theorem server.handleToken_errorBody {σ : Type} (lib : Lib) (w : World σ)
    (srv : server.Server) (r : server.Request) (env : Env σ) (resp : server.Response)
    (hresp : (server.Server.handleToken lib w srv r env).1 = .response resp)
    (hstatus : ¬ (200 ≤ resp.status ∧ resp.status < 300)) :
    ∃ e, resp.body = .httpError e ∧ (server.PlainErrors lib w → e.RequestID = r.RequestID) := by
  have hbody : server.ErrorBody lib w r (server.Server.handleToken lib w srv r env).1 := by
    unfold server.Server.handleToken
    split
    · next out env1 heq =>
      exact server.verifyRequest_errorBody lib w r env out (by rw [heq])
    · next v env1 heq =>
      split
      · next out srv1 env2 heq2 =>
        exact server.authorizeRepos_errorBody lib w r _ _ _ srv env1 out (by rw [heq2])
      · exact server.mintToken_errorBody lib w _ r v.input _
  exact hbody resp hresp hstatus

/-- The example library and world return no `*api.HTTPError`. -/
theorem server.example_plainErrors (fetch : github.ContentsResult)
    (hfetch : ∀ e, ((∃ status, fetch = .httpError status e) ∨ fetch = .transportError e ∨
      (∃ content, fetch = .file content (some e))) → e.isHTTP = false) :
    server.PlainErrors server.exampleLib (server.exampleWorld fetch) := by
  refine ⟨?_, ?_, ?_, ?_, ?_, ?_⟩
  · intro data e h
    simp only [server.exampleLib] at h
    split_ifs at h
    simp only [Except.error.injEq] at h
    subst h
    rfl
  · intro resp e h
    simp [server.exampleLib] at h
  · intro s e h
    simp [server.exampleWorld] at h
  · intro token keyset s e h
    simp only [server.exampleWorld] at h
    split_ifs at h
    simp only [Except.error.injEq] at h
    subst h
    rfl
  · intro host id opts s e h
    simp [server.exampleWorld] at h
  · intro client owner repo path ref s e h
    exact hfetch e h

/-- C13 (amended), on the request that the example deployment denies: the 403 response
has an `HTTPError` body whose `req_id` is the request ID `req-1`. -/
theorem server.handleToken_errorBody_witness :
    ∃ resp e, (server.Server.handleToken server.exampleLib
        (server.exampleWorld server.notFound) server.exampleServer
        (server.exampleRequest server.bodyInfra) server.exampleEnv).1 = .response resp ∧
      resp.status = 403 ∧ resp.body = .httpError e ∧ e.RequestID = "req-1" :=
  match server.handleToken_errorBody server.exampleLib (server.exampleWorld server.notFound)
    server.exampleServer (server.exampleRequest server.bodyInfra) server.exampleEnv
    { status := 403,
      body := .httpError
        { Field := "",
          Message := "not allowed to acccess repo https://github.com/acme/infra.git",
          RequestID := "req-1" } } (by rfl) (by decide) with
  | ⟨e, hbody, hid⟩ =>
    ⟨_, e, by rfl, rfl, hbody, hid (server.example_plainErrors server.notFound (by
      intro e h
      rcases h with ⟨status, h⟩ | h | ⟨content, h⟩
      · simp only [server.notFound, github.ContentsResult.httpError.injEq] at h
        rw [← h.2]
        rfl
      · simp [server.notFound] at h
      · simp [server.notFound] at h))⟩

/-- C13, as stated, fails on a request whose handling panics: for the body with an empty
list of repositories the recoverer answers 500 with the body
`{"error": "Internal Server Error"}` written by `http.Error`, which is no `HTTPError` and
carries no request ID. -/
theorem server.recoverer_body_counterexample :
    server.middlewareRecoverer (server.Server.handleToken server.exampleLib
        (server.exampleWorld server.notFound) server.exampleServer
        (server.exampleRequest server.bodyEmpty) server.exampleEnv).1 =
        { status := 500, body := .raw "\x7b\"error\": \"Internal Server Error\"\x7d\n" } ∧
      ¬ (200 ≤ 500 ∧ 500 < 300) ∧
      ∀ e : api.HTTPError,
        server.Body.raw "\x7b\"error\": \"Internal Server Error\"\x7d\n" ≠ .httpError e := by
  refine ⟨by rfl, by decide, ?_⟩
  intro e h
  simp at h

/-! ### Matching -/

/-- C19. For every pattern triple and every repository triple whose hosts differ as
strings, `Matches` is false, whatever the glob library, the org and the repo of the
pattern are, and whatever the host of the pattern is (a `*` is compared as text). -/
theorem repoparser.Matches_host_differs (lib : Lib) (r x : repoparser.RepositoryName)
    (h : r.Host ≠ x.Host) : r.Matches lib x = false := by
  simp [repoparser.RepositoryName.Matches, h]

/-- C19, on the test `disallow-host-wildcard` of the repository: the pattern `*/*/*` does
not match a repository on `randomhost.com`. -/
theorem repoparser.Matches_host_differs_witness :
    repoparser.RepositoryName.Matches server.exampleLibGlob
      { Host := "*", Org := "*", Repo := "*" }
      { Host := "randomhost.com", Org := "foobar", Repo := "baz" } = false :=
  repoparser.Matches_host_differs server.exampleLibGlob
    { Host := "*", Org := "*", Repo := "*" }
    { Host := "randomhost.com", Org := "foobar", Repo := "baz" } (by decide)

/-- A pattern without special characters is lexed as one text. -/
theorem glob.lex_literal (l : List Char) :
    ∀ acc : List Char, (∀ c ∈ l, glob.Special c = false) →
      glob.lex l acc = some (glob.flush (l.reverse ++ acc) []) := by
  induction l with
  | nil => intro acc _; rfl
  | cons c rest ih =>
    intro acc h
    have hc := h c (List.mem_cons_self c rest)
    simp only [glob.Special, Bool.or_eq_false_iff, decide_eq_false_iff_not] at hc
    obtain ⟨⟨⟨⟨⟨⟨h1, h2⟩, h3⟩, h4⟩, _⟩, h6⟩, _⟩ := hc
    have hrest := ih (c :: acc) (fun d hd => h d (List.mem_cons_of_mem c hd))
    rw [glob.lex.eq_def]
    simp only [h3, h4, h6, h2, h1, if_false, or_self]
    rw [hrest]
    simp

/-- A pattern without special characters compiles, and matches exactly the text equal to
it. -/
theorem glob.Compile_literal (other : String → Option (String → Bool)) (pattern : String)
    (h : ∀ c ∈ pattern.data, glob.Special c = false) :
    ∃ g, glob.Compile other pattern = some g ∧ ∀ text : String, g text = (text == pattern) := by
  unfold glob.Compile
  rw [glob.lex_literal pattern.data [] h]
  refine ⟨_, rfl, ?_⟩
  intro text
  simp only [List.append_nil]
  unfold glob.flush
  by_cases hp : pattern.data = []
  · have hpat : pattern = "" := String.ext hp
    simp only [hp, List.reverse_nil, List.isEmpty_nil, if_true, glob.matchNodes]
    rw [hpat]
    cases htext : text.data with
    | nil =>
      have : text = "" := String.ext htext
      simp [this]
    | cons a tail =>
      have : text ≠ "" := fun ht => by rw [ht] at htext; simp at htext
      simp [this]
  · have hne : pattern.data.reverse.isEmpty = false := by
      cases hr : pattern.data.reverse with
      | nil => exact absurd (List.reverse_eq_nil_iff.1 hr) hp
      | cons a tail => rfl
    simp only [hne, Bool.false_eq_true, if_false, List.reverse_reverse, glob.matchNodes]
    by_cases heq : text = pattern
    · subst heq
      simp
    · have hd : text.data ≠ pattern.data := fun hd => heq (String.ext hd)
      have hbeq : (text == pattern) = false := by simpa using heq
      rw [hbeq]
      cases hpre : pattern.data.isPrefixOf text.data with
      | false => rfl
      | true =>
        obtain ⟨t, ht⟩ := List.isPrefixOf_iff_prefix.1 hpre
        rw [← ht]
        simp only [List.drop_left, Bool.true_and, List.isEmpty_eq_true]
        cases t with
        | nil => exact absurd (by simpa using ht.symm) hd
        | cons a tail => simp

/-- C20. For every pattern triple whose org and repo hold none of the special characters
of the glob library (`*`, `?`, `\`, `[`, `]` and the braces) and every repository triple,
`Matches` equals `Equals`; the glob library is the model of `glob.Compile`. -/
theorem repoparser.Matches_eq_Equals (lib : Lib) (other : String → Option (String → Bool))
    (hglob : lib.globCompile = glob.Compile other) (r x : repoparser.RepositoryName)
    (horg : ∀ c ∈ r.Org.data, glob.Special c = false)
    (hrepo : ∀ c ∈ r.Repo.data, glob.Special c = false) :
    r.Matches lib x = r.Equals x := by
  obtain ⟨g1, hg1, hm1⟩ := glob.Compile_literal other r.Org horg
  obtain ⟨g2, hg2, hm2⟩ := glob.Compile_literal other r.Repo hrepo
  unfold repoparser.RepositoryName.Matches repoparser.RepositoryName.Equals
  rw [hglob, hg1, hg2]
  simp only [hm1, hm2]
  by_cases hh : r.Host = x.Host
  · by_cases ho : x.Org = r.Org
    · by_cases hr : x.Repo = r.Repo
      · simp [hh, ho, hr]
      · have hr2 : ¬ r.Repo = x.Repo := fun e => hr e.symm
        simp [hh, ho, hr, hr2]
    · have ho2 : ¬ r.Org = x.Org := fun e => ho e.symm
      simp [hh, ho, ho2]
  · simp [hh]

/-- C20, on the test `some-match` of the repository: the pattern
`github.com/myorg/somerepo` neither matches nor equals `github.com/myorg/otherrepo`. -/
theorem repoparser.Matches_eq_Equals_witness :
    repoparser.RepositoryName.Matches server.exampleLibGlob
        { Host := "github.com", Org := "myorg", Repo := "somerepo" }
        { Host := "github.com", Org := "myorg", Repo := "otherrepo" } =
      repoparser.RepositoryName.Equals
        { Host := "github.com", Org := "myorg", Repo := "somerepo" }
        { Host := "github.com", Org := "myorg", Repo := "otherrepo" } :=
  repoparser.Matches_eq_Equals server.exampleLibGlob (fun _ => none) rfl
    { Host := "github.com", Org := "myorg", Repo := "somerepo" }
    { Host := "github.com", Org := "myorg", Repo := "otherrepo" } (by decide) (by decide)

/-! ### Parsing git URLs -/

/-- Cutting at a character that does not occur leaves the text whole. -/
theorem url.cut_not_mem (sep : Char) (l : List Char) (h : sep ∉ l) :
    url.cut sep l = (l, none) := by
  induction l with
  | nil => rfl
  | cons c rest ih =>
    have hc : c ≠ sep := fun e => h (e ▸ List.mem_cons_self c rest)
    have hrest : sep ∉ rest := fun e => h (List.mem_cons_of_mem c e)
    simp [url.cut, hc, ih hrest]

/-- Cutting at the first occurrence of a character. -/
theorem url.cut_append (sep : Char) (a b : List Char) (h : sep ∉ a) :
    url.cut sep (a ++ sep :: b) = (a, some b) := by
  induction a with
  | nil => simp [url.cut]
  | cons c rest ih =>
    have hc : c ≠ sep := fun e => h (e ▸ List.mem_cons_self c rest)
    have hrest : sep ∉ rest := fun e => h (List.mem_cons_of_mem c e)
    simp [url.cut, hc, ih hrest]

/-- A text without `%` whose characters a host may hold (when it is a host) is unescaped
to itself. -/
theorem url.unescape_id (mode : url.encoding) (l : List Char) (hpercent : '%' ∉ l)
    (hhost : mode = .encodeHost ∨ mode = .encodeZone →
      ∀ c ∈ l, url.shouldEscapeHost c = false) :
    url.unescape mode l = some l := by
  induction l with
  | nil => rfl
  | cons c rest ih =>
    have hc : c ≠ '%' := fun e => hpercent (e ▸ List.mem_cons_self c rest)
    have hrest : '%' ∉ rest := fun e => hpercent (List.mem_cons_of_mem c e)
    have ih2 := ih hrest (fun hm d hd => hhost hm d (List.mem_cons_of_mem c hd))
    rw [url.unescape.eq_def]
    simp only [hc, if_false]
    by_cases hm : mode = .encodeHost ∨ mode = .encodeZone
    · have := hhost hm c (List.mem_cons_self c rest)
      simp [this, ih2]
    · simp [hm, ih2]

/-- A character that does not occur has no last occurrence. -/
theorem url.fromLast_not_mem (sep : Char) (l : List Char) (h : sep ∉ l) :
    url.fromLast sep l = none := by
  induction l with
  | nil => rfl
  | cons c rest ih =>
    have hc : c ≠ sep := fun e => h (e ▸ List.mem_cons_self c rest)
    have hrest : sep ∉ rest := fun e => h (List.mem_cons_of_mem c e)
    simp [url.fromLast, hc, ih hrest]

/-- The last occurrence of a character that does not occur after it. -/
theorem url.fromLast_append (sep : Char) (a b : List Char) (h : sep ∉ b) :
    url.fromLast sep (a ++ sep :: b) = some (sep :: b) := by
  induction a with
  | nil => simp [url.fromLast, url.fromLast_not_mem sep b h]
  | cons c rest ih => simp [url.fromLast, ih]

/-- In a text without colon `getScheme` finds no scheme. -/
theorem url.getScheme_no_colon (l : List Char) (h : ':' ∉ l) :
    url.getScheme l = some ([], l) := by
  have hgo : ∀ (rest acc : List Char) (first : Bool), ':' ∉ rest →
      url.getScheme.go l rest acc first = some ([], l) := by
    intro rest
    induction rest with
    | nil => intro acc first _; rfl
    | cons c tail ih =>
      intro acc first hc
      have hne : c ≠ ':' := fun e => hc (e ▸ List.mem_cons_self c tail)
      have htail : ':' ∉ tail := fun e => hc (List.mem_cons_of_mem c e)
      rw [url.getScheme.go]
      split
      · exact ih _ _ htail
      · split
        · split
          · rfl
          · exact ih _ _ htail
        · simp [hne]
  exact hgo l [] true h

/-- A host character is none of the characters that structure a URL, and needs no
escaping in a host. -/
theorem repoparser.hostChar_facts (c : Char) (h : repoparser.hostChar c = true) :
    c ≠ '/' ∧ c ≠ '?' ∧ c ≠ '#' ∧ c ≠ '%' ∧ c ≠ ':' ∧ c ≠ '@' ∧ c ≠ '[' ∧ c ≠ '\n' ∧
      ¬ (c.toNat < 32 ∨ c.toNat = 127) ∧ url.shouldEscapeHost c = false := by
  have hne : ∀ d : Char, repoparser.hostChar d = false → c ≠ d := by
    intro d hd e
    rw [e, hd] at h
    exact absurd h (by decide)
  refine ⟨hne _ (by decide), hne _ (by decide), hne _ (by decide), hne _ (by decide),
    hne _ (by decide), hne _ (by decide), hne _ (by decide), hne _ (by decide), ?_, ?_⟩
  · simp only [repoparser.hostChar, Bool.or_eq_true, decide_eq_true_eq] at h
    rcases h with (h | h) | h
    · simp only [Char.isAlphanum, Char.isAlpha, Char.isUpper, Char.isLower, Char.isDigit,
        Bool.or_eq_true, Bool.and_eq_true, decide_eq_true_eq] at h
      have hv : c.val.toNat = c.toNat := rfl
      rcases h with (⟨h1, h2⟩ | ⟨h1, h2⟩) | ⟨h1, h2⟩ <;>
        · have h1' : _ ≤ c.val.toNat := h1
          have h2' : c.val.toNat ≤ _ := h2
          simp only [hv] at h1' h2'
          norm_num at h1' h2'
          omega
    · subst h; decide
    · subst h; decide
  · simp only [repoparser.hostChar, Bool.or_eq_true, decide_eq_true_eq] at h
    rcases h with (h | h) | h
    · simp [url.shouldEscapeHost, h]
    · subst h; decide
    · subst h; decide

/-- A text of host characters is a host that `parseHost` returns as it is. -/
theorem url.parseHost_id (h : List Char) (hh : ∀ c ∈ h, repoparser.hostChar c = true) :
    url.parseHost h = some h := by
  have hcolon : ':' ∉ h := fun hm => (repoparser.hostChar_facts _ (hh _ hm)).2.2.2.2.1 rfl
  have hpercent : '%' ∉ h := fun hm => (repoparser.hostChar_facts _ (hh _ hm)).2.2.2.1 rfl
  have hun : url.unescape .encodeHost h = some h :=
    url.unescape_id _ h hpercent (fun _ c hc => (repoparser.hostChar_facts c (hh c hc)).2.2.2.2.2.2.2.2.2)
  unfold url.parseHost
  split
  · next tail =>
    exact absurd rfl (repoparser.hostChar_facts _ (hh _ (List.mem_cons_self _ _))).2.2.2.2.2.2.1
  · rw [url.fromLast_not_mem ':' h hcolon]
    exact hun

/-- Without user information, the authority of host characters is the host. -/
theorem url.parseAuthority_host (h : List Char)
    (hh : ∀ c ∈ h, repoparser.hostChar c = true) : url.parseAuthority h = some h := by
  have hat : '@' ∉ h := fun hm => (repoparser.hostChar_facts _ (hh _ hm)).2.2.2.2.2.1 rfl
  unfold url.parseAuthority
  rw [url.fromLast_not_mem '@' h hat]
  exact url.parseHost_id h hh

/-- With the user `git`, the authority of host characters has that host. -/
theorem url.parseAuthority_git (h : List Char)
    (hh : ∀ c ∈ h, repoparser.hostChar c = true) :
    url.parseAuthority (['g', 'i', 't'] ++ '@' :: h) = some h := by
  have hat : '@' ∉ h := fun hm => (repoparser.hostChar_facts _ (hh _ hm)).2.2.2.2.2.1 rfl
  unfold url.parseAuthority
  rw [url.fromLast_append '@' _ h hat]
  simp only [List.drop_one, List.tail_cons, url.parseHost_id h hh, List.length_append,
    List.length_cons, Nat.add_sub_cancel, List.take_left]
  have : (['g', 'i', 't'] ++ '@' :: h).take (([] : List Char).length + 1 + 1 + 1) =
      ['g', 'i', 't'] := by simp
  rw [this]
  rfl

/-- The parse of `scheme://authority/path` without query and fragment, for a scheme that
`getScheme` finds: the host of the authority and the path as it is. -/
theorem url.parseNoFragment_authority (scheme auth host path : List Char)
    (hscheme : url.getScheme (scheme ++ ':' :: '/' :: '/' :: (auth ++ '/' :: path)) =
      some (scheme, '/' :: '/' :: (auth ++ '/' :: path)))
    (hne : scheme ≠ []) (hlower : scheme.map Char.toLower = scheme)
    (hctl : ∀ c ∈ scheme ++ ':' :: '/' :: '/' :: (auth ++ '/' :: path),
      ¬ (c.toNat < 32 ∨ c.toNat = 127))
    (hquery : '?' ∉ auth ++ '/' :: path) (hslash : '/' ∉ auth)
    (hauth : url.parseAuthority auth = some host) (hpercent : '%' ∉ path) :
    url.parseNoFragment (scheme ++ ':' :: '/' :: '/' :: (auth ++ '/' :: path)) =
      some { Scheme := ⟨scheme⟩, Host := ⟨host⟩, Path := ⟨'/' :: path⟩ } := by
  have hany : (scheme ++ ':' :: '/' :: '/' :: (auth ++ '/' :: path)).any
      (fun c => decide (c.toNat < 32 ∨ c.toNat = 127)) = false := by
    rw [List.any_eq_false]
    intro c hc
    simpa using hctl c hc
  have hstar : scheme ++ ':' :: '/' :: '/' :: (auth ++ '/' :: path) ≠ ['*'] := by
    cases scheme with
    | nil => exact absurd rfl hne
    | cons a t =>
      cases t with
      | nil => simp
      | cons b t2 => simp
  have hq : '?' ∉ '/' :: '/' :: (auth ++ '/' :: path) := by
    intro hm
    rcases List.mem_cons.1 hm with e | hm
    · exact absurd e (by decide)
    · rcases List.mem_cons.1 hm with e | hm
      · exact absurd e (by decide)
      · exact hquery hm
  have hpath : url.unescape .encodePath ('/' :: path) = some ('/' :: path) := by
    apply url.unescape_id
    · intro hm
      rcases List.mem_cons.1 hm with e | hm
      · exact absurd e (by decide)
      · exact hpercent hm
    · intro hm
      simp at hm
  unfold url.parseNoFragment
  simp only [hany, Bool.false_eq_true, if_false, hstar, hscheme, hlower,
    url.cut_not_mem '?' _ hq]
  have h1 : "/".data.isPrefixOf ('/' :: '/' :: (auth ++ '/' :: path)) = true := by
    simp [List.isPrefixOf]
  have h2 : "//".data.isPrefixOf ('/' :: '/' :: (auth ++ '/' :: path)) = true := by
    simp [List.isPrefixOf]
  simp only [h1, h2, hne, List.drop_succ_cons, List.drop_zero, url.cut_append '/' auth path hslash,
    hauth, hpath]
  simp [hne, hauth, hpath]

/-- The scheme of a text that starts with `https:`. -/
theorem url.getScheme_https (rest : List Char) :
    url.getScheme ("https".data ++ ':' :: rest) = some ("https".data, rest) := by
  rfl

/-- The scheme of a text that starts with `ssh:`. -/
theorem url.getScheme_ssh (rest : List Char) :
    url.getScheme ("ssh".data ++ ':' :: rest) = some ("ssh".data, rest) := by
  rfl

/-- The parse of `scheme://authority/path` with an optional fragment. -/
theorem url.Parse_authority (scheme auth host path : List Char) (frag : Option (List Char))
    (hscheme : url.getScheme (scheme ++ ':' :: '/' :: '/' :: (auth ++ '/' :: path)) =
      some (scheme, '/' :: '/' :: (auth ++ '/' :: path)))
    (hne : scheme ≠ []) (hlower : scheme.map Char.toLower = scheme)
    (hctl : ∀ c ∈ scheme ++ ':' :: '/' :: '/' :: (auth ++ '/' :: path),
      ¬ (c.toNat < 32 ∨ c.toNat = 127))
    (hhash : '#' ∉ scheme ++ ':' :: '/' :: '/' :: (auth ++ '/' :: path))
    (hquery : '?' ∉ auth ++ '/' :: path) (hslash : '/' ∉ auth)
    (hauth : url.parseAuthority auth = some host) (hpercent : '%' ∉ path)
    (hfrag : ∀ f, frag = some f → '%' ∉ f) :
    url.Parse ⟨scheme ++ ':' :: '/' :: '/' :: (auth ++ '/' :: path) ++
        (match frag with
         | none => []
         | some f => '#' :: f)⟩ =
      some { Scheme := ⟨scheme⟩, Host := ⟨host⟩, Path := ⟨'/' :: path⟩ } := by
  have hp := url.parseNoFragment_authority scheme auth host path hscheme hne hlower hctl
    hquery hslash hauth hpercent
  unfold url.Parse
  cases frag with
  | none =>
    simp only [List.append_nil, url.cut_not_mem '#' _ hhash, hp]
  | some f =>
    simp only [url.cut_append '#' _ f hhash, hp]
    have hun : url.unescape .encodeFragment f = some f :=
      url.unescape_id _ f (hfrag f rfl) (fun hm => by simp at hm)
    simp [hun]

/-! ### Splitting on a character -/

/-- Splitting on a one-character separator that does not occur. -/
theorem strings.splitGo_char_not_mem (c : Char) (l : List Char) :
    ∀ acc : List Char, c ∉ l → strings.splitGo [c] 0 acc l = [acc.reverse ++ l] := by
  induction l with
  | nil => intro acc _; simp [strings.splitGo]
  | cons d rest ih =>
    intro acc h
    have hd : c ≠ d := fun e => h (e ▸ List.mem_cons_self c rest)
    have hrest : c ∉ rest := fun e => h (List.mem_cons_of_mem d e)
    rw [strings.splitGo]
    simp [List.isPrefixOf, hd, ih (d :: acc) hrest]

/-- Splitting on a one-character separator at its first occurrence. -/
theorem strings.splitGo_char_append (c : Char) (a b : List Char) :
    ∀ acc : List Char, c ∉ a →
      strings.splitGo [c] 0 acc (a ++ c :: b) =
        (acc.reverse ++ a) :: strings.splitGo [c] 0 [] b := by
  induction a with
  | nil =>
    intro acc _
    rw [List.nil_append, strings.splitGo]
    simp [List.isPrefixOf]
  | cons d rest ih =>
    intro acc h
    have hd : c ≠ d := fun e => h (e ▸ List.mem_cons_self c rest)
    have hrest : c ∉ rest := fun e => h (List.mem_cons_of_mem d e)
    rw [List.cons_append, strings.splitGo]
    simp [List.isPrefixOf, hd, ih (d :: acc) hrest]

/-- Splitting on a one-character separator gives one more part than there are
occurrences. -/
theorem strings.splitGo_char_length (c : Char) (l : List Char) :
    ∀ acc : List Char, (strings.splitGo [c] 0 acc l).length = l.count c + 1 := by
  induction l with
  | nil => intro acc; simp [strings.splitGo]
  | cons d rest ih =>
    intro acc
    rw [strings.splitGo]
    by_cases hd : c = d
    · subst hd
      simp [List.isPrefixOf, ih]
    · have hd2 : ¬ d = c := fun e => hd e.symm
      simp [List.isPrefixOf, hd, hd2, ih, List.count_cons]

/-- `strings.Count(s, "/")` is the number of slashes of `s`. -/
theorem strings.Count_slash (s : String) : strings.Count s "/" = s.data.count '/' := by
  unfold strings.Count strings.Split
  have h : "/".data = ['/'] := rfl
  rw [h, List.length_map, strings.splitGo_char_length]
  rfl

/-- A text without slash is one part. -/
theorem strings.Split_slash_one (l : List Char) (h : '/' ∉ l) :
    strings.Split ⟨l⟩ "/" = [⟨l⟩] := by
  unfold strings.Split
  have hs : "/".data = ['/'] := rfl
  rw [hs, strings.splitGo_char_not_mem '/' l [] h]
  rfl

/-- The parts of `a/b` followed by anything, for `a` and `b` without slash. -/
theorem strings.Split_slash_two (a b : List Char) (ha : '/' ∉ a) (hb : '/' ∉ b) :
    strings.Split ⟨a ++ '/' :: b⟩ "/" = [⟨a⟩, ⟨b⟩] := by
  unfold strings.Split
  have hs : "/".data = ['/'] := rfl
  rw [hs, strings.splitGo_char_append '/' a b [] ha, strings.splitGo_char_not_mem '/' b [] hb]
  rfl

/-- Removing the leading slash of a path. -/
theorem strings.TrimLeading_slash (l : List Char) :
    strings.TrimLeading ⟨'/' :: l⟩ "/" = ⟨l⟩ := by
  unfold strings.TrimLeading
  have hs : "/".data = ['/'] := rfl
  rw [hs]
  simp [List.isPrefixOf]

/-- A text that does not start with a slash is left as it is. -/
theorem strings.TrimLeading_none (l : List Char) (h : ∀ tail, l ≠ '/' :: tail) :
    strings.TrimLeading ⟨l⟩ "/" = ⟨l⟩ := by
  unfold strings.TrimLeading
  have hs : "/".data = ['/'] := rfl
  rw [hs]
  cases l with
  | nil => rfl
  | cons c rest =>
    have hc : ¬ '/' = c := fun e => h rest (by rw [e])
    simp [List.isPrefixOf, hc]

/-! ### Extensions -/

/-- A name followed by `.git` has the extension `.git`. -/
theorem filepath.Ext_git (r : List Char) : filepath.Ext ⟨r ++ ".git".data⟩ = ".git" := by
  unfold filepath.Ext
  have h : (r ++ ".git".data).reverse = 't' :: 'i' :: 'g' :: '.' :: r.reverse := by
    rw [List.reverse_append]
    rfl
  simp only [h]
  rfl

/-- A name without dot has no extension. -/
theorem filepath.Ext_none (r : List Char) (hdot : '.' ∉ r) : filepath.Ext ⟨r⟩ = "" := by
  have hgo : ∀ (l acc : List Char), '.' ∉ l → filepath.extGo l acc = [] := by
    intro l
    induction l with
    | nil => intro acc _; rfl
    | cons c rest ih =>
      intro acc h
      have hc : c ≠ '.' := fun e => h (e ▸ List.mem_cons_self c rest)
      have hrest : '.' ∉ rest := fun e => h (List.mem_cons_of_mem c e)
      rw [filepath.extGo]
      split
      · rfl
      · simp [hc, ih _ hrest]
  unfold filepath.Ext
  have hrev : '.' ∉ r.reverse := fun e => hdot (List.mem_reverse.1 e)
  simp only [hgo _ [] hrev]

/-- Removing the suffix `.git` of a name followed by `.git`. -/
theorem strings.TrimSuffix_git (r : List Char) :
    strings.TrimSuffix ⟨r ++ ".git".data⟩ ".git" = ⟨r⟩ := by
  unfold strings.TrimSuffix strings.HasSuffix
  have hs : (".git".data).isSuffixOf (r ++ ".git".data) = true := by
    rw [List.isSuffixOf_iff_suffix]
    exact List.suffix_append r _
  simp only [hs, if_true]
  simp

/-- Removing an empty suffix. -/
theorem strings.TrimSuffix_empty (s : String) : strings.TrimSuffix s "" = s := by
  unfold strings.TrimSuffix strings.HasSuffix
  have hs : ("".data).isSuffixOf s.data = true := by
    rw [List.isSuffixOf_iff_suffix]
    exact List.nil_suffix
  simp only [hs, if_true]
  exact String.ext (by simp)

/-! ### URLs with a scheme -/

/-- What it is for a character to be plain. -/
theorem url.plainChar_facts (c : Char) (h : url.plainChar c = true) :
    c ≠ '?' ∧ c ≠ '#' ∧ c ≠ '%' ∧ ¬ (c.toNat < 32 ∨ c.toNat = 127) := by
  simp only [url.plainChar, Bool.and_eq_true, decide_eq_true_eq, ne_eq, decide_not,
    Bool.not_eq_true', decide_eq_false_iff_not] at h
  obtain ⟨⟨⟨⟨h1, h2⟩, h3⟩, h4⟩, h5⟩ := h
  refine ⟨h1, h2, h3, ?_⟩
  omega

/-- A path character is plain and is no slash. -/
theorem repoparser.pathChar_facts (c : Char) (h : repoparser.pathChar c = true) :
    c ≠ '/' ∧ url.plainChar c = true := by
  simp only [repoparser.pathChar, Bool.and_eq_true, decide_eq_true_eq, ne_eq, decide_not,
    Bool.not_eq_true', decide_eq_false_iff_not] at h
  obtain ⟨⟨⟨⟨⟨h0, h1⟩, h2⟩, h3⟩, h4⟩, h5⟩ := h
  refine ⟨h0, ?_⟩
  simp [url.plainChar, h1, h2, h3, h4, h5]

/-- A host character is plain. -/
theorem repoparser.hostChar_plain (c : Char) (h : repoparser.hostChar c = true) :
    url.plainChar c = true := by
  obtain ⟨_, h1, h2, h3, _, _, _, _, h4, _⟩ := repoparser.hostChar_facts c h
  simp only [url.plainChar, Bool.and_eq_true, decide_eq_true_eq, ne_eq, decide_not,
    Bool.not_eq_true', decide_eq_false_iff_not]
  refine ⟨⟨⟨⟨h1, h2⟩, h3⟩, ?_⟩, ?_⟩ <;> omega

/-- `giturls.Parse` of `https://host/path` with an optional fragment, for a host of host
characters and a path of plain characters: the transport parse succeeds with that host
and path. -/
theorem giturls.Parse_https (h path : List Char) (frag : Option (List Char))
    (hh : ∀ c ∈ h, repoparser.hostChar c = true)
    (hpath : ∀ c ∈ path, url.plainChar c = true)
    (hfrag : ∀ f, frag = some f → '%' ∉ f) :
    giturls.Parse ⟨"https".data ++ ':' :: '/' :: '/' :: (h ++ '/' :: path) ++
        (match frag with
         | none => []
         | some f => '#' :: f)⟩ =
      .ok { Scheme := "https", Host := ⟨h⟩, Path := ⟨'/' :: path⟩ } := by
  have hall : ∀ c ∈ "https".data ++ ':' :: '/' :: '/' :: (h ++ '/' :: path),
      url.plainChar c = true := by
    have hlit : ∀ c ∈ "https".data, url.plainChar c = true := by decide
    intro c hc
    rcases List.mem_append.1 hc with hc | hc
    · exact hlit c hc
    · rcases List.mem_cons.1 hc with rfl | hc
      · decide
      · rcases List.mem_cons.1 hc with rfl | hc
        · decide
        · rcases List.mem_cons.1 hc with rfl | hc
          · decide
          · rcases List.mem_append.1 hc with hc | hc
            · exact repoparser.hostChar_plain c (hh c hc)
            · rcases List.mem_cons.1 hc with rfl | hc
              · decide
              · exact hpath c hc
  have hp := url.Parse_authority "https".data h h path frag (url.getScheme_https _)
    (by decide) (by decide) (fun c hc => (url.plainChar_facts c (hall c hc)).2.2.2)
    (fun hm => (url.plainChar_facts _ (hall _ hm)).2.1 rfl)
    (fun hm => (url.plainChar_facts _ (hall _ (List.mem_append_right _
      (List.mem_cons_of_mem _ (List.mem_cons_of_mem _ (List.mem_cons_of_mem _ hm)))))).1 rfl)
    (fun hm => (repoparser.hostChar_facts _ (hh _ hm)).1 rfl)
    (url.parseAuthority_host h hh)
    (fun hm => (url.plainChar_facts _ (hpath _ hm)).2.2.1 rfl) hfrag
  unfold giturls.Parse giturls.ParseTransport
  rw [hp]
  rfl

/-- `giturls.Parse` of `ssh://git@host/path` with an optional fragment, for a host of host
characters and a path of plain characters. -/
theorem giturls.Parse_ssh (h path : List Char) (frag : Option (List Char))
    (hh : ∀ c ∈ h, repoparser.hostChar c = true)
    (hpath : ∀ c ∈ path, url.plainChar c = true)
    (hfrag : ∀ f, frag = some f → '%' ∉ f) :
    giturls.Parse ⟨"ssh".data ++ ':' :: '/' :: '/' ::
        ((['g', 'i', 't'] ++ '@' :: h) ++ '/' :: path) ++
        (match frag with
         | none => []
         | some f => '#' :: f)⟩ =
      .ok { Scheme := "ssh", Host := ⟨h⟩, Path := ⟨'/' :: path⟩ } := by
  have hall : ∀ c ∈ "ssh".data ++ ':' :: '/' :: '/' ::
      ((['g', 'i', 't'] ++ '@' :: h) ++ '/' :: path), url.plainChar c = true := by
    have hlit : ∀ c ∈ "ssh".data, url.plainChar c = true := by decide
    have hgit : ∀ c ∈ ['g', 'i', 't'], url.plainChar c = true := by decide
    intro c hc
    rcases List.mem_append.1 hc with hc | hc
    · exact hlit c hc
    · rcases List.mem_cons.1 hc with rfl | hc
      · decide
      · rcases List.mem_cons.1 hc with rfl | hc
        · decide
        · rcases List.mem_cons.1 hc with rfl | hc
          · decide
          · rcases List.mem_append.1 hc with hc | hc
            · rcases List.mem_append.1 hc with hc | hc
              · exact hgit c hc
              · rcases List.mem_cons.1 hc with rfl | hc
                · decide
                · exact repoparser.hostChar_plain c (hh c hc)
            · rcases List.mem_cons.1 hc with rfl | hc
              · decide
              · exact hpath c hc
  have hun : ∀ c ∈ ['g', 'i', 't'] ++ '@' :: h, c ≠ '/' := by
    have hgit : ∀ c ∈ ['g', 'i', 't'], c ≠ '/' := by decide
    intro c hc
    rcases List.mem_append.1 hc with hc | hc
    · exact hgit c hc
    · rcases List.mem_cons.1 hc with rfl | hc
      · decide
      · exact (repoparser.hostChar_facts _ (hh _ hc)).1
  have hp := url.Parse_authority "ssh".data (['g', 'i', 't'] ++ '@' :: h) h path frag
    (url.getScheme_ssh _)
    (by decide) (by decide) (fun c hc => (url.plainChar_facts c (hall c hc)).2.2.2)
    (fun hm => (url.plainChar_facts _ (hall _ hm)).2.1 rfl)
    (fun hm => (url.plainChar_facts _ (hall _ (List.mem_append_right _
      (List.mem_cons_of_mem _ (List.mem_cons_of_mem _ (List.mem_cons_of_mem _ hm)))))).1 rfl)
    (fun hm => hun _ hm rfl)
    (url.parseAuthority_git h hh)
    (fun hm => (url.plainChar_facts _ (hpath _ hm)).2.2.1 rfl) hfrag
  unfold giturls.Parse giturls.ParseTransport
  rw [hp]
  rfl

/-! ### From the parsed URL to the triple -/

/-- When the git URL (with `https://` in front of an input with exactly two slashes)
parses, and its path without one leading slash splits into exactly an org and a segment,
`ExtractOrgRepoFromURL` returns the host (or `github.com`), the org and the segment
without its extension. -/
theorem repoparser.Extract_of_parse (lib : Lib) (s : String) (u : giturls.URL)
    (org seg : String) (tail : List String)
    (hparse : lib.giturlsParse
      (if strings.Count s "/" = 2 then "https://" ++ s else s) = .ok u)
    (hsplit : strings.Split (strings.TrimLeading u.Path "/") "/" = org :: seg :: tail) :
    repoparser.ExtractOrgRepoFromURL lib s =
      .ok { Host := if u.Host = "" then "github.com" else u.Host, Org := org,
            Repo := strings.TrimSuffix seg (filepath.Ext seg) } := by
  unfold repoparser.ExtractOrgRepoFromURL
  simp only [hparse, hsplit]

/-- The parts of the path `/org/seg`. -/
theorem strings.Split_path (org seg : List Char) (horg : '/' ∉ org) (hseg : '/' ∉ seg) :
    strings.Split (strings.TrimLeading ⟨'/' :: (org ++ '/' :: seg)⟩ "/") "/" =
      [⟨org⟩, ⟨seg⟩] := by
  rw [strings.TrimLeading_slash, strings.Split_slash_two org seg horg hseg]

/-- The parts of the path `org/seg` for a non-empty org. -/
theorem strings.Split_relative (org seg : List Char) (hne : org ≠ []) (horg : '/' ∉ org)
    (hseg : '/' ∉ seg) :
    strings.Split (strings.TrimLeading ⟨org ++ '/' :: seg⟩ "/") "/" = [⟨org⟩, ⟨seg⟩] := by
  rw [strings.TrimLeading_none, strings.Split_slash_two org seg horg hseg]
  intro tail h
  cases org with
  | nil => exact hne rfl
  | cons c rest =>
    simp only [List.cons_append, List.cons.injEq] at h
    exact horg (h.1 ▸ List.mem_cons_self c rest)

/-- The segment `repo.git` without its extension is `repo`. -/
theorem repoparser.trim_git (r : List Char) :
    strings.TrimSuffix ⟨r ++ ".git".data⟩ (filepath.Ext ⟨r ++ ".git".data⟩) = ⟨r⟩ := by
  rw [filepath.Ext_git, strings.TrimSuffix_git]

/-- The segment `repo` without dot has no extension to remove. -/
theorem repoparser.trim_none (r : List Char) (hdot : '.' ∉ r) :
    strings.TrimSuffix ⟨r⟩ (filepath.Ext ⟨r⟩) = ⟨r⟩ := by
  rw [filepath.Ext_none r hdot, strings.TrimSuffix_empty]

/-- An empty host becomes `github.com`, a host that is not empty stays. -/
theorem repoparser.host_default (h : List Char) (hne : h ≠ []) :
    (if (⟨h⟩ : String) = "" then "github.com" else (⟨h⟩ : String)) = ⟨h⟩ := by
  have : (⟨h⟩ : String) ≠ "" := fun e => hne (congrArg String.data e)
  simp [this]

/-- C15 (amended). HTTPS round trip: for every triple `R` whose host is not empty and made
of letters, digits, dots and hyphens, and whose org and repo hold no `/`, `?`, `#`, `%`
and no control character (a repo may be a glob pattern such as `foo-*`),
`ExtractOrgRepoFromURL(R.HTTPS())` succeeds and returns `R`; git URLs are parsed by the
model of `giturls.Parse`. -/
theorem repoparser.HTTPS_round_trip (lib : Lib) (hlib : lib.giturlsParse = giturls.Parse)
    (R : repoparser.RepositoryName) (hne : R.Host ≠ "")
    (hhost : ∀ c ∈ R.Host.data, repoparser.hostChar c = true)
    (horg : ∀ c ∈ R.Org.data, repoparser.pathChar c = true)
    (hrepo : ∀ c ∈ R.Repo.data, repoparser.pathChar c = true) :
    repoparser.ExtractOrgRepoFromURL lib R.HTTPS = .ok R := by
  obtain ⟨⟨h⟩, ⟨o⟩, ⟨r⟩⟩ := R
  simp only at hne hhost horg hrepo
  have hgitdata : ∀ c ∈ ".git".data, repoparser.pathChar c = true := by decide
  have hseg : ∀ c ∈ r ++ ".git".data, repoparser.pathChar c = true := by
    intro c hc
    rcases List.mem_append.1 hc with hc | hc
    · exact hrepo c hc
    · exact hgitdata c hc
  have hso : '/' ∉ o := fun hm => (repoparser.pathChar_facts _ (horg _ hm)).1 rfl
  have hss : '/' ∉ r ++ ".git".data := fun hm => (repoparser.pathChar_facts _ (hseg _ hm)).1 rfl
  have hsh : '/' ∉ h := fun hm => (repoparser.hostChar_facts _ (hhost _ hm)).1 rfl
  have hurl : repoparser.RepositoryName.HTTPS ⟨⟨h⟩, ⟨o⟩, ⟨r⟩⟩ =
      ⟨"https".data ++ ':' :: '/' :: '/' :: (h ++ '/' :: (o ++ '/' :: (r ++ ".git".data))) ++
        []⟩ := by
    apply String.ext
    simp [repoparser.RepositoryName.HTTPS]
  have hcount : strings.Count (repoparser.RepositoryName.HTTPS ⟨⟨h⟩, ⟨o⟩, ⟨r⟩⟩) "/" ≠ 2 := by
    rw [strings.Count_slash, hurl]
    have hc : "https".data.count '/' = 0 := by decide
    simp only [List.append_nil, List.count_append, List.count_cons, hc,
      List.count_eq_zero.2 hsh, List.count_eq_zero.2 hso, List.count_eq_zero.2 hss]
    decide
  have hplain : ∀ c ∈ o ++ '/' :: (r ++ ".git".data), url.plainChar c = true := by
    intro c hc
    rcases List.mem_append.1 hc with hc | hc
    · exact (repoparser.pathChar_facts _ (horg _ hc)).2
    · rcases List.mem_cons.1 hc with rfl | hc
      · decide
      · exact (repoparser.pathChar_facts _ (hseg _ hc)).2
  have hparse := giturls.Parse_https h (o ++ '/' :: (r ++ ".git".data)) none hhost hplain
    (fun f hf => by simp at hf)
  have hres := repoparser.Extract_of_parse lib (repoparser.RepositoryName.HTTPS ⟨⟨h⟩, ⟨o⟩, ⟨r⟩⟩)
    ⟨"https", ⟨h⟩, ⟨'/' :: (o ++ '/' :: (r ++ ".git".data))⟩⟩ ⟨o⟩ ⟨r ++ ".git".data⟩ []
    (by rw [if_neg hcount, hlib, hurl, hparse])
    (strings.Split_path o _ hso hss)
  rw [hres, repoparser.trim_git]
  have hhne : h ≠ [] := fun e => hne (congrArg String.mk e)
  simp only [repoparser.host_default h hhne]

/-- Witness of C15: the triple `(github.com, acme, foo-*)` comes back from its HTTPS
form. -/
theorem repoparser.HTTPS_round_trip_witness :
    repoparser.ExtractOrgRepoFromURL server.exampleLib
        (repoparser.RepositoryName.HTTPS ⟨"github.com", "acme", "foo-*"⟩) =
      .ok ⟨"github.com", "acme", "foo-*"⟩ :=
  repoparser.HTTPS_round_trip server.exampleLib rfl ⟨"github.com", "acme", "foo-*"⟩
    (by decide) (by decide) (by decide) (by decide)

/-- C15 (counterexample). The triples `(github.com, acme, foo-?)` and
`(github.com, acme, a#b)` have non-empty fields, the first with a glob pattern as repo,
and do not come back from their HTTPS form: what follows `?` or `#` is taken for the
query or the fragment of the URL, so the repo returned is `foo-` and `a`. -/
theorem repoparser.HTTPS_round_trip_counterexample :
    repoparser.RepositoryName.HTTPS ⟨"github.com", "acme", "foo-?"⟩ =
        "https://github.com/acme/foo-?.git" ∧
      repoparser.ExtractOrgRepoFromURL server.exampleLib
          (repoparser.RepositoryName.HTTPS ⟨"github.com", "acme", "foo-?"⟩) =
        .ok ⟨"github.com", "acme", "foo-"⟩ ∧
      repoparser.ExtractOrgRepoFromURL server.exampleLib
          (repoparser.RepositoryName.HTTPS ⟨"github.com", "acme", "a#b"⟩) =
        .ok ⟨"github.com", "acme", "a"⟩ :=
  ⟨by decide, by rfl, by rfl⟩

/-- C16. The triple `(ghes.mycompany.com, myorg, foo-*)` does not come back from its SSH
form `git@ghes.mycompany.com:myorg/foo-*.git`: the scp pattern of the git URL parser ends
the path before `*`, and the repo returned is `foo-`. The same triple comes back from its
HTTPS form. -/
theorem repoparser.GIT_wildcard_truncated :
    repoparser.RepositoryName.GIT ⟨"ghes.mycompany.com", "myorg", "foo-*"⟩ =
        "git@ghes.mycompany.com:myorg/foo-*.git" ∧
      repoparser.ExtractOrgRepoFromURL server.exampleLib
          (repoparser.RepositoryName.GIT ⟨"ghes.mycompany.com", "myorg", "foo-*"⟩) =
        .ok ⟨"ghes.mycompany.com", "myorg", "foo-"⟩ ∧
      repoparser.ExtractOrgRepoFromURL server.exampleLib
          (repoparser.RepositoryName.HTTPS ⟨"ghes.mycompany.com", "myorg", "foo-*"⟩) =
        .ok ⟨"ghes.mycompany.com", "myorg", "foo-*"⟩ :=
  ⟨by decide, by rfl, by rfl⟩

/-! ### The scp and local forms of a git URL -/

/-- A character of the text before the first separator is a character of the text. -/
theorem url.cut_fst_mem (sep c : Char) (l : List Char) (h : c ∈ (url.cut sep l).1) : c ∈ l := by
  induction l with
  | nil => simp [url.cut] at h
  | cons d rest ih =>
    unfold url.cut at h
    split at h
    · simp at h
    · rcases List.mem_cons.1 h with rfl | h
      · exact List.mem_cons_self _ _
      · exact List.mem_cons_of_mem _ (ih h)

/-- A URL without scheme that `parseNoFragment` accepts has the empty scheme. -/
theorem url.parseNoFragment_scheme_empty (l : List Char)
    (hscheme : url.getScheme l = some ([], l)) (u : giturls.URL)
    (hu : url.parseNoFragment l = some u) : u.Scheme = "" := by
  unfold url.parseNoFragment at hu
  rw [hscheme] at hu
  simp only [List.map_nil] at hu
  repeat' split at hu
  all_goals (cases hu <;> rfl)

/-- A URL without scheme that `url.Parse` accepts has the empty scheme. -/
theorem url.Parse_scheme_empty (s : String)
    (hscheme : url.getScheme (url.cut '#' s.data).1 = some ([], (url.cut '#' s.data).1))
    (u : giturls.URL) (hu : url.Parse s = some u) : u.Scheme = "" := by
  unfold url.Parse at hu
  split at hu
  · cases hu
  · rename_i v hv
    have hv2 := url.parseNoFragment_scheme_empty _ hscheme v hv
    split at hu
    · cases hu; exact hv2
    · split at hu
      · cases hu; exact hv2
      · cases hu

/-- A URL without scheme is no transport URL. -/
theorem giturls.ParseTransport_none (s : String)
    (hscheme : url.getScheme (url.cut '#' s.data).1 = some ([], (url.cut '#' s.data).1)) :
    giturls.ParseTransport s = none := by
  unfold giturls.ParseTransport
  split
  · rename_i u hu
    rw [url.Parse_scheme_empty s hscheme u hu]
    rfl
  · rfl

/-- A text without colon is no scp URL. -/
theorem giturls.ParseScp_no_colon (s : String) (h : ':' ∉ s.data) :
    giturls.ParseScp s = none := by
  unfold giturls.ParseScp
  simp only
  have key : ∀ (p : Char → Bool) (l rest : List Char), ':' ∉ l →
      l.dropWhile p ≠ ':' :: rest := by
    intro p l rest hl e
    exact hl ((List.dropWhile_suffix p).subset (e ▸ List.mem_cons_self _ _))
  split
  · rename_i rest heq
    exfalso
    revert heq
    split
    · rename_i rest2 heq2
      split
      · exact key _ _ _ h
      · refine key _ _ _ fun hm => h ?_
        exact (List.dropWhile_suffix _).subset (heq2 ▸ List.mem_cons_of_mem _ hm)
    · exact key _ _ _ h
  · rfl

/-- A text without colon parses as a local path. -/
theorem giturls.Parse_local (s : String) (h : ':' ∉ s.data) :
    giturls.Parse s = .ok (giturls.ParseLocal s) := by
  unfold giturls.Parse
  rw [giturls.ParseTransport_none s
    (url.getScheme_no_colon _ fun hm => h (url.cut_fst_mem _ _ _ hm)),
    giturls.ParseScp_no_colon s h]

/-- A run of characters that satisfy `p`, followed by one that does not, is dropped up to
that one. -/
theorem strings.dropWhile_span (p : Char → Bool) (a b : List Char) (c : Char)
    (ha : ∀ x ∈ a, p x = true) (hc : p c = false) : (a ++ c :: b).dropWhile p = c :: b := by
  induction a with
  | nil => simp [List.dropWhile, hc]
  | cons d rest ih =>
    simp only [List.cons_append, List.dropWhile, ha d (List.mem_cons_self _ _)]
    exact ih fun x hx => ha x (List.mem_cons_of_mem _ hx)

/-- A run of characters that satisfy `p`, followed by one that does not, is taken up to
that one. -/
theorem strings.takeWhile_span (p : Char → Bool) (a b : List Char) (c : Char)
    (ha : ∀ x ∈ a, p x = true) (hc : p c = false) : (a ++ c :: b).takeWhile p = a := by
  induction a with
  | nil => simp [List.takeWhile, hc]
  | cons d rest ih =>
    simp only [List.cons_append, List.takeWhile, ha d (List.mem_cons_self _ _)]
    exact congrArg (List.cons d) (ih fun x hx => ha x (List.mem_cons_of_mem _ hx))

/-- A text of characters that satisfy `p` is dropped whole. -/
theorem strings.dropWhile_all (p : Char → Bool) (a : List Char)
    (ha : ∀ x ∈ a, p x = true) : a.dropWhile p = [] := by
  induction a with
  | nil => rfl
  | cons d rest ih =>
    simp only [List.dropWhile, ha d (List.mem_cons_self _ _)]
    exact ih fun x hx => ha x (List.mem_cons_of_mem _ hx)

/-- A text of characters that satisfy `p` is taken whole. -/
theorem strings.takeWhile_all (p : Char → Bool) (a : List Char)
    (ha : ∀ x ∈ a, p x = true) : a.takeWhile p = a := by
  induction a with
  | nil => rfl
  | cons d rest ih =>
    simp only [List.takeWhile, ha d (List.mem_cons_self _ _)]
    rw [ih fun x hx => ha x (List.mem_cons_of_mem _ hx)]

/-- The scp form `git@host:path`, for a non-empty host of host characters and a non-empty
path of letters, digits, dots, slashes, underscores and hyphens that runs to the end of
the text: the scp parse gives that host and that path. -/
theorem giturls.ParseScp_git (h p : List Char) (hne : h ≠ []) (hpne : p ≠ [])
    (hh : ∀ c ∈ h, repoparser.hostChar c = true)
    (hp : ∀ c ∈ p,
      (c.isAlphanum || c = '.' || c = '/' || c = '_' || c = '-') = true) :
    giturls.ParseScp ⟨'g' :: 'i' :: 't' :: '@' :: (h ++ ':' :: p)⟩ =
      some { Scheme := "ssh", Host := ⟨h⟩, Path := ⟨p⟩ } := by
  have hu1 : List.dropWhile (fun c : Char => c.isAlphanum || decide (c = '_'))
      ('g' :: 'i' :: 't' :: '@' :: (h ++ ':' :: p)) = '@' :: (h ++ ':' :: p) := rfl
  have hu2 : List.takeWhile (fun c : Char => c.isAlphanum || decide (c = '_'))
      ('g' :: 'i' :: 't' :: '@' :: (h ++ ':' :: p)) = ['g', 'i', 't'] := rfl
  have hhost : ∀ c ∈ h,
      (c.isAlphanum || decide (c = '.') || decide (c = '_') || decide (c = '-')) = true := by
    intro c hc
    have := hh c hc
    simp only [repoparser.hostChar, Bool.or_eq_true, decide_eq_true_eq] at this ⊢
    tauto
  have hd := strings.dropWhile_span
    (fun c : Char => c.isAlphanum || decide (c = '.') || decide (c = '_') || decide (c = '-'))
    h p ':' hhost (by decide)
  have ht := strings.takeWhile_span
    (fun c : Char => c.isAlphanum || decide (c = '.') || decide (c = '_') || decide (c = '-'))
    h p ':' hhost (by decide)
  have hpd := strings.dropWhile_all
    (fun c : Char => c.isAlphanum || decide (c = '.') || decide (c = '/') || decide (c = '_') ||
      decide (c = '-')) p hp
  have hpt := strings.takeWhile_all
    (fun c : Char => c.isAlphanum || decide (c = '.') || decide (c = '/') || decide (c = '_') ||
      decide (c = '-')) p hp
  unfold giturls.ParseScp
  simp only [hu1, hu2]
  have he : (['g', 'i', 't'] : List Char).isEmpty = false := rfl
  simp only [he, Bool.false_eq_true, if_false, hd, ht, hpd, hpt]
  simp [hne, hpne]

/-- The scp form `git@host:path` parses with that host and that path. -/
theorem giturls.Parse_git (h p : List Char) (hne : h ≠ []) (hpne : p ≠ [])
    (hh : ∀ c ∈ h, repoparser.hostChar c = true)
    (hp : ∀ c ∈ p,
      (c.isAlphanum || c = '.' || c = '/' || c = '_' || c = '-') = true) :
    giturls.Parse ⟨'g' :: 'i' :: 't' :: '@' :: (h ++ ':' :: p)⟩ =
      .ok { Scheme := "ssh", Host := ⟨h⟩, Path := ⟨p⟩ } := by
  have hhash : '#' ∉ 'g' :: 'i' :: 't' :: '@' :: (h ++ ':' :: p) := by
    intro hm
    have hm2 : '#' ∈ h ++ ':' :: p := by
      rcases List.mem_cons.1 hm with e | hm
      · exact absurd e (by decide)
      rcases List.mem_cons.1 hm with e | hm
      · exact absurd e (by decide)
      rcases List.mem_cons.1 hm with e | hm
      · exact absurd e (by decide)
      rcases List.mem_cons.1 hm with e | hm
      · exact absurd e (by decide)
      exact hm
    rcases List.mem_append.1 hm2 with hm | hm
    · exact (repoparser.hostChar_facts _ (hh _ hm)).2.2.1 rfl
    · rcases List.mem_cons.1 hm with e | hm
      · exact absurd e (by decide)
      · exact absurd (hp _ hm) (by decide)
  unfold giturls.Parse
  rw [giturls.ParseTransport_none _ (by
      show url.getScheme (url.cut '#' ('g' :: 'i' :: 't' :: '@' :: (h ++ ':' :: p))).1 = _
      rw [url.cut_not_mem _ _ hhash]
      rfl),
    giturls.ParseScp_git h p hne hpne hh hp]

/-- A name character is a host character, a path character, a character of an scp path,
and neither a dot nor a colon. -/
theorem repoparser.nameChar_facts (c : Char) (h : repoparser.nameChar c = true) :
    repoparser.hostChar c = true ∧ repoparser.pathChar c = true ∧
      (c.isAlphanum || c = '.' || c = '/' || c = '_' || c = '-') = true ∧
      c ≠ '.' ∧ c ≠ ':' ∧ c ≠ '/' := by
  have hhost : repoparser.hostChar c = true := by
    simp only [repoparser.nameChar, repoparser.hostChar, Bool.or_eq_true,
      decide_eq_true_eq] at h ⊢
    tauto
  have hne : ∀ d : Char, repoparser.nameChar d = false → c ≠ d := by
    intro d hd e
    rw [e, hd] at h
    exact absurd h (by decide)
  obtain ⟨h1, h2, h3, h4, _, _, _, _, h5, _⟩ := repoparser.hostChar_facts c hhost
  refine ⟨hhost, ?_, ?_, hne _ (by decide), hne _ (by decide), h1⟩
  · simp only [repoparser.pathChar, Bool.and_eq_true, decide_eq_true_eq, ne_eq, decide_not,
      Bool.not_eq_true', decide_eq_false_iff_not]
    refine ⟨⟨⟨⟨⟨h1, h2⟩, h3⟩, h4⟩, ?_⟩, ?_⟩ <;> omega
  · simp only [repoparser.nameChar, Bool.or_eq_true, decide_eq_true_eq] at h ⊢
    tauto

/-- When the git URL parses to a host and to a path `/org/seg` or `org/seg` (with a
non-empty org), `ExtractOrgRepoFromURL` returns the host (or `github.com`), the org and
the segment without its extension. -/
theorem repoparser.Extract_of_url (lib : Lib) (hlib : lib.giturlsParse = giturls.Parse)
    (s : String) (sch : String) (h o seg path : List Char)
    (hparse : giturls.Parse (if strings.Count s "/" = 2 then "https://" ++ s else s) =
      .ok ⟨sch, ⟨h⟩, ⟨path⟩⟩)
    (hpath : path = '/' :: (o ++ '/' :: seg) ∨ (path = o ++ '/' :: seg ∧ o ≠ []))
    (ho : '/' ∉ o) (hseg : '/' ∉ seg) :
    repoparser.ExtractOrgRepoFromURL lib s =
      .ok ⟨if (⟨h⟩ : String) = "" then "github.com" else ⟨h⟩, ⟨o⟩,
        strings.TrimSuffix ⟨seg⟩ (filepath.Ext ⟨seg⟩)⟩ := by
  refine repoparser.Extract_of_parse lib s ⟨sch, ⟨h⟩, ⟨path⟩⟩ ⟨o⟩ ⟨seg⟩ []
    (by rw [hlib]; exact hparse) ?_
  rcases hpath with e | ⟨e, hne⟩
  · rw [e]; exact strings.Split_path o seg ho hseg
  · rw [e]; exact strings.Split_relative o seg hne ho hseg

/-! ### The accepted shapes of a repository reference -/

/-- The transport parse of `https://host/path` followed by nothing or by `#ref`. -/
theorem giturls.Parse_https_tail (h path tail : List Char)
    (hh : ∀ c ∈ h, repoparser.hostChar c = true)
    (hpath : ∀ c ∈ path, url.plainChar c = true)
    (htail : tail = [] ∨ ∃ f, tail = '#' :: f ∧ '%' ∉ f) :
    giturls.Parse ⟨"https".data ++ ':' :: '/' :: '/' :: (h ++ '/' :: path) ++ tail⟩ =
      .ok { Scheme := "https", Host := ⟨h⟩, Path := ⟨'/' :: path⟩ } := by
  rcases htail with rfl | ⟨f, rfl, hf⟩
  · exact giturls.Parse_https h path none hh hpath (fun g hg => by cases hg)
  · exact giturls.Parse_https h path (some f) hh hpath (fun g hg => by cases hg; exact hf)

/-- The transport parse of `ssh://git@host/path` followed by nothing or by `#ref`. -/
theorem giturls.Parse_ssh_tail (h path tail : List Char)
    (hh : ∀ c ∈ h, repoparser.hostChar c = true)
    (hpath : ∀ c ∈ path, url.plainChar c = true)
    (htail : tail = [] ∨ ∃ f, tail = '#' :: f ∧ '%' ∉ f) :
    giturls.Parse ⟨"ssh".data ++ ':' :: '/' :: '/' ::
        ((['g', 'i', 't'] ++ '@' :: h) ++ '/' :: path) ++ tail⟩ =
      .ok { Scheme := "ssh", Host := ⟨h⟩, Path := ⟨'/' :: path⟩ } := by
  rcases htail with rfl | ⟨f, rfl, hf⟩
  · exact giturls.Parse_ssh h path none hh hpath (fun g hg => by cases hg)
  · exact giturls.Parse_ssh h path (some f) hh hpath (fun g hg => by cases hg; exact hf)

/-- An org and a segment of path characters give a path of plain characters. -/
theorem repoparser.path_plain (o seg : List Char)
    (ho : ∀ c ∈ o, repoparser.pathChar c = true)
    (hseg : ∀ c ∈ seg, repoparser.pathChar c = true) :
    ∀ c ∈ o ++ '/' :: seg, url.plainChar c = true := by
  intro c hc
  rcases List.mem_append.1 hc with hc | hc
  · exact (repoparser.pathChar_facts _ (ho _ hc)).2
  · rcases List.mem_cons.1 hc with rfl | hc
    · decide
    · exact (repoparser.pathChar_facts _ (hseg _ hc)).2

/-- The shape `https://host/org/seg` followed by nothing or by `#ref`. -/
theorem repoparser.Extract_https_form (lib : Lib) (hlib : lib.giturlsParse = giturls.Parse)
    (h o seg tail : List Char) (hne : h ≠ [])
    (hh : ∀ c ∈ h, repoparser.hostChar c = true)
    (ho : ∀ c ∈ o, repoparser.pathChar c = true)
    (hseg : ∀ c ∈ seg, repoparser.pathChar c = true)
    (htail : tail = [] ∨ ∃ f, tail = '#' :: f ∧ '%' ∉ f) :
    repoparser.ExtractOrgRepoFromURL lib
        ⟨"https".data ++ ':' :: '/' :: '/' :: (h ++ '/' :: (o ++ '/' :: seg)) ++ tail⟩ =
      .ok ⟨⟨h⟩, ⟨o⟩, strings.TrimSuffix ⟨seg⟩ (filepath.Ext ⟨seg⟩)⟩ := by
  have hso : '/' ∉ o := fun hm => (repoparser.pathChar_facts _ (ho _ hm)).1 rfl
  have hss : '/' ∉ seg := fun hm => (repoparser.pathChar_facts _ (hseg _ hm)).1 rfl
  have hcount : strings.Count ⟨"https".data ++ ':' :: '/' :: '/' ::
      (h ++ '/' :: (o ++ '/' :: seg)) ++ tail⟩ "/" ≠ 2 := by
    rw [strings.Count_slash]
    have hc : "https".data.count '/' = 0 := by decide
    simp only [List.count_append, List.count_cons, hc]
    simp
    omega
  have hres := repoparser.Extract_of_url lib hlib _ "https" h o seg _
    (by
      rw [if_neg hcount]
      exact giturls.Parse_https_tail h (o ++ '/' :: seg) tail hh
        (repoparser.path_plain o seg ho hseg) htail)
    (Or.inl rfl) hso hss
  rw [hres, repoparser.host_default h hne]

/-- The shape `ssh://git@host/org/seg` followed by nothing or by `#ref`. -/
theorem repoparser.Extract_ssh_form (lib : Lib) (hlib : lib.giturlsParse = giturls.Parse)
    (h o seg tail : List Char) (hne : h ≠ [])
    (hh : ∀ c ∈ h, repoparser.hostChar c = true)
    (ho : ∀ c ∈ o, repoparser.pathChar c = true)
    (hseg : ∀ c ∈ seg, repoparser.pathChar c = true)
    (htail : tail = [] ∨ ∃ f, tail = '#' :: f ∧ '%' ∉ f) :
    repoparser.ExtractOrgRepoFromURL lib
        ⟨"ssh".data ++ ':' :: '/' :: '/' ::
          ((['g', 'i', 't'] ++ '@' :: h) ++ '/' :: (o ++ '/' :: seg)) ++ tail⟩ =
      .ok ⟨⟨h⟩, ⟨o⟩, strings.TrimSuffix ⟨seg⟩ (filepath.Ext ⟨seg⟩)⟩ := by
  have hso : '/' ∉ o := fun hm => (repoparser.pathChar_facts _ (ho _ hm)).1 rfl
  have hss : '/' ∉ seg := fun hm => (repoparser.pathChar_facts _ (hseg _ hm)).1 rfl
  have hcount : strings.Count ⟨"ssh".data ++ ':' :: '/' :: '/' ::
      ((['g', 'i', 't'] ++ '@' :: h) ++ '/' :: (o ++ '/' :: seg)) ++ tail⟩ "/" ≠ 2 := by
    rw [strings.Count_slash]
    have hc : "ssh".data.count '/' = 0 := by decide
    simp only [List.count_append, List.count_cons, hc]
    simp
    omega
  have hres := repoparser.Extract_of_url lib hlib _ "ssh" h o seg _
    (by
      rw [if_neg hcount]
      exact giturls.Parse_ssh_tail h (o ++ '/' :: seg) tail hh
        (repoparser.path_plain o seg ho hseg) htail)
    (Or.inl rfl) hso hss
  rw [hres, repoparser.host_default h hne]

/-- The shape `host/org/seg` followed by nothing or by a `#ref` that holds no slash: the
text has exactly two slashes and is read as `https://host/org/seg`. -/
theorem repoparser.Extract_bare_form (lib : Lib) (hlib : lib.giturlsParse = giturls.Parse)
    (h o seg tail : List Char) (hne : h ≠ [])
    (hh : ∀ c ∈ h, repoparser.hostChar c = true)
    (ho : ∀ c ∈ o, repoparser.pathChar c = true)
    (hseg : ∀ c ∈ seg, repoparser.pathChar c = true)
    (htail : tail = [] ∨ ∃ f, tail = '#' :: f ∧ '%' ∉ f ∧ '/' ∉ f) :
    repoparser.ExtractOrgRepoFromURL lib ⟨(h ++ '/' :: (o ++ '/' :: seg)) ++ tail⟩ =
      .ok ⟨⟨h⟩, ⟨o⟩, strings.TrimSuffix ⟨seg⟩ (filepath.Ext ⟨seg⟩)⟩ := by
  have hso : '/' ∉ o := fun hm => (repoparser.pathChar_facts _ (ho _ hm)).1 rfl
  have hss : '/' ∉ seg := fun hm => (repoparser.pathChar_facts _ (hseg _ hm)).1 rfl
  have hsh : '/' ∉ h := fun hm => (repoparser.hostChar_facts _ (hh _ hm)).1 rfl
  have hst : '/' ∉ tail := by
    rcases htail with rfl | ⟨f, rfl, _, hf⟩
    · simp
    · intro hm
      rcases List.mem_cons.1 hm with e | hm
      · exact absurd e (by decide)
      · exact hf hm
  have hcount : strings.Count ⟨(h ++ '/' :: (o ++ '/' :: seg)) ++ tail⟩ "/" = 2 := by
    rw [strings.Count_slash]
    show List.count '/' _ = 2
    simp only [List.count_append, List.count_cons, List.count_eq_zero.2 hsh,
      List.count_eq_zero.2 hso, List.count_eq_zero.2 hss, List.count_eq_zero.2 hst]
    simp
  have htail2 : tail = [] ∨ ∃ f, tail = '#' :: f ∧ '%' ∉ f := by
    rcases htail with e | ⟨f, e, hf, _⟩
    · exact Or.inl e
    · exact Or.inr ⟨f, e, hf⟩
  have hres := repoparser.Extract_of_url lib hlib _ "https" h o seg _
    (by
      rw [if_pos hcount]
      exact giturls.Parse_https_tail h (o ++ '/' :: seg) tail hh
        (repoparser.path_plain o seg ho hseg) htail2)
    (Or.inl rfl) hso hss
  rw [hres, repoparser.host_default h hne]

/-- The shape `git@host:org/seg`, for a non-empty org and a segment of letters, digits,
dots, underscores and hyphens. -/
theorem repoparser.Extract_scp_form (lib : Lib) (hlib : lib.giturlsParse = giturls.Parse)
    (h o seg : List Char) (hne : h ≠ []) (hone : o ≠ [])
    (hh : ∀ c ∈ h, repoparser.hostChar c = true)
    (ho : ∀ c ∈ o, repoparser.nameChar c = true)
    (hseg : ∀ c ∈ seg, (c.isAlphanum || c = '.' || c = '_' || c = '-') = true) :
    repoparser.ExtractOrgRepoFromURL lib
        ⟨'g' :: 'i' :: 't' :: '@' :: (h ++ ':' :: (o ++ '/' :: seg))⟩ =
      .ok ⟨⟨h⟩, ⟨o⟩, strings.TrimSuffix ⟨seg⟩ (filepath.Ext ⟨seg⟩)⟩ := by
  have hso : '/' ∉ o := fun hm => (repoparser.nameChar_facts _ (ho _ hm)).2.2.2.2.2 rfl
  have hss : '/' ∉ seg := fun hm => absurd (hseg _ hm) (by decide)
  have hsh : '/' ∉ h := fun hm => (repoparser.hostChar_facts _ (hh _ hm)).1 rfl
  have hcount : strings.Count ⟨'g' :: 'i' :: 't' :: '@' :: (h ++ ':' :: (o ++ '/' :: seg))⟩
      "/" ≠ 2 := by
    rw [strings.Count_slash]
    show List.count '/' _ ≠ 2
    simp only [List.count_append, List.count_cons, List.count_eq_zero.2 hsh,
      List.count_eq_zero.2 hso, List.count_eq_zero.2 hss]
    simp
  have hp : ∀ c ∈ o ++ '/' :: seg,
      (c.isAlphanum || c = '.' || c = '/' || c = '_' || c = '-') = true := by
    intro c hc
    rcases List.mem_append.1 hc with hc | hc
    · exact (repoparser.nameChar_facts _ (ho _ hc)).2.2.1
    · rcases List.mem_cons.1 hc with rfl | hc
      · decide
      · have := hseg c hc
        simp only [Bool.or_eq_true, decide_eq_true_eq] at this ⊢
        tauto
  have hres := repoparser.Extract_of_url lib hlib _ "ssh" h o seg _
    (by
      rw [if_neg hcount]
      exact giturls.Parse_git h (o ++ '/' :: seg) hne (by simp) hh hp)
    (Or.inr ⟨rfl, hone⟩) hso hss
  rw [hres, repoparser.host_default h hne]

/-- The shape `org/seg`, for a non-empty org, without colon: the host is `github.com`. -/
theorem repoparser.Extract_local_form (lib : Lib) (hlib : lib.giturlsParse = giturls.Parse)
    (o seg : List Char) (hone : o ≠ [])
    (ho : '/' ∉ o) (hseg : '/' ∉ seg) (hoc : ':' ∉ o) (hsegc : ':' ∉ seg) :
    repoparser.ExtractOrgRepoFromURL lib ⟨o ++ '/' :: seg⟩ =
      .ok ⟨"github.com", ⟨o⟩, strings.TrimSuffix ⟨seg⟩ (filepath.Ext ⟨seg⟩)⟩ := by
  have hcount : strings.Count ⟨o ++ '/' :: seg⟩ "/" ≠ 2 := by
    rw [strings.Count_slash]
    show List.count '/' _ ≠ 2
    simp only [List.count_append, List.count_cons, List.count_eq_zero.2 ho,
      List.count_eq_zero.2 hseg]
    simp
  have hcolon : ':' ∉ (⟨o ++ '/' :: seg⟩ : String).data := by
    intro hm
    rcases List.mem_append.1 hm with hm | hm
    · exact hoc hm
    · rcases List.mem_cons.1 hm with e | hm
      · exact absurd e (by decide)
      · exact hsegc hm
  have hres := repoparser.Extract_of_url lib hlib ⟨o ++ '/' :: seg⟩ "file" [] o seg
    (o ++ '/' :: seg)
    (by rw [if_neg hcount]; exact giturls.Parse_local _ hcolon)
    (Or.inr ⟨rfl, hone⟩) ho hseg
  rw [hres]
  rfl

/-- C17 (amended). All accepted reference shapes denote the same repository: for every
non-empty host `h` of letters, digits, dots and hyphens, every non-empty org `o` and every
repo `r` of letters, digits and hyphens, and every reference `ref` without `/` and `%`,
`ExtractOrgRepoFromURL` returns `(h, o, r)` for `https://h/o/r`, `https://h/o/r.git`,
`ssh://git@h/o/r.git#ref`, `git@h:o/r`, `git@h:o/r.git`, `h/o/r` and `h/o/r#ref`, and
`(github.com, o, r)` for `o/r` and `o/r.git`; git URLs are parsed by the model of
`giturls.Parse`. -/
theorem repoparser.ExtractOrgRepoFromURL_shapes (lib : Lib)
    (hlib : lib.giturlsParse = giturls.Parse) (h o r ref : String)
    (hne : h ≠ "") (hone : o ≠ "")
    (hh : ∀ c ∈ h.data, repoparser.hostChar c = true)
    (ho : ∀ c ∈ o.data, repoparser.nameChar c = true)
    (hr : ∀ c ∈ r.data, repoparser.nameChar c = true)
    (href : ∀ c ∈ ref.data, repoparser.refChar c = true) :
    repoparser.ExtractOrgRepoFromURL lib ("https://" ++ h ++ "/" ++ o ++ "/" ++ r) =
        .ok ⟨h, o, r⟩ ∧
      repoparser.ExtractOrgRepoFromURL lib
          ("https://" ++ h ++ "/" ++ o ++ "/" ++ r ++ ".git") = .ok ⟨h, o, r⟩ ∧
      repoparser.ExtractOrgRepoFromURL lib
          ("ssh://git@" ++ h ++ "/" ++ o ++ "/" ++ r ++ ".git#" ++ ref) = .ok ⟨h, o, r⟩ ∧
      repoparser.ExtractOrgRepoFromURL lib ("git@" ++ h ++ ":" ++ o ++ "/" ++ r) =
        .ok ⟨h, o, r⟩ ∧
      repoparser.ExtractOrgRepoFromURL lib ("git@" ++ h ++ ":" ++ o ++ "/" ++ r ++ ".git") =
        .ok ⟨h, o, r⟩ ∧
      repoparser.ExtractOrgRepoFromURL lib (h ++ "/" ++ o ++ "/" ++ r) = .ok ⟨h, o, r⟩ ∧
      repoparser.ExtractOrgRepoFromURL lib (h ++ "/" ++ o ++ "/" ++ r ++ "#" ++ ref) =
        .ok ⟨h, o, r⟩ ∧
      repoparser.ExtractOrgRepoFromURL lib (o ++ "/" ++ r) = .ok ⟨"github.com", o, r⟩ ∧
      repoparser.ExtractOrgRepoFromURL lib (o ++ "/" ++ r ++ ".git") =
        .ok ⟨"github.com", o, r⟩ := by
  obtain ⟨h⟩ := h
  obtain ⟨o⟩ := o
  obtain ⟨r⟩ := r
  obtain ⟨ref⟩ := ref
  simp only at hh ho hr href
  have hne2 : h ≠ [] := fun e => hne (congrArg String.mk e)
  have hone2 : o ≠ [] := fun e => hone (congrArg String.mk e)
  have hop : ∀ c ∈ o, repoparser.pathChar c = true :=
    fun c hc => (repoparser.nameChar_facts c (ho c hc)).2.1
  have hrp : ∀ c ∈ r, repoparser.pathChar c = true :=
    fun c hc => (repoparser.nameChar_facts c (hr c hc)).2.1
  have hgitp : ∀ c ∈ ".git".data, repoparser.pathChar c = true := by decide
  have hrgp : ∀ c ∈ r ++ ".git".data, repoparser.pathChar c = true := by
    intro c hc
    rcases List.mem_append.1 hc with hc | hc
    · exact hrp c hc
    · exact hgitp c hc
  have hrs : ∀ c ∈ r, (c.isAlphanum || c = '.' || c = '_' || c = '-') = true := by
    intro c hc
    have := hr c hc
    simp only [repoparser.nameChar, Bool.or_eq_true, decide_eq_true_eq] at this ⊢
    tauto
  have hgits : ∀ c ∈ ".git".data, (c.isAlphanum || c = '.' || c = '_' || c = '-') = true := by
    decide
  have hrgs : ∀ c ∈ r ++ ".git".data,
      (c.isAlphanum || c = '.' || c = '_' || c = '-') = true := by
    intro c hc
    rcases List.mem_append.1 hc with hc | hc
    · exact hrs c hc
    · exact hgits c hc
  have hrdot : '.' ∉ r := fun hm => (repoparser.nameChar_facts _ (hr _ hm)).2.2.2.1 rfl
  have hrcolon : ':' ∉ r := fun hm => (repoparser.nameChar_facts _ (hr _ hm)).2.2.2.2.1 rfl
  have hocolon : ':' ∉ o := fun hm => (repoparser.nameChar_facts _ (ho _ hm)).2.2.2.2.1 rfl
  have hrgcolon : ':' ∉ r ++ ".git".data := fun hm => absurd (hrgs _ hm) (by decide)
  have hoslash : '/' ∉ o := fun hm => (repoparser.nameChar_facts _ (ho _ hm)).2.2.2.2.2 rfl
  have hrslash : '/' ∉ r := fun hm => (repoparser.nameChar_facts _ (hr _ hm)).2.2.2.2.2 rfl
  have hrgslash : '/' ∉ r ++ ".git".data := fun hm => absurd (hrgs _ hm) (by decide)
  have hrefp : '%' ∉ ref := fun hm => absurd (href _ hm) (by decide)
  have hrefs : '/' ∉ ref := fun hm => absurd (href _ hm) (by decide)
  have e1 := repoparser.Extract_https_form lib hlib h o r [] hne2 hh hop hrp (Or.inl rfl)
  have e2 := repoparser.Extract_https_form lib hlib h o (r ++ ".git".data) [] hne2 hh hop hrgp
    (Or.inl rfl)
  have e3 := repoparser.Extract_ssh_form lib hlib h o (r ++ ".git".data) ('#' :: ref) hne2 hh
    hop hrgp (Or.inr ⟨ref, rfl, hrefp⟩)
  have e4 := repoparser.Extract_scp_form lib hlib h o r hne2 hone2 hh ho hrs
  have e5 := repoparser.Extract_scp_form lib hlib h o (r ++ ".git".data) hne2 hone2 hh ho hrgs
  have e6 := repoparser.Extract_bare_form lib hlib h o r [] hne2 hh hop hrp (Or.inl rfl)
  have e7 := repoparser.Extract_bare_form lib hlib h o r ('#' :: ref) hne2 hh hop hrp
    (Or.inr ⟨ref, rfl, hrefp, hrefs⟩)
  have e8 := repoparser.Extract_local_form lib hlib o r hone2 hoslash hrslash hocolon hrcolon
  have e9 := repoparser.Extract_local_form lib hlib o (r ++ ".git".data) hone2 hoslash hrgslash
    hocolon hrgcolon
  rw [repoparser.trim_none r hrdot] at e1 e4 e6 e7 e8
  rw [repoparser.trim_git r] at e2 e3 e5 e9
  refine ⟨?_, ?_, ?_, ?_, ?_, ?_, ?_, ?_, ?_⟩
  · rw [← e1]; congr 1; exact String.ext (by simp)
  · rw [← e2]; congr 1; exact String.ext (by simp)
  · rw [← e3]; congr 1; exact String.ext (by simp)
  · rw [← e4]; congr 1; exact String.ext (by simp)
  · rw [← e5]; congr 1; exact String.ext (by simp)
  · rw [← e6]; congr 1; exact String.ext (by simp)
  · rw [← e7]; congr 1; exact String.ext (by simp)
  · rw [← e8]; congr 1; exact String.ext (by simp)
  · rw [← e9]; congr 1; exact String.ext (by simp)

/-- Witness of C17: the nine shapes for host `github.com`, org `myorg`, repo `podinfo` and
reference `v1.10.0`. -/
theorem repoparser.ExtractOrgRepoFromURL_shapes_witness :
    repoparser.ExtractOrgRepoFromURL server.exampleLib
        ("https://" ++ "github.com" ++ "/" ++ "myorg" ++ "/" ++ "podinfo") =
        .ok ⟨"github.com", "myorg", "podinfo"⟩ ∧
      repoparser.ExtractOrgRepoFromURL server.exampleLib
          ("https://" ++ "github.com" ++ "/" ++ "myorg" ++ "/" ++ "podinfo" ++ ".git") =
        .ok ⟨"github.com", "myorg", "podinfo"⟩ ∧
      repoparser.ExtractOrgRepoFromURL server.exampleLib
          ("ssh://git@" ++ "github.com" ++ "/" ++ "myorg" ++ "/" ++ "podinfo" ++ ".git#" ++
            "v1.10.0") = .ok ⟨"github.com", "myorg", "podinfo"⟩ ∧
      repoparser.ExtractOrgRepoFromURL server.exampleLib
          ("git@" ++ "github.com" ++ ":" ++ "myorg" ++ "/" ++ "podinfo") =
        .ok ⟨"github.com", "myorg", "podinfo"⟩ ∧
      repoparser.ExtractOrgRepoFromURL server.exampleLib
          ("git@" ++ "github.com" ++ ":" ++ "myorg" ++ "/" ++ "podinfo" ++ ".git") =
        .ok ⟨"github.com", "myorg", "podinfo"⟩ ∧
      repoparser.ExtractOrgRepoFromURL server.exampleLib
          ("github.com" ++ "/" ++ "myorg" ++ "/" ++ "podinfo") =
        .ok ⟨"github.com", "myorg", "podinfo"⟩ ∧
      repoparser.ExtractOrgRepoFromURL server.exampleLib
          ("github.com" ++ "/" ++ "myorg" ++ "/" ++ "podinfo" ++ "#" ++ "v1.10.0") =
        .ok ⟨"github.com", "myorg", "podinfo"⟩ ∧
      repoparser.ExtractOrgRepoFromURL server.exampleLib ("myorg" ++ "/" ++ "podinfo") =
        .ok ⟨"github.com", "myorg", "podinfo"⟩ ∧
      repoparser.ExtractOrgRepoFromURL server.exampleLib
          ("myorg" ++ "/" ++ "podinfo" ++ ".git") = .ok ⟨"github.com", "myorg", "podinfo"⟩ :=
  repoparser.ExtractOrgRepoFromURL_shapes server.exampleLib rfl "github.com" "myorg" "podinfo"
    "v1.10.0" (by decide) (by decide) (by decide) (by decide) (by decide) (by decide)

/-- C17 (counterexample). For host `github.com`, org `myorg` and repo `plugin`, the shape
`h/o/r#ref` with the reference `feature/x` has three slashes, is read as a local path, and
gives `(github.com, github.com, myorg)`; with an empty host the shape `h/o/r` gives the
host `github.com`, and with an empty org the shape `o/r` is refused. -/
theorem repoparser.ExtractOrgRepoFromURL_shapes_counterexample :
    repoparser.ExtractOrgRepoFromURL server.exampleLib
        ("github.com" ++ "/" ++ "myorg" ++ "/" ++ "plugin" ++ "#" ++ "feature/x") =
        .ok ⟨"github.com", "github.com", "myorg"⟩ ∧
      repoparser.ExtractOrgRepoFromURL server.exampleLib
          ("" ++ "/" ++ "myorg" ++ "/" ++ "plugin") = .ok ⟨"github.com", "myorg", "plugin"⟩ ∧
      repoparser.ExtractOrgRepoFromURL server.exampleLib ("" ++ "/" ++ "plugin") =
        .error (.msg "invalid github URL") :=
  ⟨by rfl, by rfl, by rfl⟩

/-- C18. `ExtractOrgRepoFromURL` returns an error for every input whose parsed URL path,
without one leading `/`, splits on `/` into fewer than two parts (whatever the git URL
parser is); and, with the model of `giturls.Parse`, for every input that holds no `/` and
no `:`. -/
theorem repoparser.ExtractOrgRepoFromURL_too_short (lib : Lib) (s : String) :
    (∀ u, lib.giturlsParse (if strings.Count s "/" = 2 then "https://" ++ s else s) = .ok u →
      (strings.Split (strings.TrimLeading u.Path "/") "/").length < 2 →
      repoparser.ExtractOrgRepoFromURL lib s = .error (.msg "invalid github URL")) ∧
    (lib.giturlsParse = giturls.Parse → '/' ∉ s.data → ':' ∉ s.data →
      repoparser.ExtractOrgRepoFromURL lib s = .error (.msg "invalid github URL")) := by
  have part1 : ∀ u,
      lib.giturlsParse (if strings.Count s "/" = 2 then "https://" ++ s else s) = .ok u →
      (strings.Split (strings.TrimLeading u.Path "/") "/").length < 2 →
      repoparser.ExtractOrgRepoFromURL lib s = .error (.msg "invalid github URL") := by
    intro u hparse hlen
    unfold repoparser.ExtractOrgRepoFromURL
    simp only [hparse]
    split
    · rename_i org repo tail heq
      rw [heq] at hlen
      simp only [List.length_cons] at hlen
      omega
    · rfl
  refine ⟨part1, ?_⟩
  intro hlib hslash hcolon
  have hcount : strings.Count s "/" ≠ 2 := by
    rw [strings.Count_slash, List.count_eq_zero.2 hslash]
    decide
  refine part1 (giturls.ParseLocal s) ?_ ?_
  · rw [if_neg hcount, hlib]
    exact giturls.Parse_local s hcolon
  · obtain ⟨l⟩ := s
    have hno : ∀ tail, l ≠ '/' :: tail := fun tail e => hslash (e ▸ List.mem_cons_self _ _)
    show (strings.Split (strings.TrimLeading ⟨l⟩ "/") "/").length < 2
    rw [strings.TrimLeading_none l hno, strings.Split_slash_one l hslash]
    exact Nat.lt_succ_self 1

/-- Witness of C18: `https://github.com/onlyorg` has a path of one part, and the bare name
`somerepo` holds no `/` and no `:`; both are refused. -/
theorem repoparser.ExtractOrgRepoFromURL_too_short_witness :
    repoparser.ExtractOrgRepoFromURL server.exampleLib "https://github.com/onlyorg" =
        .error (.msg "invalid github URL") ∧
      repoparser.ExtractOrgRepoFromURL server.exampleLib "somerepo" =
        .error (.msg "invalid github URL") :=
  ⟨(repoparser.ExtractOrgRepoFromURL_too_short server.exampleLib
      "https://github.com/onlyorg").1 ⟨"https", "github.com", "/onlyorg"⟩ (by rfl) (by decide),
    (repoparser.ExtractOrgRepoFromURL_too_short server.exampleLib "somerepo").2 rfl
      (by decide) (by decide)⟩

/-! ### What an accepted reference gives -/

/-- No part of a text split on a character holds that character. -/
theorem strings.splitGo_char_parts (c : Char) (l : List Char) :
    ∀ acc : List Char, c ∉ acc → ∀ p ∈ strings.splitGo [c] 0 acc l, c ∉ p := by
  induction l with
  | nil =>
    intro acc hacc p hp
    simp only [strings.splitGo, List.mem_singleton] at hp
    rw [hp]
    simpa using hacc
  | cons d rest ih =>
    intro acc hacc p hp
    rw [strings.splitGo] at hp
    by_cases hd : c = d
    · subst hd
      simp only [List.isPrefixOf, beq_self_eq_true, Bool.and_self, if_true, List.length_cons,
        List.length_nil, List.mem_cons] at hp
      rcases hp with hp | hp
      · rw [hp]
        simpa using hacc
      · exact ih [] (by simp) p hp
    · have hd2 : ¬ d = c := fun e => hd e.symm
      have hb : (c == d && true) = false := by simp [hd]
      simp only [List.isPrefixOf, hb, Bool.false_eq_true, if_false] at hp
      refine ih (d :: acc) ?_ p hp
      intro hm
      rcases List.mem_cons.1 hm with e | hm
      · exact hd e
      · exact hacc hm

/-- No part of `strings.Split(s, "/")` holds a slash. -/
theorem strings.Split_slash_parts (s p : String) (hp : p ∈ strings.Split s "/") :
    '/' ∉ p.data := by
  unfold strings.Split at hp
  obtain ⟨q, hq, rfl⟩ := List.mem_map.1 hp
  exact strings.splitGo_char_parts '/' s.data [] (by simp) q hq

/-- The characters of `strings.TrimSuffix(s, suffix)` are characters of `s`. -/
theorem strings.TrimSuffix_subset (s suffix : String) (c : Char)
    (h : c ∈ (strings.TrimSuffix s suffix).data) : c ∈ s.data := by
  unfold strings.TrimSuffix at h
  split at h
  · exact List.mem_of_mem_take h
  · exact h

/-- C14 (amended). For every input that `ExtractOrgRepoFromURL` accepts, whatever the git
URL parser is, the returned triple has a non-empty Host, and its Org and its Repo hold no
`/`. -/
theorem repoparser.ExtractOrgRepoFromURL_accepted (lib : Lib) (s : String)
    (R : repoparser.RepositoryName) (h : repoparser.ExtractOrgRepoFromURL lib s = .ok R) :
    R.Host ≠ "" ∧ '/' ∉ R.Org.data ∧ '/' ∉ R.Repo.data := by
  unfold repoparser.ExtractOrgRepoFromURL at h
  simp only at h
  split at h
  · cases h
  · rename_i prURL hparse
    split at h
    · rename_i org repo tail hsplit
      cases h
      have horg : org ∈ strings.Split (strings.TrimLeading prURL.Path "/") "/" := by
        rw [hsplit]; exact List.mem_cons_self _ _
      have hrepo : repo ∈ strings.Split (strings.TrimLeading prURL.Path "/") "/" := by
        rw [hsplit]; exact List.mem_cons_of_mem _ (List.mem_cons_self _ _)
      refine ⟨?_, strings.Split_slash_parts _ _ horg, ?_⟩
      · show (if prURL.Host = "" then "github.com" else prURL.Host) ≠ ""
        split
        · decide
        · assumption
      · intro hm
        exact strings.Split_slash_parts _ _ hrepo (strings.TrimSuffix_subset _ _ _ hm)
    · cases h

/-- Witness of C14: the plugin reference `github.com/myorg/fancy-buildkite-plugin#ab8c2e7`
is accepted. -/
theorem repoparser.ExtractOrgRepoFromURL_accepted_witness :
    (⟨"github.com", "myorg", "fancy-buildkite-plugin"⟩ : repoparser.RepositoryName).Host ≠ "" ∧
      '/' ∉ (⟨"github.com", "myorg", "fancy-buildkite-plugin"⟩ :
        repoparser.RepositoryName).Org.data ∧
      '/' ∉ (⟨"github.com", "myorg", "fancy-buildkite-plugin"⟩ :
        repoparser.RepositoryName).Repo.data :=
  repoparser.ExtractOrgRepoFromURL_accepted server.exampleLib
    "github.com/myorg/fancy-buildkite-plugin#ab8c2e7"
    ⟨"github.com", "myorg", "fancy-buildkite-plugin"⟩ (by rfl)

/-- C14 (counterexample). Four accepted inputs: `myorg/` gives an empty Repo,
`//myorg/somerepo` an empty Org, `myorg/somerepo.git.git` a Repo that ends with `.git`,
and `myorg/somerepo#v1` a Repo that holds the `#` reference. -/
theorem repoparser.ExtractOrgRepoFromURL_accepted_counterexample :
    repoparser.ExtractOrgRepoFromURL server.exampleLib "myorg/" =
        .ok ⟨"github.com", "myorg", ""⟩ ∧
      repoparser.ExtractOrgRepoFromURL server.exampleLib "//myorg/somerepo" =
        .ok ⟨"github.com", "", "myorg"⟩ ∧
      repoparser.ExtractOrgRepoFromURL server.exampleLib "myorg/somerepo.git.git" =
        .ok ⟨"github.com", "myorg", "somerepo.git"⟩ ∧
      repoparser.ExtractOrgRepoFromURL server.exampleLib "myorg/somerepo#v1" =
        .ok ⟨"github.com", "myorg", "somerepo#v1"⟩ :=
  ⟨by rfl, by rfl, by rfl, by rfl⟩

/-! ### Equality of triples -/

/-- C22. `Equals` is exact equality of the (host, org, repo) triple, and so an equivalence
relation: it is reflexive, symmetric and transitive. -/
theorem repoparser.Equals_equivalence (a b c : repoparser.RepositoryName) :
    (a.Equals b = true ↔ a = b) ∧ a.Equals a = true ∧
      (a.Equals b = true → b.Equals a = true) ∧
      (a.Equals b = true → b.Equals c = true → a.Equals c = true) := by
  have key : ∀ x y : repoparser.RepositoryName, x.Equals y = true ↔ x = y := by
    intro x y
    obtain ⟨xh, xo, xr⟩ := x
    obtain ⟨yh, yo, yr⟩ := y
    simp [repoparser.RepositoryName.Equals, and_assoc]
  refine ⟨key a b, (key a a).2 rfl, ?_, ?_⟩
  · intro h
    exact (key b a).2 ((key a b).1 h).symm
  · intro h1 h2
    exact (key a c).2 (((key a b).1 h1).trans ((key b c).1 h2))

/-- Witness of C22, on the triples of the test `all-match`. -/
theorem repoparser.Equals_equivalence_witness :
    repoparser.RepositoryName.Equals ⟨"github.com", "myorg", "somerepo"⟩
        ⟨"github.com", "myorg", "somerepo"⟩ = true ∧
      repoparser.RepositoryName.Equals ⟨"github.com", "myorg", "somerepo"⟩
        ⟨"github.com", "myorg", "somerepo"⟩ = true :=
  ⟨(repoparser.Equals_equivalence ⟨"github.com", "myorg", "somerepo"⟩
      ⟨"github.com", "myorg", "somerepo"⟩ ⟨"github.com", "myorg", "somerepo"⟩).2.2.1
      (by decide),
    (repoparser.Equals_equivalence ⟨"github.com", "myorg", "somerepo"⟩
      ⟨"github.com", "myorg", "somerepo"⟩ ⟨"github.com", "myorg", "somerepo"⟩).2.2.2
      (by decide) (by decide)⟩

/-! ### The manifest -/

/-- C23. For every manifest and every repository triple, `RepositoryPermitted` is true
exactly when some entry of the manifest's repositories matches the triple; a manifest
without repositories permits nothing, and the protected destinations have no influence. -/
theorem github.RepositoryPermitted_iff (lib : Lib) (g : github.GitOps)
    (src : repoparser.RepositoryName) :
    (g.RepositoryPermitted lib src = true ↔
        ∃ e ∈ g.Repositories, e.Matches lib src = true) ∧
      (g.Repositories = [] → g.RepositoryPermitted lib src = false) ∧
      (∀ pd : List String,
        github.GitOps.RepositoryPermitted lib { g with ProtectedDestinations := pd } src =
          g.RepositoryPermitted lib src) := by
  refine ⟨?_, ?_, ?_⟩
  · unfold github.GitOps.RepositoryPermitted
    rw [List.any_eq_true]
  · intro h
    unfold github.GitOps.RepositoryPermitted
    rw [h]
    rfl
  · intro pd
    rfl

/-- Witness of C23: a manifest that only names protected destinations permits nothing. -/
theorem github.RepositoryPermitted_iff_witness :
    github.GitOps.RepositoryPermitted server.exampleLibGlob
      { ProtectedDestinations := ["github.com/acme/infra"], Repositories := [] }
      { Host := "github.com", Org := "acme", Repo := "web" } = false :=
  (github.RepositoryPermitted_iff server.exampleLibGlob
    { ProtectedDestinations := ["github.com/acme/infra"], Repositories := [] }
    { Host := "github.com", Org := "acme", Repo := "web" }).2.1 rfl

/-- The loop over the repository strings fails exactly when one of them does not parse. -/
theorem repoparser.parseAll_error_iff (lib : Lib) (strs : List String) :
    (∃ err, repoparser.parseAll lib strs = .error err) ↔
      ∃ s ∈ strs, ∃ err, repoparser.ExtractOrgRepoFromURL lib s = .error err := by
  induction strs with
  | nil => simp [repoparser.parseAll]
  | cons s rest ih =>
    unfold repoparser.parseAll
    cases hs : repoparser.ExtractOrgRepoFromURL lib s with
    | error e =>
      simp only [List.mem_cons, exists_eq_or_imp]
      constructor
      · intro _
        exact Or.inl ⟨e, hs⟩
      · intro _
        exact ⟨_, rfl⟩
    | ok repo =>
      have hno : ¬ ∃ err, (Except.ok repo : Except Error repoparser.RepositoryName) =
          .error err := by
        intro h
        obtain ⟨_, h⟩ := h
        cases h
      simp only [List.mem_cons, exists_eq_or_imp, hs, hno, false_or]
      rw [← ih]
      cases hrest : repoparser.parseAll lib rest with
      | error e2 => exact ⟨fun _ => ⟨e2, rfl⟩, fun _ => ⟨e2, rfl⟩⟩
      | ok repos =>
        constructor
        · intro h
          obtain ⟨_, h⟩ := h
          cases h
        · intro h
          obtain ⟨_, h⟩ := h
          cases h

/-- C24. For every manifest that the YAML decoder accepts, with the strings `raw` as its
`repos` list: `GitOpsFromString` returns an error exactly when `ExtractOrgRepoFromURL`
rejects one of the strings, and when it succeeds the loaded repositories are the parses of
the strings, one for each, in the same order (and the protected destinations are those of
the document). -/
theorem github.GitOpsFromString_iff (lib : Lib) (contents : String) (raw : github.rawGitOps)
    (hraw : lib.yamlUnmarshal contents = .ok raw) :
    ((∃ err, github.GitOpsFromString lib contents = .error err) ↔
        ∃ s ∈ raw.Repositories, ∃ err, repoparser.ExtractOrgRepoFromURL lib s = .error err) ∧
      (∀ g, github.GitOpsFromString lib contents = .ok g →
        List.Forall₂ (fun s repo => repoparser.ExtractOrgRepoFromURL lib s = .ok repo)
            raw.Repositories g.Repositories ∧
          g.ProtectedDestinations = raw.ProtectedDestinations) := by
  unfold github.GitOpsFromString github.GitOps.UnmarshalYAML
  rw [hraw]
  simp only
  rw [← repoparser.parseAll_error_iff]
  cases hrepos : repoparser.parseAll lib raw.Repositories with
  | error e =>
    refine ⟨⟨fun _ => ⟨e, rfl⟩, fun _ => ⟨e, rfl⟩⟩, ?_⟩
    intro g hg
    cases hg
  | ok repos =>
    refine ⟨⟨?_, ?_⟩, ?_⟩
    · intro h
      obtain ⟨_, h⟩ := h
      cases h
    · intro h
      obtain ⟨_, h⟩ := h
      cases h
    · intro g hg
      simp only [Except.ok.injEq] at hg
      subst hg
      exact ⟨repoparser.parseAll_ok lib _ _ hrepos, rfl⟩

/-- Witness of C24: the manifest that lists `github.com/acme/web` loads with that one
repository. -/
theorem github.GitOpsFromString_iff_witness :
    List.Forall₂
        (fun s repo => repoparser.ExtractOrgRepoFromURL server.exampleLib s = .ok repo)
        ["github.com/acme/web"] [{ Host := "github.com", Org := "acme", Repo := "web" }] ∧
      ([] : List String) = [] :=
  (github.GitOpsFromString_iff server.exampleLib "repos:\n  - github.com/acme/web\n"
    { ProtectedDestinations := [], Repositories := ["github.com/acme/web"] } (by rfl)).2
    { ProtectedDestinations := [],
      Repositories := [{ Host := "github.com", Org := "acme", Repo := "web" }] } (by rfl)

/-- The pattern `*` compiles and matches every text. -/
theorem glob.Compile_star (other : String → Option (String → Bool)) :
    ∃ g, glob.Compile other "*" = some g ∧ ∀ text : String, g text = true := by
  refine ⟨fun text => glob.matchNodes [.any] text.data, rfl, ?_⟩
  intro text
  simp only [glob.matchNodes, List.any_eq_true]
  exact ⟨[], by simp, rfl⟩

/-- A name character is no special character of the glob library. -/
theorem repoparser.nameChar_not_special (c : Char) (h : repoparser.nameChar c = true) :
    glob.Special c = false := by
  have hne : ∀ d : Char, repoparser.nameChar d = false → c ≠ d := by
    intro d hd e
    rw [e, hd] at h
    exact absurd h (by decide)
  simp only [glob.Special, Bool.or_eq_false_iff, decide_eq_false_iff_not]
  exact ⟨⟨⟨⟨⟨⟨hne _ (by decide), hne _ (by decide)⟩, hne _ (by decide)⟩, hne _ (by decide)⟩,
    hne _ (by decide)⟩, hne _ (by decide)⟩, hne _ (by decide)⟩

/-- The pattern triple `(h, o, *)`, for an org without special characters, matches every
repository of the org `o` at the host `h`. -/
theorem repoparser.Matches_star (lib : Lib) (other : String → Option (String → Bool))
    (hglob : lib.globCompile = glob.Compile other) (h o r : String)
    (ho : ∀ c ∈ o.data, glob.Special c = false) :
    repoparser.RepositoryName.Matches lib ⟨h, o, "*"⟩ ⟨h, o, r⟩ = true := by
  obtain ⟨g1, hg1, hm1⟩ := glob.Compile_literal other o ho
  obtain ⟨g2, hg2, hm2⟩ := glob.Compile_star other
  unfold repoparser.RepositoryName.Matches
  simp only [hglob, hg1, hg2, hm1, hm2]
  simp

/-- Every string of a list that is parsed entry by entry has its parse in the result. -/
theorem repoparser.parsed_mem (lib : Lib) (strs : List String)
    (repos : List repoparser.RepositoryName)
    (h : List.Forall₂ (fun s repo => repoparser.ExtractOrgRepoFromURL lib s = .ok repo)
      strs repos) (s : String) (hs : s ∈ strs) :
    ∃ repo ∈ repos, repoparser.ExtractOrgRepoFromURL lib s = .ok repo := by
  induction h with
  | nil => simp at hs
  | cons hab _ ih =>
    rcases List.mem_cons.1 hs with e | hs
    · subst e
      exact ⟨_, List.mem_cons_self _ _, hab⟩
    · obtain ⟨repo, hmem, hrepo⟩ := ih hs
      exact ⟨repo, List.mem_cons_of_mem _ hmem, hrepo⟩

/-- C21 (amended). A manifest that lists the entry `o/*`, for a non-empty org `o` of
letters, digits and hyphens, and that `GitOpsFromString` loads, permits every pipeline
repository `(github.com, o, r)`: an entry without host is an entry for `github.com`,
whatever the host of the destination is. A manifest that lists `h/o/*`, for a non-empty
host `h` of letters, digits, dots and hyphens, permits every `(h, o, r)`. Git URLs are
parsed by the model of `giturls.Parse` and patterns compiled by the model of
`glob.Compile`. -/
theorem github.RepositoryPermitted_wildcard (lib : Lib)
    (other : String → Option (String → Bool))
    (hparse : lib.giturlsParse = giturls.Parse) (hglob : lib.globCompile = glob.Compile other)
    (contents : String) (raw : github.rawGitOps) (g : github.GitOps)
    (hraw : lib.yamlUnmarshal contents = .ok raw)
    (hg : github.GitOpsFromString lib contents = .ok g)
    (h o r : String) (hone : o ≠ "") (ho : ∀ c ∈ o.data, repoparser.nameChar c = true) :
    (o ++ "/*" ∈ raw.Repositories →
        g.RepositoryPermitted lib ⟨"github.com", o, r⟩ = true) ∧
      (h ≠ "" → (∀ c ∈ h.data, repoparser.hostChar c = true) →
        h ++ "/" ++ o ++ "/*" ∈ raw.Repositories →
        g.RepositoryPermitted lib ⟨h, o, r⟩ = true) := by
  have hall : List.Forall₂
      (fun s repo => repoparser.ExtractOrgRepoFromURL lib s = .ok repo)
      raw.Repositories g.Repositories := by
    unfold github.GitOpsFromString github.GitOps.UnmarshalYAML at hg
    rw [hraw] at hg
    simp only at hg
    cases hrepos : repoparser.parseAll lib raw.Repositories with
    | error e => rw [hrepos] at hg; cases hg
    | ok repos =>
      rw [hrepos] at hg
      simp only [Except.ok.injEq] at hg
      subst hg
      exact repoparser.parseAll_ok lib _ _ hrepos
  have hspecial : ∀ c ∈ o.data, glob.Special c = false :=
    fun c hc => repoparser.nameChar_not_special c (ho c hc)
  obtain ⟨ol⟩ := o
  simp only at ho
  have hone2 : ol ≠ [] := fun e => hone (congrArg String.mk e)
  have hos : '/' ∉ ol := fun hm => (repoparser.nameChar_facts _ (ho _ hm)).2.2.2.2.2 rfl
  have hoc : ':' ∉ ol := fun hm => (repoparser.nameChar_facts _ (ho _ hm)).2.2.2.2.1 rfl
  have hop : ∀ c ∈ ol, repoparser.pathChar c = true :=
    fun c hc => (repoparser.nameChar_facts c (ho c hc)).2.1
  have hstar : strings.TrimSuffix ⟨['*']⟩ (filepath.Ext ⟨['*']⟩) = "*" := by decide
  constructor
  · intro hmem
    obtain ⟨repo, hrepo, hparsed⟩ := repoparser.parsed_mem lib _ _ hall _ hmem
    have e1 := repoparser.Extract_local_form lib hparse ol ['*'] hone2 hos (by decide) hoc
      (by decide)
    rw [hstar] at e1
    have e2 : (⟨ol⟩ : String) ++ "/*" = ⟨ol ++ '/' :: ['*']⟩ := String.ext (by simp)
    rw [e2, e1] at hparsed
    simp only [Except.ok.injEq] at hparsed
    unfold github.GitOps.RepositoryPermitted
    rw [List.any_eq_true]
    exact ⟨repo, hrepo, by
      rw [← hparsed]
      exact repoparser.Matches_star lib other hglob "github.com" ⟨ol⟩ r hspecial⟩
  · intro hne hh hmem
    obtain ⟨hl⟩ := h
    simp only at hh
    have hne2 : hl ≠ [] := fun e => hne (congrArg String.mk e)
    obtain ⟨repo, hrepo, hparsed⟩ := repoparser.parsed_mem lib _ _ hall _ hmem
    have e1 := repoparser.Extract_bare_form lib hparse hl ol ['*'] [] hne2 hh hop (by decide)
      (Or.inl rfl)
    rw [hstar] at e1
    have e2 : (⟨hl⟩ : String) ++ "/" ++ ⟨ol⟩ ++ "/*" = ⟨(hl ++ '/' :: (ol ++ '/' :: ['*'])) ++ []⟩ :=
      String.ext (by simp)
    rw [e2, e1] at hparsed
    simp only [Except.ok.injEq] at hparsed
    unfold github.GitOps.RepositoryPermitted
    rw [List.any_eq_true]
    exact ⟨repo, hrepo, by
      rw [← hparsed]
      exact repoparser.Matches_star lib other hglob ⟨hl⟩ ⟨ol⟩ r hspecial⟩

/-- Witness of C21: the manifest that lists `myorg/*` permits `github.com/myorg/app`. -/
theorem github.RepositoryPermitted_wildcard_witness :
    github.GitOps.RepositoryPermitted server.exampleLibWildcard
      { ProtectedDestinations := [],
        Repositories := [{ Host := "github.com", Org := "myorg", Repo := "*" }] }
      { Host := "github.com", Org := "myorg", Repo := "app" } = true :=
  (github.RepositoryPermitted_wildcard server.exampleLibWildcard (fun _ => none) rfl rfl
    server.manifestWildcard { ProtectedDestinations := [], Repositories := ["myorg/*"] }
    { ProtectedDestinations := [],
      Repositories := [{ Host := "github.com", Org := "myorg", Repo := "*" }] }
    (by rfl) (by rfl) "github.com" "myorg" "app" (by decide) (by decide)).1 (by decide)

/-- C21 (counterexample). The manifest of a destination on the host `ghes.mycompany.com`
lists `myorg/*`: it loads with the one entry `(github.com, myorg, *)`, and the pipeline
repository `(ghes.mycompany.com, myorg, app)`, in `myorg` at the host of the destination,
is not permitted. -/
theorem github.RepositoryPermitted_wildcard_counterexample :
    github.GitOpsFromString server.exampleLibWildcard server.manifestWildcard =
        .ok { ProtectedDestinations := [],
              Repositories := [{ Host := "github.com", Org := "myorg", Repo := "*" }] } ∧
      github.GitOps.RepositoryPermitted server.exampleLibWildcard
        { ProtectedDestinations := [],
          Repositories := [{ Host := "github.com", Org := "myorg", Repo := "*" }] }
        { Host := "ghes.mycompany.com", Org := "myorg", Repo := "app" } = false :=
  ⟨by rfl, by rfl⟩

/-! ### The cache of organisation clients -/

/-- Every client that `newOrgClient` stores has the installation ID 0: the composite
literal of the source sets `Client` and `ExpiresAt` only. -/
theorem github.newOrgClient_stores_zero {σ : Type} (w : World σ) (c : github.Client)
    (org : String) (installationID : Int) (env : Env σ) (handle : github.OrgHandle)
    (id : Int) (c1 : github.Client) (env1 : Env σ)
    (h : github.Client.newOrgClient w c org installationID env = (.ok (handle, id), c1, env1)) :
    ∃ val, c1.OrgClients org = some val ∧ val.InstallationID = 0 ∧ val.Client = handle := by
  unfold github.Client.newOrgClient at h
  simp only at h
  split at h
  · cases h
  · split at h
    · cases h
    · next token _ =>
      simp only [Prod.mk.injEq, Except.ok.injEq] at h
      obtain ⟨⟨h1, _⟩, h2, _⟩ := h
      subst h2
      exact ⟨{ ExpiresAt := token.ExpiresAt, Client := { AccessToken := token.Token },
               InstallationID := 0 }, by simp [github.mapSet], rfl, h1⟩

/-- C25, at a failing input. On the empty cache of the example deployment, `ClientForOrg`
for `acme` resolves the installation 42 and stores a client whose installation ID is 0.
The next call, a cache hit, returns the installation ID 0. Two hours later the entry has
expired, and the call asks the Forge for the installation of `acme` again before it mints
the new token. -/
theorem github.ClientForOrg_forgets_installation :
    (github.Client.ClientForOrg (server.exampleWorld server.notFound) github.freshClient
        "acme" server.exampleEnv).1 = .ok ({ AccessToken := "ghs_example" }, 42) ∧
      (github.Client.ClientForOrg (server.exampleWorld server.notFound) github.freshClient
        "acme" server.exampleEnv).2.1.OrgClients "acme" =
        some { ExpiresAt := 1700003600 * github.Second,
               Client := { AccessToken := "ghs_example" }, InstallationID := 0 } ∧
      (github.Client.ClientForOrg (server.exampleWorld server.notFound)
        (github.Client.ClientForOrg (server.exampleWorld server.notFound) github.freshClient
          "acme" server.exampleEnv).2.1 "acme" server.exampleEnv).1 =
        .ok ({ AccessToken := "ghs_example" }, 0) ∧
      (github.Client.ClientForOrg server.laterWorld
        (github.Client.ClientForOrg (server.exampleWorld server.notFound) github.freshClient
          "acme" server.exampleEnv).2.1 "acme" server.exampleEnv).2.2.trace =
        [.findOrganizationInstallation "github.com" "acme",
         .createInstallationToken "github.com" 42
           { Repositories := [],
             Permissions :=
               { Metadata := some "read", Contents := some "read", PullRequests := none } }] :=
  ⟨by rfl, by rfl, by rfl, by rfl⟩

/-- A call of `newOrgClient` that fails leaves the cache as it was. -/
theorem github.newOrgClient_error_client {σ : Type} (w : World σ) (c : github.Client)
    (org : String) (installationID : Int) (env : Env σ) (e : Error)
    (h : (github.Client.newOrgClient w c org installationID env).1 = .error e) :
    (github.Client.newOrgClient w c org installationID env).2.1 = c := by
  unfold github.Client.newOrgClient at h ⊢
  simp only at h ⊢
  split
  · rfl
  · split
    · rfl
    · next found id env1 heq x token htoken =>
      rw [heq] at h
      simp only [htoken] at h
      cases h

/-- C28. Whatever the cache holds and whatever the Forge answers, `ClientForOrg` reads the
map `OrgClients` first, takes no lock at all, and so does not keep the discipline of a
readers-writer lock; a call that finds no entry and mints a token inserts into the map
with no lock held. Two handlers that run it in parallel therefore read and change the map
without synchronization. -/
theorem github.ClientForOrg_unguarded {σ : Type} (w : World σ) (c : github.Client)
    (org : String) (env : Env σ) :
    (github.Client.cacheOps w c org env).head? = some (.read org) ∧
      (∀ op ∈ github.Client.cacheOps w c org env, op.isLock = false) ∧
      github.guarded .free (github.Client.cacheOps w c org env) = false ∧
      ((github.Client.ClientForOrg w c org env).2.1.OrgClients org ≠ c.OrgClients org →
        ∃ op ∈ github.Client.cacheOps w c org env, op.isWrite = true) := by
  unfold github.Client.cacheOps
  cases hc : c.OrgClients org with
  | none =>
    simp only
    cases hnew : (github.Client.newOrgClient w c org 0 env).1 with
    | ok r =>
      refine ⟨rfl, ?_, rfl, fun _ => ⟨.insert org, by simp, rfl⟩⟩
      intro op hop
      simp only [List.mem_cons, List.mem_singleton, List.not_mem_nil, or_false] at hop
      rcases hop with rfl | rfl | rfl <;> rfl
    | error e =>
      refine ⟨rfl, ?_, rfl, ?_⟩
      · intro op hop
        simp only [List.mem_singleton] at hop
        subst hop
        rfl
      · intro hne
        exfalso
        apply hne
        unfold github.Client.ClientForOrg
        rw [hc]
        simp only
        rw [github.newOrgClient_error_client w c org 0 env e hnew]
        exact hc
  | some val =>
    simp only
    split
    · refine ⟨rfl, ?_, rfl, ?_⟩
      · intro op hop
        simp only [List.mem_singleton] at hop
        subst hop
        rfl
      · intro hne
        exfalso
        apply hne
        unfold github.Client.ClientForOrg
        rw [hc]
        simp only
        rw [if_pos (by assumption)]
        exact hc
    · split
      · refine ⟨rfl, ?_, rfl, fun _ => ⟨.delete org, by simp, rfl⟩⟩
        intro op hop
        simp only [List.mem_cons, List.mem_singleton, List.not_mem_nil, or_false] at hop
        rcases hop with rfl | rfl | rfl | rfl <;> rfl
      · refine ⟨rfl, ?_, rfl, fun _ => ⟨.delete org, by simp, rfl⟩⟩
        intro op hop
        simp only [List.mem_cons, List.mem_singleton, List.not_mem_nil, or_false] at hop
        rcases hop with rfl | rfl <;> rfl

/-- Witness of C28: on the empty cache of the example deployment the call for `acme`
changes the entry of `acme`, by an insert with no lock held. -/
theorem github.ClientForOrg_unguarded_witness :
    github.Client.cacheOps (server.exampleWorld server.notFound) github.freshClient "acme"
        server.exampleEnv = [.read "acme", .insert "acme", .read "acme"] ∧
      ∃ op ∈ github.Client.cacheOps (server.exampleWorld server.notFound) github.freshClient
        "acme" server.exampleEnv, op.isWrite = true :=
  ⟨by rfl,
    (github.ClientForOrg_unguarded (server.exampleWorld server.notFound) github.freshClient
      "acme" server.exampleEnv).2.2.2 (by
        intro h
        have h2 : (github.Client.ClientForOrg (server.exampleWorld server.notFound)
            github.freshClient "acme" server.exampleEnv).2.1.OrgClients "acme" =
            some { ExpiresAt := 1700003600 * github.Second,
                   Client := { AccessToken := "ghs_example" }, InstallationID := 0 } := by rfl
        rw [h2] at h
        exact absurd h (by decide))⟩

/-! ### The git-credential input and output -/

/-- The text has a part after the separator exactly when the separator occurs. -/
theorem url.cut_snd_isSome (sep : Char) (l : List Char) :
    (url.cut sep l).2.isSome = true ↔ sep ∈ l := by
  induction l with
  | nil => simp [url.cut]
  | cons c rest ih =>
    unfold url.cut
    by_cases hc : c = sep
    · simp [hc]
    · have hc2 : ¬ sep = c := fun e => hc e.symm
      simp [hc, hc2, ih]

/-- The last element of a list with a head: the last of the tail, or the head. -/
theorem strings.getLast?_cons {α : Type} (a : α) (xs : List α) :
    (a :: xs).getLast? = some (xs.getLast?.getD a) := by
  induction xs generalizing a with
  | nil => rfl
  | cons b ys ih =>
    rw [List.getLast?_cons_cons, ih b]
    simp only [ih b, Option.getD_some]

/-- The loop of `ReadInput` succeeds exactly when every line it is given fits the buffer of
the scanner and holds an `=`. -/
theorem gitcredentials.readLoop_ok_iff (ls : List (List Char)) :
    ∀ opts : gitcredentials.GitCredentialOptions,
      (∃ o, gitcredentials.readLoop opts ls = .ok o) ↔
        (∀ raw ∈ ls, bufio.byteLen raw < bufio.MaxScanTokenSize) ∧
          (∀ raw ∈ ls, '=' ∈ bufio.dropCR raw) := by
  induction ls with
  | nil =>
    intro opts
    simp [gitcredentials.readLoop]
  | cons raw rest ih =>
    intro opts
    unfold gitcredentials.readLoop
    by_cases hlong : bufio.MaxScanTokenSize ≤ bufio.byteLen raw
    · simp only [hlong, if_true, List.mem_cons, forall_eq_or_imp]
      constructor
      · intro h
        obtain ⟨_, h⟩ := h
        cases h
      · intro h
        omega
    · simp only [hlong, if_false, List.mem_cons, forall_eq_or_imp]
      have hshort : bufio.byteLen raw < bufio.MaxScanTokenSize := by omega
      cases hcut : url.cut '=' (bufio.dropCR raw) with
      | mk key value =>
        have hsome := url.cut_snd_isSome '=' (bufio.dropCR raw)
        rw [hcut] at hsome
        cases value with
        | none =>
          simp only [Option.isSome_none, Bool.false_eq_true, false_iff] at hsome
          constructor
          · intro h
            obtain ⟨_, h⟩ := h
            cases h
          · intro h
            exact absurd h.2.1 hsome
        | some v =>
          simp only [Option.isSome_some, true_iff] at hsome
          simp only
          rw [ih]
          constructor
          · intro h
            exact ⟨⟨hshort, h.1⟩, hsome, h.2⟩
          · intro h
            exact ⟨h.1.2, h.2.2⟩

/-- The field that a key names, after the loop of `ReadInput`: the text after the first
`=` of the last line that carries the key, or the field as it was before the loop. Here
`proj` is a field that `setField` sets for the key `key` and for no other. -/
theorem gitcredentials.readLoop_field (proj : gitcredentials.GitCredentialOptions → String)
    (key : String)
    (hset : ∀ opts k v, proj (gitcredentials.setField opts k v) =
      if k = key then v else proj opts)
    (ls : List (List Char)) :
    ∀ opts o : gitcredentials.GitCredentialOptions, gitcredentials.readLoop opts ls = .ok o →
      proj o =
        match ((ls.map bufio.dropCR).filter (fun l => decide ((url.cut '=' l).1 = key.data) &&
          (url.cut '=' l).2.isSome)).getLast? with
        | some l => ⟨(url.cut '=' l).2.getD []⟩
        | none => proj opts := by
  induction ls with
  | nil =>
    intro opts o h
    simp only [gitcredentials.readLoop, Except.ok.injEq] at h
    subst h
    rfl
  | cons raw rest ih =>
    intro opts o h
    unfold gitcredentials.readLoop at h
    split at h
    · cases h
    · simp only at h
      cases hcut : url.cut '=' (bufio.dropCR raw) with
      | mk k value =>
        rw [hcut] at h
        cases value with
        | none => cases h
        | some v =>
          simp only at h
          have hrec := ih _ o h
          rw [hrec, hset]
          simp only [List.map_cons, List.filter_cons, hcut, Option.isSome_some, Bool.and_true]
          by_cases hk : k = key.data
          · have hk2 : (⟨k⟩ : String) = key := String.ext hk
            simp only [hk, decide_True, if_true, hk2, strings.getLast?_cons]
            cases hlast : (List.filter (fun l => decide ((url.cut '=' l).1 = key.data) &&
                (url.cut '=' l).2.isSome) (List.map bufio.dropCR rest)).getLast? with
            | none => simp [hcut]
            | some l => simp
          · have hk2 : ¬ (⟨k⟩ : String) = key := fun e => hk (congrArg String.data e)
            simp only [hk, decide_False, hk2, if_false]
            rfl

/-- C26 (amended). `ReadInput` succeeds exactly when every line of the stream, measured as
the text up to its newline with a final carriage return counted, is shorter than 65536
bytes (the buffer of the scanner), and every line, its final carriage return dropped,
holds an `=`. On success each of the fields protocol, host, path, username and password is
the text after the first `=` of the last line (carriage return dropped) that carries its
key, empty if no line carries it; lines with another key change no field. -/
theorem gitcredentials.ReadInput_spec (input : String) :
    ((∃ opts, gitcredentials.ReadInput input = .ok opts) ↔
        (∀ raw ∈ bufio.rawLines input.data [], bufio.byteLen raw < bufio.MaxScanTokenSize) ∧
          (∀ l ∈ gitcredentials.lines input, '=' ∈ l)) ∧
      (∀ opts, gitcredentials.ReadInput input = .ok opts →
        opts.Protocol = gitcredentials.lastValue "protocol" (gitcredentials.lines input) ∧
        opts.Host = gitcredentials.lastValue "host" (gitcredentials.lines input) ∧
        opts.Path = gitcredentials.lastValue "path" (gitcredentials.lines input) ∧
        opts.Username = gitcredentials.lastValue "username" (gitcredentials.lines input) ∧
        opts.Password = gitcredentials.lastValue "password" (gitcredentials.lines input)) := by
  constructor
  · unfold gitcredentials.ReadInput gitcredentials.lines
    rw [gitcredentials.readLoop_ok_iff]
    simp only [List.mem_map, forall_exists_index, and_imp, forall_apply_eq_imp_iff₂]
  · intro opts h
    unfold gitcredentials.ReadInput at h
    unfold gitcredentials.lastValue gitcredentials.lines
    refine ⟨?_, ?_, ?_, ?_, ?_⟩
    · exact gitcredentials.readLoop_field (fun o => o.Protocol) "protocol"
        (by intro o k v; unfold gitcredentials.setField; split_ifs <;> simp_all) _ _ _ h
    · exact gitcredentials.readLoop_field (fun o => o.Host) "host"
        (by intro o k v; unfold gitcredentials.setField; split_ifs <;> simp_all) _ _ _ h
    · exact gitcredentials.readLoop_field (fun o => o.Path) "path"
        (by intro o k v; unfold gitcredentials.setField; split_ifs <;> simp_all) _ _ _ h
    · exact gitcredentials.readLoop_field (fun o => o.Username) "username"
        (by intro o k v; unfold gitcredentials.setField; split_ifs <;> simp_all) _ _ _ h
    · exact gitcredentials.readLoop_field (fun o => o.Password) "password"
        (by intro o k v; unfold gitcredentials.setField; split_ifs <;> simp_all) _ _ _ h

/-- Witness of C26, on the input of the test `happyPath`: the last values of the five keys
are the fields that `ReadInput` returns. -/
theorem gitcredentials.ReadInput_spec_witness :
    gitcredentials.lastValue "protocol" (gitcredentials.lines
        "host=github.com\npath=myorg/foorepo.git\nprotocol=https\nusername=foo\npassword=bar\n") =
        "https" ∧
      gitcredentials.lastValue "host" (gitcredentials.lines
        "host=github.com\npath=myorg/foorepo.git\nprotocol=https\nusername=foo\npassword=bar\n") =
        "github.com" ∧
      gitcredentials.lastValue "path" (gitcredentials.lines
        "host=github.com\npath=myorg/foorepo.git\nprotocol=https\nusername=foo\npassword=bar\n") =
        "myorg/foorepo.git" :=
  have h := (gitcredentials.ReadInput_spec
    "host=github.com\npath=myorg/foorepo.git\nprotocol=https\nusername=foo\npassword=bar\n").2
    { Protocol := "https", Host := "github.com", Path := "myorg/foorepo.git",
      Username := "foo", Password := "bar" } (by rfl)
  ⟨h.1.symm, h.2.1.symm, h.2.2.1.symm⟩

/-- The lines before and after a newline. -/
theorem bufio.rawLines_append (l rest : List Char) (h : '\n' ∉ l) :
    ∀ acc : List Char,
      bufio.rawLines (l ++ '\n' :: rest) acc = (acc.reverse ++ l) :: bufio.rawLines rest [] := by
  induction l with
  | nil =>
    intro acc
    simp [bufio.rawLines]
  | cons c tail ih =>
    intro acc
    have hc : c ≠ '\n' := fun e => h (e ▸ List.mem_cons_self _ _)
    have ht : '\n' ∉ tail := fun e => h (List.mem_cons_of_mem _ e)
    rw [List.cons_append, bufio.rawLines]
    simp [hc, ih ht]

/-- The length in bytes of a text in two parts. -/
theorem bufio.byteLen_append (a b : List Char) :
    bufio.byteLen (a ++ b) = bufio.byteLen a + bufio.byteLen b := by
  simp [bufio.byteLen]

/-- The length in bytes of a run of the letter `a`. -/
theorem bufio.byteLen_replicate (n : Nat) : bufio.byteLen (List.replicate n 'a') = n := by
  induction n with
  | zero => rfl
  | succ k ih =>
    have h1 : Char.utf8Size 'a' = 1 := by decide
    rw [List.replicate_succ]
    simp only [bufio.byteLen, List.map_cons, List.sum_cons, h1] at ih ⊢
    omega

/-- A line keeps its `=` when a final carriage return is dropped. -/
theorem bufio.dropCR_mem (l : List Char) (h : '=' ∈ l) : '=' ∈ bufio.dropCR l := by
  unfold bufio.dropCR
  split
  · next hlast =>
    have := List.dropLast_append_getLast? '\r' (by rw [hlast]; rfl)
    rw [← this] at h
    rcases List.mem_append.1 h with h | h
    · exact h
    · simp at h
  · exact h

/-- A stream of one line that holds an `=` and is too long for the scanner: every line
holds an `=`, and `ReadInput` returns the error of the scanner. -/
theorem gitcredentials.ReadInput_too_long (pre : List Char) (n : Nat)
    (hn : bufio.MaxScanTokenSize ≤ n) (hpre : '\n' ∉ pre) (heq : '=' ∈ pre) :
    (∀ l ∈ gitcredentials.lines ⟨pre ++ List.replicate n 'a' ++ ['\n']⟩, '=' ∈ l) ∧
      gitcredentials.ReadInput ⟨pre ++ List.replicate n 'a' ++ ['\n']⟩ =
        .error (.msg "failed to read gitcredential format: bufio.Scanner: token too long") := by
  have hnl : '\n' ∉ pre ++ List.replicate n 'a' := by
    intro hm
    rcases List.mem_append.1 hm with hm | hm
    · exact hpre hm
    · exact absurd (List.eq_of_mem_replicate hm) (by decide)
  have hlines : bufio.rawLines (pre ++ List.replicate n 'a' ++ ['\n']) [] =
      [pre ++ List.replicate n 'a'] := by
    rw [bufio.rawLines_append _ [] hnl []]
    rfl
  constructor
  · intro l hl
    unfold gitcredentials.lines at hl
    rw [hlines] at hl
    simp only [List.map_cons, List.map_nil, List.mem_singleton] at hl
    rw [hl]
    exact bufio.dropCR_mem _ (List.mem_append_left _ heq)
  · unfold gitcredentials.ReadInput
    rw [hlines]
    unfold gitcredentials.readLoop
    have hlen : bufio.MaxScanTokenSize ≤ bufio.byteLen (pre ++ List.replicate n 'a') := by
      rw [bufio.byteLen_append, bufio.byteLen_replicate]
      omega
    rw [if_pos hlen]

/-- C26 (counterexample). The stream of the one line `password=` followed by 65536 letters
`a`: every line holds an `=`, and `ReadInput` returns an error, the line being too long
for the buffer of the scanner. -/
theorem gitcredentials.ReadInput_long_line_counterexample :
    (∀ l ∈ gitcredentials.lines ⟨"password=".data ++ List.replicate 65536 'a' ++ ['\n']⟩,
        '=' ∈ l) ∧
      gitcredentials.ReadInput ⟨"password=".data ++ List.replicate 65536 'a' ++ ['\n']⟩ =
        .error (.msg "failed to read gitcredential format: bufio.Scanner: token too long") :=
  gitcredentials.ReadInput_too_long "password=".data 65536 (by decide) (by decide) (by decide)

/-- C27. For every response, `SendOutput` writes `username=u`, a newline, `password=p`, a
newline, and then `quit=true` and a newline when `Quit` is set, nothing otherwise. Every
run of the credential helper that writes anything to standard output ends with status 0
and has written exactly `username=x-access-token`, `password=t` and `quit=true`, each
followed by a newline, for the token `t` that `GetToken` returned. -/
theorem gitcredentials.SendOutput_text :
    (∀ resp : gitcredentials.GitCredentialResponse,
        gitcredentials.SendOutput resp =
          "username=" ++ resp.Username ++ "\npassword=" ++ resp.Password ++ "\n" ++
            (if resp.Quit then "quit=true\n" else "")) ∧
      (∀ (lib : Lib) (d : client.Deps) (stdin : String) (run : gitcredentials.Run),
        gitcredentials.issueGitHubToken lib d stdin = some run →
          (run.stdout = "" ∧ run.exit = 1) ∨
            ∃ req resp,
              client.Client.GetToken d { ServerURL := "http://localhost:8080" } req =
                { resp := some resp, httpErr := none, err := none } ∧
              run.exit = 0 ∧
              run.stdout = "username=x-access-token\npassword=" ++ resp.Token ++
                "\nquit=true\n") := by
  have hsend : ∀ resp : gitcredentials.GitCredentialResponse,
      gitcredentials.SendOutput resp =
        "username=" ++ resp.Username ++ "\npassword=" ++ resp.Password ++ "\n" ++
          (if resp.Quit then "quit=true\n" else "") := by
    intro resp
    obtain ⟨u, p, q⟩ := resp
    unfold gitcredentials.SendOutput
    cases q
    · apply String.ext
      simp [String.data_append]
    · apply String.ext
      simp [String.data_append]
  refine ⟨hsend, ?_⟩
  intro lib d stdin run h
  unfold gitcredentials.issueGitHubToken at h
  split at h
  · simp only [Option.some.injEq] at h
    subst h
    exact Or.inl ⟨rfl, rfl⟩
  · split_ifs at h
    · simp only [Option.some.injEq] at h; subst h; exact Or.inl ⟨rfl, rfl⟩
    · simp only [Option.some.injEq] at h; subst h; exact Or.inl ⟨rfl, rfl⟩
    · simp only [Option.some.injEq] at h; subst h; exact Or.inl ⟨rfl, rfl⟩
    · simp only at h
      split at h
      · simp only [Option.some.injEq] at h; subst h; exact Or.inl ⟨rfl, rfl⟩
      · next repo _ =>
        split at h
        · simp only [Option.some.injEq] at h; subst h; exact Or.inl ⟨rfl, rfl⟩
        · next herr =>
          split at h
          · cases h
          · next resp hresp =>
            simp only [Option.some.injEq] at h
            subst h
            refine Or.inr ⟨{ Repositories := [repo], AccessLevel := "write" }, resp, ?_, rfl, ?_⟩
            · have hhttp : (client.Client.GetToken d { ServerURL := "http://localhost:8080" }
                  { Repositories := [repo], AccessLevel := "write" }).httpErr = none := by
                revert herr
                unfold client.Client.GetToken
                repeat' split
                all_goals simp
              generalize client.Client.GetToken d { ServerURL := "http://localhost:8080" }
                { Repositories := [repo], AccessLevel := "write" } = r at herr hresp hhttp
              obtain ⟨r1, r2, r3⟩ := r
              simp only at herr hresp hhttp
              rw [herr, hresp, hhttp]
            · rw [hsend]
              apply String.ext
              simp [String.data_append]

/-- Witness of C27: the output of the test `WithQuit`, and the run of the credential helper
for `https://github.com/myorg/foorepo.git` when the token server grants `ghs_example`. -/
theorem gitcredentials.SendOutput_text_witness :
    gitcredentials.SendOutput { Username := "foo", Password := "bar", Quit := true } =
        "username=foo\npassword=bar\nquit=true\n" ∧
      gitcredentials.issueGitHubToken server.exampleLib (client.exampleDeps client.granted)
          "host=github.com\npath=myorg/foorepo.git\nprotocol=https\n" =
        some { stdout := "username=x-access-token\npassword=ghs_example\nquit=true\n",
               exit := 0 } ∧
      (("username=x-access-token\npassword=ghs_example\nquit=true\n" = "" ∧ 0 = 1) ∨
        ∃ req resp,
          client.Client.GetToken (client.exampleDeps client.granted)
              { ServerURL := "http://localhost:8080" } req =
            { resp := some resp, httpErr := none, err := none } ∧
          0 = 0 ∧
          "username=x-access-token\npassword=ghs_example\nquit=true\n" =
            "username=x-access-token\npassword=" ++ resp.Token ++ "\nquit=true\n") :=
  ⟨(gitcredentials.SendOutput_text.1 { Username := "foo", Password := "bar", Quit := true }).trans
      (by decide),
    by rfl,
    gitcredentials.SendOutput_text.2 server.exampleLib (client.exampleDeps client.granted)
      "host=github.com\npath=myorg/foorepo.git\nprotocol=https\n"
      { stdout := "username=x-access-token\npassword=ghs_example\nquit=true\n", exit := 0 }
      (by rfl)⟩

/-! ### The extension of the repository segment -/

/-- C29, at failing inputs. `ExtractOrgRepoFromURL` removes whatever `filepath.Ext` finds,
not only `.git`: `github.com/myorg/my.repo` gives the repo `my`, the reference
`github.com/myorg/.github` gives an empty repo, and `git@github.com:myorg/service-1.2`
gives `service-1`; with `.git` at the end the name keeps its dot. -/
theorem repoparser.ExtractOrgRepoFromURL_strips_extension :
    repoparser.ExtractOrgRepoFromURL server.exampleLib "github.com/myorg/my.repo" =
        .ok ⟨"github.com", "myorg", "my"⟩ ∧
      repoparser.ExtractOrgRepoFromURL server.exampleLib "github.com/myorg/.github" =
        .ok ⟨"github.com", "myorg", ""⟩ ∧
      repoparser.ExtractOrgRepoFromURL server.exampleLib "git@github.com:myorg/service-1.2" =
        .ok ⟨"github.com", "myorg", "service-1"⟩ ∧
      repoparser.ExtractOrgRepoFromURL server.exampleLib "github.com/myorg/my.repo.git" =
        .ok ⟨"github.com", "myorg", "my.repo"⟩ :=
  ⟨by rfl, by rfl, by rfl, by rfl⟩

/-! ### The client of the token server -/

/-- C30. For every response of the token server with a status outside 200..299 (whose body
could be read), `GetToken` returns no token response and an error; it returns no
`HTTPError` when the body decodes as one, and returns the value left by the decoder when
the decoding fails. -/
theorem client.GetToken_error_response (d : client.Deps) (c : client.Client)
    (req : api.TokenRequest) (jsonBody token body : String) (response : client.Response)
    (hmarshal : d.jsonMarshal req = .ok jsonBody)
    (hreq : d.newRequest "POST" (c.ServerURL ++ "/token") = .ok ())
    (htoken : d.tokenGetter = .ok token)
    (hdo : d.httpDo (c.ServerURL ++ "/token") ("Bearer " ++ token) jsonBody = .ok response)
    (hbody : response.Body = .ok body)
    (hstatus : response.StatusCode < 200 ∨ response.StatusCode ≥ 300) :
    (client.Client.GetToken d c req).resp = none ∧
      (client.Client.GetToken d c req).err ≠ none ∧
      ((d.unmarshalHTTPError body).2 = none →
        (client.Client.GetToken d c req).httpErr = none) ∧
      ((d.unmarshalHTTPError body).2 ≠ none →
        (client.Client.GetToken d c req).httpErr = some (d.unmarshalHTTPError body).1) := by
  unfold client.Client.GetToken
  simp only [hmarshal, hreq, htoken, hdo, hbody, hstatus, if_true]
  cases hparse : (d.unmarshalHTTPError body).2 with
  | none => simp
  | some e => simp

/-- Witness of C30, on the test `forbidden`: the server answers 403 with a JSON `HTTPError`
that carries the request ID `foo`, and `GetToken` returns no `HTTPError`, only an error
with the raw body. -/
theorem client.GetToken_error_response_witness :
    client.Client.GetToken (client.exampleDeps client.forbidden)
        { ServerURL := "http://localhost:8080" }
        { Repositories := [{ Host := "github.com", Org := "myorg", Repo := "forbidden" }],
          AccessLevel := "read" } =
        { resp := none, httpErr := none,
          err := some (.msg ("token server responded with: 403 Forbidden / " ++
            client.forbiddenBody)) } ∧
      (client.Client.GetToken (client.exampleDeps client.forbidden)
        { ServerURL := "http://localhost:8080" }
        { Repositories := [{ Host := "github.com", Org := "myorg", Repo := "forbidden" }],
          AccessLevel := "read" }).httpErr = none :=
  ⟨by rfl,
    (client.GetToken_error_response (client.exampleDeps client.forbidden)
      { ServerURL := "http://localhost:8080" }
      { Repositories := [{ Host := "github.com", Org := "myorg", Repo := "forbidden" }],
        AccessLevel := "read" } "\x7b\x7d" "validtoken" client.forbiddenBody client.forbidden
      rfl rfl rfl rfl rfl (Or.inr (by decide))).2.2.1 (by rfl)⟩

/-! ### The lists that the handler passes to the Forge-App client -/

/-- The org that `ExtractOrgRepoFromURL` returns holds no slash, whatever the git URL
parser is: it is a part of the path split on `/`. -/
theorem repoparser.Extract_org_no_slash (lib : Lib) (s : String)
    (R : repoparser.RepositoryName) (h : repoparser.ExtractOrgRepoFromURL lib s = .ok R) :
    '/' ∉ R.Org.data := by
  unfold repoparser.ExtractOrgRepoFromURL at h
  simp only at h
  split at h
  · cases h
  · rename_i prURL hparse
    split at h
    · rename_i org repo tail hsplit
      cases h
      have horg : org ∈ strings.Split (strings.TrimLeading prURL.Path "/") "/" := by
        rw [hsplit]; exact List.mem_cons_self _ _
      exact strings.Split_slash_parts _ _ horg
    · cases h

/-- Two `host/org` strings whose orgs hold no slash are equal only if the hosts are equal
and the orgs are equal: the org is what follows the last slash. -/
theorem github.hostOrg_injective (h1 o1 h2 o2 : String)
    (ho1 : '/' ∉ o1.data) (ho2 : '/' ∉ o2.data)
    (h : h1 ++ "/" ++ o1 = h2 ++ "/" ++ o2) : h1 = h2 ∧ o1 = o2 := by
  have hdata : h1.data ++ '/' :: o1.data = h2.data ++ '/' :: o2.data := by
    have := congrArg String.data h
    simpa [String.data_append] using this
  have hrev : o1.data.reverse ++ '/' :: h1.data.reverse =
      o2.data.reverse ++ '/' :: h2.data.reverse := by
    have := congrArg List.reverse hdata
    simpa using this
  have c1 := url.cut_append '/' o1.data.reverse h1.data.reverse
    (fun hm => ho1 (List.mem_reverse.1 hm))
  have c2 := url.cut_append '/' o2.data.reverse h2.data.reverse
    (fun hm => ho2 (List.mem_reverse.1 hm))
  rw [hrev, c2] at c1
  simp only [Prod.mk.injEq, Option.some.injEq] at c1
  obtain ⟨e1, e2⟩ := c1
  constructor
  · exact String.ext (List.reverse_injective e2.symm)
  · exact String.ext (List.reverse_injective e1.symm)

/-- C8. For every list of triples that the handler can pass to `CreateInstallationToken`
(every entry is a result of `ExtractOrgRepoFromURL`, whatever the git URL parser is): if
the list is empty, or if it holds two entries whose (host, org) pairs differ, the call
returns an error and makes no Forge API call: the world and the trace are returned
unchanged, whatever the receiver. -/
theorem github.CreateInstallationToken_rejects_pairs {σ : Type} (lib : Lib) (w : World σ)
    (c : Option github.Client) (repos : List repoparser.RepositoryName)
    (permissions : github.InstallationPermissions) (env : Env σ)
    (hparsed : ∀ r ∈ repos, ∃ s, repoparser.ExtractOrgRepoFromURL lib s = .ok r)
    (h : repos = [] ∨ ∃ a ∈ repos, ∃ b ∈ repos, (a.Host, a.Org) ≠ (b.Host, b.Org)) :
    ∃ err, github.Client.CreateInstallationToken w c repos permissions env = (.err err, env) := by
  apply github.CreateInstallationToken_rejects
  rcases h with h | ⟨a, ha, b, hb, hab⟩
  · exact Or.inl h
  · refine Or.inr ⟨a, ha, b, hb, ?_⟩
    intro e
    obtain ⟨sa, hsa⟩ := hparsed a ha
    obtain ⟨sb, hsb⟩ := hparsed b hb
    have := github.hostOrg_injective a.Host a.Org b.Host b.Org
      (repoparser.Extract_org_no_slash lib sa a hsa)
      (repoparser.Extract_org_no_slash lib sb b hsb) e
    apply hab
    rw [this.1, this.2]

/-- Witness of C8, on the request of the specification's cross-org scenario: the
repositories parsed from `github.com/acme/a` and `github.com/other/b` are in two
organisations, and the list is refused without a call. -/
theorem github.CreateInstallationToken_rejects_pairs_witness :
    ∃ err, github.Client.CreateInstallationToken (server.exampleWorld server.notFound)
        (server.exampleServer.githubAppClients "github.com")
        [{ Host := "github.com", Org := "acme", Repo := "a" },
         { Host := "github.com", Org := "other", Repo := "b" }]
        { Metadata := some "read", Contents := some "read", PullRequests := some "read" }
        server.exampleEnv = (.err err, server.exampleEnv) :=
  github.CreateInstallationToken_rejects_pairs server.exampleLib _ _ _ _ _
    (by
      intro r hr
      rcases List.mem_cons.1 hr with e | hr
      · exact ⟨"github.com/acme/a", by rw [e]; rfl⟩
      · rcases List.mem_cons.1 hr with e | hr
        · exact ⟨"github.com/other/b", by rw [e]; rfl⟩
        · cases hr)
    (Or.inr ⟨{ Host := "github.com", Org := "acme", Repo := "a" }, by decide,
      { Host := "github.com", Org := "other", Repo := "b" }, by decide, by decide⟩)
